import Mathlib

/-!
# A verification development for the DoJobber scheduling engine

This file gives a shallow embedding, in Lean 4, of the core scheduling
engine of `dojobber/dojobber.py`: dependency-graph construction with
cycle detection (`DoJobber._init_deps` / `DoJobber._init_graph`), the
recursive depth-first attempt pass (`DoJobber._checknrun`), the outer
convergence loop (`DoJobber.checknrun`), the per-node retry bookkeeping,
the check/run/recheck job lifecycle, the LIFO cleanup pass
(`DoJobber.cleanup`), and the success / partial-success / failure
queries.

Modelling conventions:

* Job classes are identified by their class names (strings), exactly as
  the Python engine keys `_classmap`, `_retry`, `nodestatus`,
  `noderesults` and `nodeexceptions` by `_class_name`.
* A Python `dict` keyed by node name is an association list
  `List (String × α)` with insertion-order update (`upsert`), so that
  iteration over entries (used by `success`/`partial_success` and the
  retriable scan) is faithful.
* The outcome of a `Check`, `Run`, `Cleanup` call or of constructing a
  job instance is given by the environment (`JobSpec`): each is a
  function of the attempt index (how many instances of that node were
  constructed before) returning `Except Err Val`, with `Except.error`
  standing for a raised exception.  This determinizes arbitrary job
  behaviour: any concrete behaviour of the Python callables corresponds
  to some environment.
* `time.time()` / `time.sleep` are modelled by an integer clock in the
  state; sleeping until the next-eligible timestamp becomes
  `clock := max clock nexttry`.
* Unbounded recursion (the depth-first recursion of `_checknrun`, the
  `while True` convergence loop, the recursion of `_init_deps`, and the
  library depth-first search) is given fuel; running out of fuel yields
  `none`, and every theorem is conditioned on the computation returning
  `some`, i.e. on the Python recursion terminating.
* Ghost logs (`attemptLog`, `runLog`, `checkLog`) record the events
  "lifecycle executor invoked", "Run invoked" and "Check invoked"; they
  let temporal statements ("Run is never called", "a node is never
  attempted while ...") be phrased about reachable states.  The Python
  engine's observable side effects (stderr traces) correspond to these
  events.
* Not modelled: the verbose/debug stderr formatting, the storage
  dictionaries bound to instances, working-directory restoration, the
  graph colour annotations used only by the visualization collaborators,
  and logging configuration.  None of the claims below depend on them.
-/

/-- Result values returned by `Check`/`Run` calls. -/
abbrev Val := Nat

/-- Exceptions raised by `Check`/`Run`/`Cleanup`/constructor calls. -/
abbrev Err := Nat

/-- The two values of `obj._check_phase`: `'check'` or `'recheck'`. -/
inductive CheckPhase where
  | check
  | recheck
deriving DecidableEq, Repr

/-- A node's status as stored in `DoJobber.nodestatus`: Python `None`
(untested), `True` set by `_node_succeeded` (green) or
`_node_eventually_succeeded` (darkgreen), and `False` set by
`_node_failed`.  The succeeded/eventually-succeeded distinction is the
colour distinction of the two `True` writers. -/
inductive NStatus where
  | untested
  | succeeded
  | eventuallySucceeded
  | failed
deriving DecidableEq, Repr

/-- Python truthiness of a `nodestatus` value: `True` (either success
status) is truthy; `False` and `None` are falsy. -/
def truthyS : NStatus → Bool
  | .succeeded => true
  | .eventuallySucceeded => true
  | _ => false

/-- Truthiness of `self.nodestatus.get(depnode)`: a missing key is
`None`, hence falsy. -/
def truthy : Option NStatus → Bool
  | some st => truthyS st
  | none => false

/-- The behaviour of one registered job class, as seen by the engine.
`TRIES`, `RETRY_DELAY` and `DEPS` are the class attributes read by
`_init_deps` (`DEPS = none` models a `DEPS` attribute that is not
iterable; an absent `DEPS` attribute is `some []` because `getattr`
defaults it to `[]`).  `construct`, `Check`, `Run` and `Cleanup` give
the outcome of the corresponding call on the instance created at a
given attempt index; `hasCleanup` models
`callable(getattr(obj, 'Cleanup', None))`. -/
structure JobSpec where
  DEPS : Option (List String)
  TRIES : Option Int
  RETRY_DELAY : Option Int
  construct : Nat → Except Err Unit
  Check : Nat → CheckPhase → Except Err Val
  Run : Nat → Except Err Val
  hasCleanup : Bool
  Cleanup : Nat → Except Err Unit

/-- The environment: every class name resolves to a job behaviour. -/
abbrev Env := String → JobSpec

/-- The configuration accepted by `DoJobber.configure` (the `verbose`
and `debug` flags only control stderr output and are not modelled). -/
structure Config where
  root : String
  no_act : Bool
  cleanup : Bool
  default_tries : Int
  default_retry_delay : Int

/-- One entry of `DoJobber._retry`: tries left, retry delay, the
next-eligible timestamp and the phase of the most recent attempt. -/
structure RetryRec where
  tries : Int
  retry_delay : Int
  nexttry : Int
  lastphase : Int
deriving DecidableEq, Repr

/-- Dictionary update with Python semantics: replace the value of an
existing key in place, else append the new pair at the end. -/
def upsert {α : Type} : List (String × α) → String → α → List (String × α)
  | [], k, v => [(k, v)]
  | (k', v') :: rest, k, v =>
    if k' = k then (k, v) :: rest else (k', v') :: upsert rest k v

theorem lookup_upsert_self {α : Type} (l : List (String × α)) (k : String) (v : α) :
    List.lookup k (upsert l k v) = some v := by
  induction l with
  | nil => simp [upsert, List.lookup]
  | cons p rest ih =>
    obtain ⟨a, b⟩ := p
    by_cases h : a = k
    · subst h; simp [upsert, List.lookup]
    · have hbeq : (k == a) = false := beq_eq_false_iff_ne.mpr fun h' => h h'.symm
      simp [upsert, h, List.lookup, hbeq, ih]

theorem lookup_upsert_ne {α : Type} (l : List (String × α)) (k k' : String) (v : α)
    (h : k' ≠ k) : List.lookup k' (upsert l k v) = List.lookup k' l := by
  have hbeq : (k' == k) = false := beq_eq_false_iff_ne.mpr h
  induction l with
  | nil => simp [upsert, List.lookup, hbeq]
  | cons p rest ih =>
    obtain ⟨a, b⟩ := p
    by_cases ha : a = k
    · subst ha; simp [upsert, List.lookup, hbeq]
    · simp only [upsert, ha, if_false, List.lookup]
      cases hka : (k' == a) <;> simp [ih]

theorem lookup_isSome_upsert {α : Type} (l : List (String × α)) (k k' : String) (v : α)
    (h : (List.lookup k' l).isSome) : (List.lookup k' (upsert l k v)).isSome := by
  by_cases hk : k' = k
  · subst hk; simp [lookup_upsert_self]
  · rwa [lookup_upsert_ne l k k' v hk]

theorem lookup_append_of_none {α : Type} {l₁ : List (String × α)} (l₂ : List (String × α))
    {k : String} (h : List.lookup k l₁ = none) :
    List.lookup k (l₁ ++ l₂) = List.lookup k l₂ := by
  induction l₁ with
  | nil => simp
  | cons p rest ih =>
    obtain ⟨a, b⟩ := p
    simp only [List.lookup, List.cons_append] at h ⊢
    cases hka : (k == a) with
    | true => simp [hka] at h
    | false => simp only [hka] at h ⊢; exact ih h

theorem lookup_append_of_some {α : Type} {l₁ : List (String × α)} (l₂ : List (String × α))
    {k : String} {v : α} (h : List.lookup k l₁ = some v) :
    List.lookup k (l₁ ++ l₂) = some v := by
  induction l₁ with
  | nil => simp [List.lookup] at h
  | cons p rest ih =>
    obtain ⟨a, b⟩ := p
    simp only [List.lookup, List.cons_append] at h ⊢
    cases hka : (k == a) with
    | true => simpa [hka] using h
    | false => simp only [hka] at h ⊢; exact ih h

/-! ## Reachability and the library depth-first search

`_checknrun` calls `pygraph`'s `depth_first_search` and iterates over
the returned postorder.  We embed the library's recursive DFS directly
(visit marks on entry, the node appended to the postorder after its
neighbours), with fuel; and we relate a completed search to the
transitive-closure relation `Reaches`. -/

/-- Transitive reachability along a successor function: `Reaches succ n m`
says `m` is `n` itself or is reachable from `n` through successor
edges.  This is the "transitively closed dependency relation". -/
inductive Reaches (succ : String → List String) : String → String → Prop
  | refl (n : String) : Reaches succ n n
  | head {n d m : String} : d ∈ succ n → Reaches succ d m → Reaches succ n m

theorem Reaches.trans {succ : String → List String} {a b c : String}
    (hab : Reaches succ a b) (hbc : Reaches succ b c) : Reaches succ a c := by
  induction hab with
  | refl => exact hbc
  | head hd _ ih => exact .head hd (ih hbc)

theorem Reaches.of_mem_succ {succ : String → List String} {a b : String}
    (h : b ∈ succ a) : Reaches succ a b := .head h (.refl b)

/-- The inner loop of the library DFS: visit each neighbour in order,
threading the visited set and the postorder accumulator. -/
def dfsChildren (recur : List String → List String → String →
    Option (List String × List String)) :
    List String → List String → List String → Option (List String × List String)
  | [], vis, post => some (vis, post)
  | d :: rest, vis, post =>
    match recur vis post d with
    | none => none
    | some (v, p) => dfsChildren recur rest v p

/-- The library DFS visit: skip an already-visited node, else mark it
visited, recurse into its successors, then append it to the postorder. -/
def dfsVisit (succ : String → List String) : Nat → List String → List String →
    String → Option (List String × List String)
  | 0, _, _, _ => none
  | fuel + 1, vis, post, n =>
    if n ∈ vis then some (vis, post)
    else
      match dfsChildren (dfsVisit succ fuel) (succ n) (n :: vis) post with
      | none => none
      | some (v, p) => some (v, p ++ [n])

/-- `depth_first_search(self.graph, root=nodename)`'s postorder. -/
def dfsPost (succ : String → List String) (fuel : Nat) (root : String) :
    Option (List String) :=
  match dfsVisit succ fuel [] [] root with
  | none => none
  | some (_, post) => some post

/-! ## Engine state

The mutable attributes of a configured `DoJobber` instance that the
scheduling core reads or writes, plus the ghost event logs. -/

/-- One record of the ghost attempt log: the lifecycle executor was
invoked for `node` at attempt index `idx`, during outer phase `phase`,
at time `clock` (after any backoff sleep), with `snap` the contents of
`nodestatus` at that moment. -/
structure AttemptEv where
  node : String
  idx : Nat
  phase : Int
  clock : Int
  snap : List (String × NStatus)
deriving DecidableEq, Repr

/-- The engine state: `nodestatus`, `noderesults`, `nodeexceptions`,
`_run_phase`, `_retry` and `_objsrun` from the Python object, an integer
clock standing for wall-clock time, the per-node count of constructed
instances (which indexes the behaviour functions of `JobSpec`), and the
ghost logs. -/
structure DJState where
  nodestatus : List (String × NStatus)
  noderesults : List (String × Val)
  nodeexceptions : List (String × Err)
  run_phase : Int
  retry : List (String × RetryRec)
  clock : Int
  objsrun : List (String × Nat)
  attemptCount : String → Nat
  attemptLog : List AttemptEv
  runLog : List (String × Nat)
  checkLog : List (String × Nat × CheckPhase)

/-- `self.nodestatus.get(n)`. -/
def statusOf (s : DJState) (n : String) : Option NStatus :=
  List.lookup n s.nodestatus

/-- `self.noderesults` lookup (query surface). -/
def resultOf (s : DJState) (n : String) : Option Val :=
  List.lookup n s.noderesults

/-- `self.nodeexceptions` lookup (query surface). -/
def excOf (s : DJState) (n : String) : Option Err :=
  List.lookup n s.nodeexceptions

/-- `self._retry[n]`.  Every node the scheduler actually reaches is
registered, so the default record (with `tries = 0`, which never passes
the gate) is only a totalization artifact. -/
def getRetry (s : DJState) (n : String) : RetryRec :=
  (List.lookup n s.retry).getD { tries := 0, retry_delay := 0, nexttry := 0, lastphase := 0 }

/-- `DoJobber._node_failed` (minus the colour annotations). -/
def nodeFailed (s : DJState) (n : String) (e : Err) : DJState :=
  { s with
    nodestatus := upsert s.nodestatus n .failed
    nodeexceptions := upsert s.nodeexceptions n e }

/-- `DoJobber._node_succeeded` (minus the colour annotations). -/
def nodeSucceeded (s : DJState) (n : String) (v : Val) : DJState :=
  { s with
    nodestatus := upsert s.nodestatus n .succeeded
    noderesults := upsert s.noderesults n v }

/-- `DoJobber._node_eventually_succeeded` (minus the colour annotations). -/
def nodeEventuallySucceeded (s : DJState) (n : String) (v : Val) : DJState :=
  { s with
    nodestatus := upsert s.nodestatus n .eventuallySucceeded
    noderesults := upsert s.noderesults n v }

/-- Lines 396-397 of `_checknrun`: set the node untested (`None`) if it
has no `nodestatus` entry yet. -/
def markUntested (s : DJState) (n : String) : DJState :=
  if (statusOf s n).isSome then s
  else { s with nodestatus := upsert s.nodestatus n .untested }

/-- Ghost record of a `Check` invocation. -/
def logCheck (s : DJState) (n : String) (k : Nat) (ph : CheckPhase) : DJState :=
  { s with checkLog := s.checkLog ++ [(n, k, ph)] }

/-- The job-lifecycle executor: lines 415-512 of `_checknrun`.
Construct a fresh instance (attempt index `k`); on constructor failure
the node fails with no phases run.  Otherwise append the instance to
`_objsrun` and run check / run / recheck: first `Check` passing makes
the node succeeded; on first-`Check` failure in no-act mode the node
fails immediately; otherwise `Run` is invoked (its failure is captured
in the instance only) and the re-`Check` alone decides between
eventually-succeeded and failed. -/
def lifecycle (cfg : Config) (env : Env) (n : String) (k : Nat) (s : DJState) : DJState :=
  match (env n).construct k with
  | .error e => nodeFailed s n e
  | .ok _ =>
    let s := { s with objsrun := s.objsrun ++ [(n, k)] }
    let s := logCheck s n k .check
    match (env n).Check k .check with
    | .ok v => nodeSucceeded s n v
    | .error e =>
      if cfg.no_act then nodeFailed s n e
      else
        let s := { s with runLog := s.runLog ++ [(n, k)] }
        let s := logCheck s n k .recheck
        match (env n).Check k .recheck with
        | .ok v => nodeEventuallySucceeded s n v
        | .error e2 => nodeFailed s n e2

/-- Lines 399-437 of `_checknrun`, the part guarded by `if not blocked`:
skip unless the current phase is strictly beyond the node's last
attempted phase and tries remain; otherwise sleep out the backoff
window, set the next-eligible time to now plus the retry delay, record
the phase, decrement tries, and invoke the lifecycle executor.
`attemptMark` is the bookkeeping part (lines 406-413, plus the ghost
attempt-log entry and instance counter). -/
def attemptMark (n : String) (s : DJState) : DJState :=
  let r := getRetry s n
  let c1 := max s.clock r.nexttry
  let r1 : RetryRec :=
    { tries := r.tries - 1
      retry_delay := r.retry_delay
      nexttry := c1 + r.retry_delay
      lastphase := s.run_phase }
  { s with
    retry := upsert s.retry n r1
    clock := c1
    attemptCount := fun m => if m = n then s.attemptCount n + 1 else s.attemptCount m
    attemptLog := s.attemptLog ++ [⟨n, s.attemptCount n, s.run_phase, c1, s.nodestatus⟩] }

def gateAndAttempt (cfg : Config) (env : Env) (n : String) (s : DJState) : DJState :=
  let r := getRetry s n
  if !(decide (s.run_phase > r.lastphase)) then s
  else if r.tries = 0 then s
  else lifecycle cfg env n (s.attemptCount n) (attemptMark n s)

/-- Lines 383-394 of `_checknrun`: iterate over the postorder, skipping
the node itself; recurse into any node not currently successful; the
node is blocked if any postorder node is (still) not successful. -/
def depsLoop (recur : DJState → String → Option DJState) :
    List String → String → DJState → Bool → Option (DJState × Bool)
  | [], _, s, b => some (s, b)
  | d :: rest, n, s, b =>
    if d = n then depsLoop recur rest n s b
    else
      match (if truthy (statusOf s d) then some s else recur s d) with
      | none => none
      | some s1 => depsLoop recur rest n s1 (b || !truthy (statusOf s1 d))

/-- `DoJobber._checknrun` for a given node name: run the library DFS
from the node, process the postorder (recursing into unsuccessful
dependencies and computing blockedness), mark the node untested if
never visited, and—when not blocked—apply the retry gate and possibly
attempt the node. -/
def checknrunAux (cfg : Config) (env : Env) (G : String → List String) (dfF : Nat) :
    Nat → DJState → String → Option DJState
  | 0, _, _ => none
  | fuel + 1, s, n =>
    match dfsPost G dfF n with
    | none => none
    | some post =>
      match depsLoop (checknrunAux cfg env G dfF fuel) post n s false with
      | none => none
      | some (s1, blocked) =>
        let s2 := markUntested s1 n
        if blocked then some s2 else some (gateAndAttempt cfg env n s2)

/-- `DoJobber.success`: the `nodestatus` dict is nonempty and every
value is truthy. -/
def success (s : DJState) : Bool :=
  !s.nodestatus.isEmpty && s.nodestatus.all fun p => truthyS p.2

/-- `DoJobber.partial_success`: the `nodestatus` dict is nonempty and
some value is truthy. -/
def partial_success (s : DJState) : Bool :=
  !s.nodestatus.isEmpty && s.nodestatus.any fun p => truthyS p.2

/-- `DoJobber.failure`. -/
def failure (s : DJState) : Bool :=
  !success s

/-- Lines 349-353 of `checknrun`: some registered node has been tried
and failed and still has tries left.  (The Python code indexes
`self.nodestatus[x]` directly; a registered node outside the target's
reachable set would raise `KeyError` there — that crash is not
modelled, a missing entry simply does not count as retriable.) -/
def retriableAny (s : DJState) : Bool :=
  s.retry.any fun p =>
    decide (List.lookup p.1 s.nodestatus = some NStatus.failed) && decide (p.2.tries > 0)

/-- `self._run_phase += 1`. -/
def incPhase (s : DJState) : DJState :=
  { s with run_phase := s.run_phase + 1 }

/-- The `while True` convergence loop of `checknrun` (lines 338-361):
run a depth-first pass; stop on overall success; otherwise advance the
phase counter, stop if no node is retriable, stop if in no-act mode,
else repeat. -/
def checknrunLoop (cfg : Config) (env : Env) (G : String → List String)
    (dfF auxF : Nat) : Nat → DJState → String → Option DJState
  | 0, _, _ => none
  | fuel + 1, s, n =>
    match checknrunAux cfg env G dfF auxF s n with
    | none => none
    | some s1 =>
      if success s1 then some s1
      else
        let s2 := incPhase s1
        if !retriableAny s2 then some s2
        else if cfg.no_act then some s2
        else checknrunLoop cfg env G dfF auxF fuel s2 n

/-- The state initialization at the top of `checknrun` (lines 333-335):
of the per-node maps only `self.nodestatus` is assigned `{}` (the
storage dict, also reset there, is not modelled). -/
def runInit (s : DJState) : DJState :=
  { s with nodestatus := [] }

/-- `DoJobber.cleanup` over an already-reversed instance list: invoke
`Cleanup` on each instance whose class defines a callable `Cleanup`;
a raising `Cleanup` stops the pass and propagates its exception.
Returns the list of instances on which `Cleanup` was invoked, in
invocation order, and the propagated exception if any. -/
def cleanupPass (env : Env) : List (String × Nat) → List (String × Nat) × Option Err
  | [] => ([], none)
  | o :: rest =>
    if (env o.1).hasCleanup then
      match (env o.1).Cleanup o.2 with
      | .ok _ =>
        match cleanupPass env rest with
        | (log, e) => (o :: log, e)
      | .error e => ([o], some e)
    else cleanupPass env rest

/-- `DoJobber.checknrun`: reset `nodestatus`, run the convergence loop
on the requested node (defaulting to the configured root), then — when
cleanup is enabled — run the LIFO cleanup pass over every constructed
instance.  Returns the final state, the list of instances whose
`Cleanup` ran, and the exception propagated out of cleanup if any. -/
def checknrun (cfg : Config) (env : Env) (G : String → List String)
    (dfF auxF loopF : Nat) (s : DJState) (node : Option String) :
    Option (DJState × List (String × Nat) × Option Err) :=
  match checknrunLoop cfg env G dfF auxF loopF (runInit s) (node.getD cfg.root) with
  | none => none
  | some s1 =>
    if cfg.cleanup then
      match cleanupPass env s1.objsrun.reverse with
      | (log, e) => some (s1, log, e)
    else some (s1, [], none)

/-! ## Configuration: `_init_deps`, `_init_graph`, `configure` -/

/-- The resolved tries of a job: its `TRIES` attribute when set (not
`None`), else the configured default. -/
def resolvedTries (env : Env) (cfg : Config) (n : String) : Int :=
  ((env n).TRIES).getD cfg.default_tries

/-- The resolved retry delay of a job: its `RETRY_DELAY` attribute when
set, else the configured default. -/
def resolvedDelay (env : Env) (cfg : Config) (n : String) : Int :=
  ((env n).RETRY_DELAY).getD cfg.default_retry_delay

/-- The dependency list a job declares, with a non-iterable `DEPS`
contributing no edges (the declaration itself is a configuration
error). -/
def depsListD (env : Env) (n : String) : List String :=
  ((env n).DEPS).getD []

/-- The state built up by `_init_deps`: `_classmap` (we keep only the
registration order of the names), `_retry`, and `_deps`. -/
structure ConfSt where
  classmap : List String
  retry : List (String × RetryRec)
  deps : List (String × List String)
deriving DecidableEq, Repr

/-- The configuration errors raised by `_init_deps` (`RETRY_DELAY`
negative, `TRIES` below one, `DEPS` not iterable) and by `_init_graph`:
`dupEdge n d` is the graph library's `AdditionError` from `add_edge`
when node `n` declares the dependency `d` twice (the edge is already in
the graph), and `cycle n d` is the cycle error, identifying the
offending cycle by a node `n` lying on it and the declared dependency
`d` through which the cycle closes (the Python message embeds the node
list `cycles.find_cycle` returns; errors in this model carry
identifying data rather than message strings throughout). -/
inductive CfgErr where
  | negDelay (n : String)
  | badTries (n : String)
  | nonIterable (n : String)
  | dupEdge (n d : String)
  | cycle (n d : String)
deriving DecidableEq, Repr

/-- The `for dep in deps` recursion of `_init_deps`. -/
def initDepsList (recur : ConfSt → String → Option (Except CfgErr ConfSt)) :
    List String → ConfSt → Option (Except CfgErr ConfSt)
  | [], st => some (.ok st)
  | d :: rest, st =>
    match recur st d with
    | none => none
    | some (.error e) => some (.error e)
    | some (.ok st1) => initDepsList recur rest st1

/-- The retry record `_init_deps` creates for a node: tries and delay
resolved from the class attributes or the configured defaults,
next-eligible = now, last attempted phase = −1. -/
def freshRec (env : Env) (cfg : Config) (t0 : Int) (m : String) : RetryRec :=
  { tries := resolvedTries env cfg m
    retry_delay := resolvedDelay env cfg m
    nexttry := t0
    lastphase := -1 }

/-- `DoJobber._init_deps`: register a not-yet-seen class, resolve and
validate its retry metadata, create its retry record, reject a
non-iterable `DEPS`, recurse into the dependencies, and finally record
the dependency name list.  `t0` is the configuration-time clock value.
(The Python code inserts the name into `_classmap` before validating;
since a validation error aborts the whole configuration, folding the
insertion into the recursive call site is observationally the same.) -/
def initDeps (env : Env) (cfg : Config) (t0 : Int) :
    Nat → ConfSt → String → Option (Except CfgErr ConfSt)
  | 0, _, _ => none
  | fuel + 1, st, n =>
    if n ∈ st.classmap then some (.ok st)
    else if resolvedDelay env cfg n < 0 then some (.error (.negDelay n))
    else if resolvedTries env cfg n < 1 then some (.error (.badTries n))
    else
      match (env n).DEPS with
      | none => some (.error (.nonIterable n))
      | some ds =>
        match initDepsList (initDeps env cfg t0 fuel) ds
            { classmap := st.classmap ++ [n]
              retry := st.retry ++ [(n, freshRec env cfg t0 n)]
              deps := st.deps } with
        | none => none
        | some (.error e) => some (.error e)
        | some (.ok st3) => some (.ok { st3 with deps := st3.deps ++ [(n, ds)] })

/-- The successor function of the built graph: the neighbours of a
registered node are its recorded dependency names in declaration
order (the order `_init_graph` adds the edges). -/
def succOf (st : ConfSt) (n : String) : List String :=
  (List.lookup n st.deps).getD []

/-- Check whether the node `n` lies on a cycle through one of the
successors in `l`: the first `d ∈ l` that reaches back to `n`, if any.
Models `cycles.find_cycle(self.graph)` from the graph library, which
returns a non-empty cycle exactly when the graph has one; the model
keeps the anchor of the cycle found (see `CfgErr.cycle`). -/
def cycleFromAny (succ : String → List String) (dfF : Nat) (n : String) :
    List String → Option (Option String)
  | [] => some none
  | d :: rest =>
    match dfsPost succ dfF d with
    | none => none
    | some post => if n ∈ post then some (some d) else cycleFromAny succ dfF n rest

/-- Scan all registered nodes for a cycle (see `cycleFromAny`). -/
def findCycleB (succ : String → List String) (dfF : Nat) :
    List String → Option (Option (String × String))
  | [] => some none
  | n :: rest =>
    match cycleFromAny succ dfF n (succ n) with
    | none => none
    | some (some d) => some (some (n, d))
    | some none => findCycleB succ dfF rest

/-- The inner `add_edge` loop of `_init_graph` over one registered
node's recorded dependency list (`seen` is the list of dependencies
already added for this node).  The graph library's `digraph.add_edge`
raises `AdditionError` when the edge being added is already present;
edges added for a different source node cannot collide, so the call
fails exactly at the first dependency name already added for this node.
(The missing-node branch of `add_edge` is unreachable from `configure`:
`_init_deps` registers every listed dependency before `_init_graph`
runs.)  Returns the error of the failing `add_edge`, if any. -/
def addEdges (n : String) : List String → List String → Option CfgErr
  | _, [] => none
  | seen, d :: rest =>
    if d ∈ seen then some (.dupEdge n d) else addEdges n (seen ++ [d]) rest

/-- The outer `add_edge` loop of `_init_graph`: add the recorded
dependency edges of every registered node, in registration order,
stopping at the first `AdditionError`. -/
def addAllEdges (st : ConfSt) : List String → Option CfgErr
  | [] => none
  | n :: rest =>
    match addEdges n [] (succOf st n) with
    | some e => some e
    | none => addAllEdges st rest

/-- `DoJobber._init_graph`: add one edge per (node, recorded dependency)
pair of the registered classes — a duplicate declared dependency makes
`add_edge` raise — and then fail if the resulting graph contains a
cycle.  The edge set is exactly `succOf st`. -/
def initGraph (st : ConfSt) (dfF : Nat) : Option (Except CfgErr Unit) :=
  match addAllEdges st st.classmap with
  | some e => some (.error e)
  | none =>
    match findCycleB (succOf st) dfF st.classmap with
    | none => none
    | some (some (n, d)) => some (.error (.cycle n d))
    | some none => some (.ok ())

/-- `DoJobber.configure` / `_load_class`: build the dependency state
from the root job, then build and check the graph.  On success the
returned `ConfSt` is the graph and metadata reused by every run. -/
def configure (env : Env) (cfg : Config) (dfF fuel : Nat) (t0 : Int) :
    Option (Except CfgErr ConfSt) :=
  match initDeps env cfg t0 fuel { classmap := [], retry := [], deps := [] } cfg.root with
  | none => none
  | some (.error e) => some (.error e)
  | some (.ok st) =>
    match initGraph st dfF with
    | none => none
    | some (.error e) => some (.error e)
    | some (.ok _) => some (.ok st)

/-- The engine state of a freshly configured `DoJobber` (`__init__`
plus `configure`): empty status/result/exception maps, phase counter 0,
the retry records built by `_init_deps`, no constructed instances, and
empty ghost logs. -/
def initialState (st : ConfSt) (t0 : Int) : DJState :=
  { nodestatus := []
    noderesults := []
    nodeexceptions := []
    run_phase := 0
    retry := st.retry
    clock := t0
    objsrun := []
    attemptCount := fun _ => 0
    attemptLog := []
    runLog := []
    checkLog := [] }

/-- A job declaration that `_init_deps` rejects: negative resolved
retry delay, resolved tries below one, or a non-iterable dependency
list. -/
def badJob (env : Env) (cfg : Config) (n : String) : Prop :=
  resolvedDelay env cfg n < 0 ∨ resolvedTries env cfg n < 1 ∨ (env n).DEPS = none

/-! ## Correctness of the embedded depth-first search

A completed `dfsPost` returns exactly the set of nodes reachable from
the root, which lets the claims be phrased against the abstract
transitive dependency relation `Reaches`. -/

/-- Postcondition of one completed DFS visit from `n`: the visited set
grows, the postorder is extended, `n` is visited, every newly visited
node is reachable from `n`, the postorder stays within the visited set,
every new postorder node has all successors visited, and every visited
node is finished (in the postorder). -/
def DfsSpec (succ : String → List String) (vis post : List String) (n : String)
    (v p : List String) : Prop :=
  (∀ m, m ∈ vis → m ∈ v)
  ∧ (∃ new, p = post ++ new)
  ∧ n ∈ v
  ∧ (∀ m, m ∈ v → m ∈ vis ∨ Reaches succ n m)
  ∧ ((∀ m, m ∈ post → m ∈ vis) → ∀ m, m ∈ p → m ∈ v)
  ∧ (∀ m, m ∈ p → m ∈ post ∨ ∀ d, d ∈ succ m → d ∈ v)
  ∧ (∀ m, m ∈ v → m ∈ vis ∨ m ∈ p)

/-- Postcondition of the inner neighbour loop, over the target list. -/
def DfsSpecL (succ : String → List String) (vis post : List String) (l : List String)
    (v p : List String) : Prop :=
  (∀ m, m ∈ vis → m ∈ v)
  ∧ (∃ new, p = post ++ new)
  ∧ (∀ d, d ∈ l → d ∈ v)
  ∧ (∀ m, m ∈ v → m ∈ vis ∨ ∃ d, d ∈ l ∧ Reaches succ d m)
  ∧ ((∀ m, m ∈ post → m ∈ vis) → ∀ m, m ∈ p → m ∈ v)
  ∧ (∀ m, m ∈ p → m ∈ post ∨ ∀ d, d ∈ succ m → d ∈ v)
  ∧ (∀ m, m ∈ v → m ∈ vis ∨ m ∈ p)

theorem dfsChildren_spec {succ : String → List String}
    {recur : List String → List String → String → Option (List String × List String)}
    (hrec : ∀ vis post d v p, recur vis post d = some (v, p) → DfsSpec succ vis post d v p) :
    ∀ l vis post v p, dfsChildren recur l vis post = some (v, p) →
      DfsSpecL succ vis post l v p := by
  intro l
  induction l with
  | nil =>
    intro vis post v p h
    simp only [dfsChildren, Option.some.injEq, Prod.mk.injEq] at h
    obtain ⟨rfl, rfl⟩ := h
    exact ⟨fun m hm => hm, ⟨[], by simp⟩, by simp, fun m hm => .inl hm,
      fun hpv m hm => hpv m hm, fun m hm => .inl hm, fun m hm => .inl hm⟩
  | cons d rest ih =>
    intro vis post v p h
    simp only [dfsChildren] at h
    cases hr : recur vis post d with
    | none => rw [hr] at h; exact absurd h (by simp)
    | some vp =>
      obtain ⟨v1, p1⟩ := vp
      rw [hr] at h
      simp only at h
      obtain ⟨m1, ⟨new1, hp1⟩, tgt1, snd1, ps1, cl1, fin1⟩ := hrec _ _ _ _ _ hr
      obtain ⟨m2, ⟨new2, hp2⟩, tgt2, snd2, ps2, cl2, fin2⟩ := ih _ _ _ _ h
      have hp1sub : ∀ m, m ∈ p1 → m ∈ p := by
        intro m hm; rw [hp2]; exact List.mem_append_left _ hm
      refine ⟨fun m hm => m2 m (m1 m hm), ⟨new1 ++ new2, by rw [hp2, hp1, List.append_assoc]⟩,
        ?_, ?_, ?_, ?_, ?_⟩
      · intro e he
        rcases List.mem_cons.mp he with rfl | he'
        · exact m2 _ tgt1
        · exact tgt2 _ he'
      · intro m hm
        rcases snd2 m hm with hm1 | ⟨e, he, hre⟩
        · rcases snd1 m hm1 with hvis | hre
          · exact .inl hvis
          · exact .inr ⟨d, List.mem_cons_self _ _, hre⟩
        · exact .inr ⟨e, List.mem_cons_of_mem _ he, hre⟩
      · intro hpv m hm
        have hps1 : ∀ m, m ∈ p1 → m ∈ v1 := ps1 hpv
        exact ps2 hps1 m hm
      · intro m hm
        rcases cl2 m hm with hm1 | hcl
        · rcases cl1 m hm1 with hpost | hcl
          · exact .inl hpost
          · exact .inr fun e he => m2 _ (hcl e he)
        · exact .inr hcl
      · intro m hm
        rcases fin2 m hm with hm1 | hp
        · rcases fin1 m hm1 with hvis | hp1m
          · exact .inl hvis
          · exact .inr (hp1sub m hp1m)
        · exact .inr hp

theorem dfsVisit_spec (succ : String → List String) :
    ∀ fuel vis post n v p, dfsVisit succ fuel vis post n = some (v, p) →
      DfsSpec succ vis post n v p := by
  intro fuel
  induction fuel with
  | zero => intro vis post n v p h; simp [dfsVisit] at h
  | succ f ih =>
    intro vis post n v p h
    simp only [dfsVisit] at h
    by_cases hv : n ∈ vis
    · rw [if_pos hv] at h
      simp only [Option.some.injEq, Prod.mk.injEq] at h
      obtain ⟨rfl, rfl⟩ := h
      exact ⟨fun m hm => hm, ⟨[], by simp⟩, hv, fun m hm => .inl hm,
        fun hpv m hm => hpv m hm, fun m hm => .inl hm, fun m hm => .inl hm⟩
    · rw [if_neg hv] at h
      cases hc : dfsChildren (dfsVisit succ f) (succ n) (n :: vis) post with
      | none => rw [hc] at h; exact absurd h (by simp)
      | some vp =>
        obtain ⟨v0, p0⟩ := vp
        rw [hc] at h
        simp only [Option.some.injEq, Prod.mk.injEq] at h
        obtain ⟨rfl, rfl⟩ := h
        obtain ⟨m1, ⟨new1, hp1⟩, tgt1, snd1, ps1, cl1, fin1⟩ :=
          dfsChildren_spec (fun a b c d e hh => ih a b c d e hh) _ _ _ _ _ hc
        have hnv : n ∈ v0 := m1 n (List.mem_cons_self _ _)
        refine ⟨fun m hm => m1 m (List.mem_cons_of_mem _ hm),
          ⟨new1 ++ [n], by rw [hp1, List.append_assoc]⟩, hnv, ?_, ?_, ?_, ?_⟩
        · intro m hm
          rcases snd1 m hm with hm1 | ⟨e, he, hre⟩
          · rcases List.mem_cons.mp hm1 with rfl | hvis
            · exact .inr (Reaches.refl m)
            · exact .inl hvis
          · exact .inr (Reaches.head he hre)
        · intro hpv m hm
          rcases List.mem_append.mp hm with hm0 | hm0
          · exact ps1 (fun q hq => List.mem_cons_of_mem _ (hpv q hq)) m hm0
          · rw [List.mem_singleton.mp hm0]; exact hnv
        · intro m hm
          rcases List.mem_append.mp hm with hm0 | hm0
          · rcases cl1 m hm0 with hpost | hcl
            · exact .inl hpost
            · exact .inr hcl
          · rw [List.mem_singleton.mp hm0]
            exact .inr fun e he => tgt1 e he
        · intro m hm
          rcases fin1 m hm with hm1 | hp0
          · rcases List.mem_cons.mp hm1 with rfl | hvis
            · exact .inr (List.mem_append.mpr (.inr (List.mem_singleton.mpr rfl)))
            · exact .inl hvis
          · exact .inr (List.mem_append.mpr (.inl hp0))

/-- Stepping through a list closed under successors. -/
theorem Reaches_closed_mem {succ : String → List String} {p : List String}
    (hstep : ∀ a b, a ∈ p → b ∈ succ a → b ∈ p) :
    ∀ {a b}, Reaches succ a b → a ∈ p → b ∈ p := by
  intro a b h
  induction h with
  | refl => exact id
  | head hd _ ih => intro ha; exact ih (hstep _ _ ha hd)

/-- Main DFS theorem: a completed `depth_first_search` postorder from
`root` contains exactly the nodes reachable from `root`. -/
theorem dfsPost_mem_iff {succ : String → List String} {fuel : Nat} {root : String}
    {post : List String} (h : dfsPost succ fuel root = some post) :
    ∀ m, m ∈ post ↔ Reaches succ root m := by
  unfold dfsPost at h
  cases hv : dfsVisit succ fuel [] [] root with
  | none => rw [hv] at h; exact absurd h (by simp)
  | some vp =>
    obtain ⟨v, p⟩ := vp
    rw [hv] at h
    simp only [Option.some.injEq] at h
    obtain ⟨_, _, htgt, hsound, hpostsub, hclosed, hfin⟩ := dfsVisit_spec succ _ _ _ _ _ _ hv
    intro m
    rw [← h]
    have hpv : ∀ m, m ∈ p → m ∈ v := hpostsub (by simp)
    have hrootp : root ∈ p := (hfin root htgt).resolve_left (by simp)
    have hstep : ∀ a b, a ∈ p → b ∈ succ a → b ∈ p := by
      intro a b ha hb
      have hcl := (hclosed a ha).resolve_left (by simp)
      exact (hfin b (hcl b hb)).resolve_left (by simp)
    constructor
    · intro hm
      exact ((hsound m (hpv m hm)).resolve_left (by simp))
    · intro hr
      exact Reaches_closed_mem hstep hr hrootp

/-- The root always belongs to its own completed postorder. -/
theorem dfsPost_root_mem {succ : String → List String} {fuel : Nat} {root : String}
    {post : List String} (h : dfsPost succ fuel root = some post) : root ∈ post :=
  (dfsPost_mem_iff h root).mpr (Reaches.refl root)

/-! ## Characterization and frame lemmas for the engine steps -/

instance : Inhabited DJState :=
  ⟨initialState { classmap := [], retry := [], deps := [] } 0⟩

/-- The status the lifecycle executor assigns to the attempted node, as
a function of the constructor and `Check` outcomes alone (the `Run`
outcome does not appear). -/
def lifecycleStatus (cfg : Config) (env : Env) (n : String) (k : Nat) : NStatus :=
  match (env n).construct k with
  | .error _ => .failed
  | .ok _ =>
    match (env n).Check k .check with
    | .ok _ => .succeeded
    | .error _ =>
      if cfg.no_act then .failed
      else
        match (env n).Check k .recheck with
        | .ok _ => .eventuallySucceeded
        | .error _ => .failed

theorem lifecycle_status_self (cfg : Config) (env : Env) (n : String) (k : Nat)
    (s : DJState) :
    statusOf (lifecycle cfg env n k s) n = some (lifecycleStatus cfg env n k) := by
  cases hc : (env n).construct k with
  | error e =>
    simp only [lifecycle, lifecycleStatus, hc]
    exact lookup_upsert_self _ _ _
  | ok u =>
    cases hch : (env n).Check k CheckPhase.check with
    | ok v =>
      simp only [lifecycle, lifecycleStatus, hc, hch]
      exact lookup_upsert_self _ _ _
    | error e =>
      cases hna : cfg.no_act with
      | true =>
        simp only [lifecycle, lifecycleStatus, hc, hch, hna, if_true]
        exact lookup_upsert_self _ _ _
      | false =>
        cases hcr : (env n).Check k CheckPhase.recheck with
        | ok v =>
          simp only [lifecycle, lifecycleStatus, hc, hch, hna, Bool.false_eq_true,
            if_false, hcr]
          exact lookup_upsert_self _ _ _
        | error e2 =>
          simp only [lifecycle, lifecycleStatus, hc, hch, hna, Bool.false_eq_true,
            if_false, hcr]
          exact lookup_upsert_self _ _ _

theorem lifecycle_frame (cfg : Config) (env : Env) (n : String) (k : Nat) (s : DJState) :
    (lifecycle cfg env n k s).run_phase = s.run_phase
  ∧ (lifecycle cfg env n k s).retry = s.retry
  ∧ (lifecycle cfg env n k s).clock = s.clock
  ∧ (lifecycle cfg env n k s).attemptCount = s.attemptCount
  ∧ (lifecycle cfg env n k s).attemptLog = s.attemptLog
  ∧ (∃ l, (lifecycle cfg env n k s).objsrun = s.objsrun ++ l)
  ∧ (∃ l, (lifecycle cfg env n k s).runLog = s.runLog ++ l)
  ∧ (∃ l, (lifecycle cfg env n k s).checkLog = s.checkLog ++ l)
  ∧ (∀ m, m ≠ n → statusOf (lifecycle cfg env n k s) m = statusOf s m)
  ∧ (∀ m, m ≠ n → resultOf (lifecycle cfg env n k s) m = resultOf s m)
  ∧ (∀ m, m ≠ n → excOf (lifecycle cfg env n k s) m = excOf s m) := by
  cases hc : (env n).construct k with
  | error e =>
    simp only [lifecycle, hc]
    exact ⟨rfl, rfl, rfl, rfl, rfl, ⟨[], by simp [nodeFailed]⟩,
      ⟨[], by simp [nodeFailed]⟩, ⟨[], by simp [nodeFailed]⟩,
      fun m hm => lookup_upsert_ne _ _ _ _ hm, fun m hm => rfl,
      fun m hm => lookup_upsert_ne _ _ _ _ hm⟩
  | ok u =>
    cases hch : (env n).Check k CheckPhase.check with
    | ok v =>
      simp only [lifecycle, hc, hch]
      exact ⟨rfl, rfl, rfl, rfl, rfl, ⟨[(n, k)], by simp [nodeSucceeded, logCheck]⟩,
        ⟨[], by simp [nodeSucceeded, logCheck]⟩,
        ⟨[(n, k, CheckPhase.check)], by simp [nodeSucceeded, logCheck]⟩,
        fun m hm => lookup_upsert_ne _ _ _ _ hm,
        fun m hm => lookup_upsert_ne _ _ _ _ hm, fun m hm => rfl⟩
    | error e =>
      cases hna : cfg.no_act with
      | true =>
        simp only [lifecycle, hc, hch, hna, if_true]
        exact ⟨rfl, rfl, rfl, rfl, rfl, ⟨[(n, k)], by simp [nodeFailed, logCheck]⟩,
          ⟨[], by simp [nodeFailed, logCheck]⟩,
          ⟨[(n, k, CheckPhase.check)], by simp [nodeFailed, logCheck]⟩,
          fun m hm => lookup_upsert_ne _ _ _ _ hm, fun m hm => rfl,
          fun m hm => lookup_upsert_ne _ _ _ _ hm⟩
      | false =>
        cases hcr : (env n).Check k CheckPhase.recheck with
        | ok v =>
          simp only [lifecycle, hc, hch, hna, Bool.false_eq_true, if_false, hcr]
          exact ⟨rfl, rfl, rfl, rfl, rfl,
            ⟨[(n, k)], by simp [nodeEventuallySucceeded, logCheck]⟩,
            ⟨[(n, k)], by simp [nodeEventuallySucceeded, logCheck]⟩,
            ⟨[(n, k, CheckPhase.check), (n, k, CheckPhase.recheck)],
              by simp [nodeEventuallySucceeded, logCheck]⟩,
            fun m hm => lookup_upsert_ne _ _ _ _ hm,
            fun m hm => lookup_upsert_ne _ _ _ _ hm, fun m hm => rfl⟩
        | error e2 =>
          simp only [lifecycle, hc, hch, hna, Bool.false_eq_true, if_false, hcr]
          exact ⟨rfl, rfl, rfl, rfl, rfl,
            ⟨[(n, k)], by simp [nodeFailed, logCheck]⟩,
            ⟨[(n, k)], by simp [nodeFailed, logCheck]⟩,
            ⟨[(n, k, CheckPhase.check), (n, k, CheckPhase.recheck)],
              by simp [nodeFailed, logCheck]⟩,
            fun m hm => lookup_upsert_ne _ _ _ _ hm, fun m hm => rfl,
            fun m hm => lookup_upsert_ne _ _ _ _ hm⟩

theorem attemptMark_frame (n : String) (s : DJState) :
    (attemptMark n s).nodestatus = s.nodestatus
  ∧ (attemptMark n s).noderesults = s.noderesults
  ∧ (attemptMark n s).nodeexceptions = s.nodeexceptions
  ∧ (attemptMark n s).run_phase = s.run_phase
  ∧ (attemptMark n s).objsrun = s.objsrun
  ∧ (attemptMark n s).runLog = s.runLog
  ∧ (attemptMark n s).checkLog = s.checkLog
  ∧ (attemptMark n s).attemptLog = s.attemptLog ++
      [⟨n, s.attemptCount n, s.run_phase, max s.clock (getRetry s n).nexttry, s.nodestatus⟩]
  ∧ (attemptMark n s).clock = max s.clock (getRetry s n).nexttry
  ∧ getRetry (attemptMark n s) n =
      { tries := (getRetry s n).tries - 1
        retry_delay := (getRetry s n).retry_delay
        nexttry := max s.clock (getRetry s n).nexttry + (getRetry s n).retry_delay
        lastphase := s.run_phase }
  ∧ (∀ m, m ≠ n → getRetry (attemptMark n s) m = getRetry s m) := by
  refine ⟨rfl, rfl, rfl, rfl, rfl, rfl, rfl, rfl, rfl, ?_, ?_⟩
  · show (List.lookup n (upsert s.retry n _)).getD _ = _
    rw [lookup_upsert_self]
    rfl
  · intro m hm
    show (List.lookup m (upsert s.retry n _)).getD _ = _
    rw [lookup_upsert_ne _ _ _ _ hm]
    rfl

/-- The retry gate: either the attempt is skipped (phase already tried,
or tries exhausted) and the state is unchanged, or the gate conditions
hold and the bookkeeping plus the lifecycle executor run. -/
theorem gateAndAttempt_spec (cfg : Config) (env : Env) (n : String) (s : DJState) :
    ((¬ (getRetry s n).lastphase < s.run_phase ∨ (getRetry s n).tries = 0) ∧
      gateAndAttempt cfg env n s = s)
  ∨ ((getRetry s n).lastphase < s.run_phase ∧ (getRetry s n).tries ≠ 0 ∧
      gateAndAttempt cfg env n s =
        lifecycle cfg env n (s.attemptCount n) (attemptMark n s)) := by
  unfold gateAndAttempt
  by_cases h1 : s.run_phase > (getRetry s n).lastphase
  · by_cases h2 : (getRetry s n).tries = 0
    · refine .inl ⟨.inr h2, ?_⟩
      rw [if_neg (by simp [h1]), if_pos h2]
    · refine .inr ⟨h1, h2, ?_⟩
      rw [if_neg (by simp [h1]), if_neg h2]
  · refine .inl ⟨.inl h1, ?_⟩
    rw [if_pos (by simp [h1])]

theorem statusOf_markUntested_ne {s : DJState} {n m : String} (hm : m ≠ n) :
    statusOf (markUntested s n) m = statusOf s m := by
  unfold markUntested
  by_cases hs : (statusOf s n).isSome
  · rw [if_pos hs]
  · rw [if_neg hs]
    exact lookup_upsert_ne _ _ _ _ hm

theorem statusOf_markUntested_isSome (s : DJState) (n : String) :
    (statusOf (markUntested s n) n).isSome := by
  unfold markUntested
  by_cases hs : (statusOf s n).isSome
  · rwa [if_pos hs]
  · rw [if_neg hs]
    show (List.lookup n (upsert s.nodestatus n _)).isSome
    rw [lookup_upsert_self]
    rfl

theorem markUntested_frame (n : String) (s : DJState) :
    (markUntested s n).noderesults = s.noderesults
  ∧ (markUntested s n).nodeexceptions = s.nodeexceptions
  ∧ (markUntested s n).run_phase = s.run_phase
  ∧ (markUntested s n).retry = s.retry
  ∧ (markUntested s n).clock = s.clock
  ∧ (markUntested s n).attemptCount = s.attemptCount
  ∧ (markUntested s n).attemptLog = s.attemptLog
  ∧ (markUntested s n).objsrun = s.objsrun
  ∧ (markUntested s n).runLog = s.runLog
  ∧ (markUntested s n).checkLog = s.checkLog := by
  unfold markUntested
  by_cases hs : (statusOf s n).isSome
  · rw [if_pos hs]
    exact ⟨rfl, rfl, rfl, rfl, rfl, rfl, rfl, rfl, rfl, rfl⟩
  · rw [if_neg hs]
    exact ⟨rfl, rfl, rfl, rfl, rfl, rfl, rfl, rfl, rfl, rfl⟩

/-! ## Generic invariant preservation through the scheduler recursion

Any predicate preserved by the two state-mutating steps of a
depth-first pass (`markUntested` and `gateAndAttempt`) is preserved by
`_checknrun`; adding preservation under the phase increment lifts it
through the convergence loop, and adding the run initialization lifts
it through `checknrun`. -/

theorem depsLoop_pres {P : DJState → Prop} {recur : DJState → String → Option DJState}
    (hrec : ∀ s d s', recur s d = some s' → P s → P s') :
    ∀ l n s b r, depsLoop recur l n s b = some r → P s → P r.1 := by
  intro l
  induction l with
  | nil =>
    intro n s b r h hP
    simp only [depsLoop, Option.some.injEq] at h
    rw [← h]
    exact hP
  | cons d rest ih =>
    intro n s b r h hP
    simp only [depsLoop] at h
    by_cases hd : d = n
    · rw [if_pos hd] at h
      exact ih _ _ _ _ h hP
    · rw [if_neg hd] at h
      by_cases ht : truthy (statusOf s d) = true
      · rw [if_pos ht] at h
        simp only at h
        exact ih _ _ _ _ h hP
      · rw [if_neg ht] at h
        cases hr : recur s d with
        | none => rw [hr] at h; exact absurd h (by simp)
        | some s1 =>
          rw [hr] at h
          simp only at h
          exact ih _ _ _ _ h (hrec _ _ _ hr hP)

theorem checknrunAux_pres {cfg : Config} {env : Env} {G : String → List String} {dfF : Nat}
    {P : DJState → Prop}
    (hU : ∀ s n, P s → P (markUntested s n))
    (hA : ∀ s n, P s → P (gateAndAttempt cfg env n s)) :
    ∀ fuel s n s', checknrunAux cfg env G dfF fuel s n = some s' → P s → P s' := by
  intro fuel
  induction fuel with
  | zero => intro s n s' h hP; simp [checknrunAux] at h
  | succ f ih =>
    intro s n s' h hP
    simp only [checknrunAux] at h
    cases hdfs : dfsPost G dfF n with
    | none => rw [hdfs] at h; exact absurd h (by simp)
    | some post =>
      rw [hdfs] at h
      simp only at h
      cases hdl : depsLoop (checknrunAux cfg env G dfF f) post n s false with
      | none => rw [hdl] at h; exact absurd h (by simp)
      | some r =>
        obtain ⟨s1, blocked⟩ := r
        rw [hdl] at h
        simp only at h
        have hP1 : P s1 := depsLoop_pres (fun a b c hh hp => ih a b c hh hp) _ _ _ _ _ hdl hP
        by_cases hb : blocked = true
        · rw [if_pos hb] at h
          exact (Option.some.inj h) ▸ hU s1 n hP1
        · rw [if_neg hb] at h
          exact (Option.some.inj h) ▸ hA (markUntested s1 n) n (hU s1 n hP1)

theorem checknrunLoop_pres {cfg : Config} {env : Env} {G : String → List String}
    {dfF auxF : Nat} {P : DJState → Prop}
    (hU : ∀ s n, P s → P (markUntested s n))
    (hA : ∀ s n, P s → P (gateAndAttempt cfg env n s))
    (hPh : ∀ s, P s → P (incPhase s)) :
    ∀ fuel s n s', checknrunLoop cfg env G dfF auxF fuel s n = some s' → P s → P s' := by
  intro fuel
  induction fuel with
  | zero => intro s n s' h hP; simp [checknrunLoop] at h
  | succ f ih =>
    intro s n s' h hP
    simp only [checknrunLoop] at h
    cases ha : checknrunAux cfg env G dfF auxF s n with
    | none => rw [ha] at h; exact absurd h (by simp)
    | some s1 =>
      rw [ha] at h
      simp only at h
      have hP1 : P s1 := checknrunAux_pres hU hA _ _ _ _ ha hP
      by_cases hs : success s1 = true
      · rw [if_pos hs] at h
        exact (Option.some.inj h) ▸ hP1
      · rw [if_neg hs] at h
        have hP2 : P (incPhase s1) := hPh _ hP1
        by_cases hr : (!retriableAny (incPhase s1)) = true
        · rw [if_pos hr] at h
          exact (Option.some.inj h) ▸ hP2
        · rw [if_neg hr] at h
          by_cases hna : cfg.no_act = true
          · rw [if_pos hna] at h
            exact (Option.some.inj h) ▸ hP2
          · rw [if_neg hna] at h
            exact ih _ _ _ h hP2

theorem checknrun_pres {cfg : Config} {env : Env} {G : String → List String}
    {dfF auxF loopF : Nat} {P : DJState → Prop}
    (hR : ∀ s, P s → P (runInit s))
    (hU : ∀ s n, P s → P (markUntested s n))
    (hA : ∀ s n, P s → P (gateAndAttempt cfg env n s))
    (hPh : ∀ s, P s → P (incPhase s)) :
    ∀ s node r, checknrun cfg env G dfF auxF loopF s node = some r → P s → P r.1 := by
  intro s node r h hP
  simp only [checknrun] at h
  cases hl : checknrunLoop cfg env G dfF auxF loopF (runInit s) (node.getD cfg.root) with
  | none => rw [hl] at h; exact absurd h (by simp)
  | some s1 =>
    rw [hl] at h
    simp only at h
    have hP1 : P s1 := checknrunLoop_pres hU hA hPh _ _ _ _ hl (hR _ hP)
    by_cases hc : cfg.cleanup = true
    · rw [if_pos hc] at h
      cases hcp : cleanupPass env s1.objsrun.reverse with
      | mk log e =>
        rw [hcp] at h
        simp only at h
        rw [← Option.some.inj h]
        exact hP1
    · rw [if_neg hc] at h
      rw [← Option.some.inj h]
      exact hP1

/-! ## Status monotonicity, coverage and key bounds of a pass -/

theorem truthy_isSome {o : Option NStatus} (h : truthy o = true) : o.isSome := by
  cases o with
  | none => simp [truthy] at h
  | some st => rfl

theorem statusOf_attemptMark (n : String) (s : DJState) (m : String) :
    statusOf (attemptMark n s) m = statusOf s m := by
  unfold statusOf
  rw [(attemptMark_frame n s).1]

theorem statusOf_gateAndAttempt_ne {cfg : Config} {env : Env} {s : DJState}
    {n m : String} (hm : m ≠ n) :
    statusOf (gateAndAttempt cfg env n s) m = statusOf s m := by
  rcases gateAndAttempt_spec cfg env n s with ⟨_, heq⟩ | ⟨_, _, heq⟩
  · rw [heq]
  · rw [heq]
    obtain ⟨_, _, _, _, _, _, _, _, hst, _, _⟩ :=
      lifecycle_frame cfg env n (s.attemptCount n) (attemptMark n s)
    rw [hst m hm, statusOf_attemptMark]

theorem statusOf_isSome_markUntested {s : DJState} {m : String} (n : String)
    (h : (statusOf s m).isSome) : (statusOf (markUntested s n) m).isSome := by
  unfold markUntested
  by_cases hs : (statusOf s n).isSome
  · rwa [if_pos hs]
  · rw [if_neg hs]
    exact lookup_isSome_upsert _ _ _ _ h

theorem statusOf_isSome_gate {cfg : Config} {env : Env} {s : DJState} {m : String}
    (n : String) (h : (statusOf s m).isSome) :
    (statusOf (gateAndAttempt cfg env n s) m).isSome := by
  by_cases hm : m = n
  · subst hm
    rcases gateAndAttempt_spec cfg env m s with ⟨_, heq⟩ | ⟨_, _, heq⟩
    · rwa [heq]
    · rw [heq, lifecycle_status_self]
      rfl
  · rw [statusOf_gateAndAttempt_ne hm]
    exact h

theorem statusOf_isSome_markUntested_inv {s : DJState} {n m : String}
    (h : (statusOf (markUntested s n) m).isSome) :
    (statusOf s m).isSome ∨ m = n := by
  by_cases hm : m = n
  · exact .inr hm
  · rw [statusOf_markUntested_ne hm] at h
    exact .inl h

theorem statusOf_isSome_gate_inv {cfg : Config} {env : Env} {s : DJState} {n m : String}
    (h : (statusOf (gateAndAttempt cfg env n s) m).isSome) :
    (statusOf s m).isSome ∨ m = n := by
  by_cases hm : m = n
  · exact .inr hm
  · rw [statusOf_gateAndAttempt_ne hm] at h
    exact .inl h

/-- Once a node has a `nodestatus` entry, it keeps one through any
depth-first pass. -/
theorem checknrunAux_isSome_mono {cfg : Config} {env : Env} {G : String → List String}
    {dfF : Nat} {fuel : Nat} {s : DJState} {n : String} {s' : DJState}
    (h : checknrunAux cfg env G dfF fuel s n = some s') :
    ∀ m, (statusOf s m).isSome → (statusOf s' m).isSome := by
  intro m
  exact checknrunAux_pres (P := fun t => (statusOf t m).isSome = true)
    (fun t q hq => statusOf_isSome_markUntested q hq)
    (fun t q hq => statusOf_isSome_gate q hq) fuel s n s' h

/-- A node that is currently successful and is not the target of the
pass keeps its exact status entry through the pass: the loop never
recurses into a successful node, and only the pass target is ever
handed to the retry gate. -/
theorem checknrunAux_truthy_pres {cfg : Config} {env : Env} {G : String → List String}
    {dfF : Nat} :
    ∀ fuel s n s', checknrunAux cfg env G dfF fuel s n = some s' →
      ∀ m, m ≠ n → truthy (statusOf s m) = true → statusOf s' m = statusOf s m := by
  intro fuel
  induction fuel with
  | zero => intro s n s' h; simp [checknrunAux] at h
  | succ f ih =>
    intro s n s' h m hm ht
    simp only [checknrunAux] at h
    cases hdfs : dfsPost G dfF n with
    | none => rw [hdfs] at h; exact absurd h (by simp)
    | some post =>
      rw [hdfs] at h
      simp only at h
      cases hdl : depsLoop (checknrunAux cfg env G dfF f) post n s false with
      | none => rw [hdl] at h; exact absurd h (by simp)
      | some r =>
        obtain ⟨s1, blocked⟩ := r
        rw [hdl] at h
        simp only at h
        have hloop : ∀ l n0 t b r0, depsLoop (checknrunAux cfg env G dfF f) l n0 t b = some r0 →
            ∀ q, truthy (statusOf t q) = true → statusOf r0.1 q = statusOf t q := by
          intro l
          induction l with
          | nil =>
            intro n0 t b r0 h0 q hq
            simp only [depsLoop, Option.some.injEq] at h0
            rw [← h0]
          | cons d rest ihl =>
            intro n0 t b r0 h0 q hq
            simp only [depsLoop] at h0
            by_cases hd : d = n0
            · rw [if_pos hd] at h0
              exact ihl _ _ _ _ h0 q hq
            · rw [if_neg hd] at h0
              by_cases htd : truthy (statusOf t d) = true
              · rw [if_pos htd] at h0
                simp only at h0
                exact ihl _ _ _ _ h0 q hq
              · rw [if_neg htd] at h0
                cases hr : checknrunAux cfg env G dfF f t d with
                | none => rw [hr] at h0; exact absurd h0 (by simp)
                | some t1 =>
                  rw [hr] at h0
                  simp only at h0
                  have hqd : q ≠ d := by
                    intro hqd
                    rw [hqd] at hq
                    exact htd hq
                  have hkeep := ih t d t1 hr q hqd hq
                  have hq1 : truthy (statusOf t1 q) = true := by rw [hkeep]; exact hq
                  rw [ihl _ _ _ _ h0 q hq1, hkeep]
        have hs1 : statusOf s1 m = statusOf s m := hloop _ _ _ _ _ hdl m ht
        have hmu : statusOf (markUntested s1 n) m = statusOf s1 m :=
          statusOf_markUntested_ne hm
        by_cases hb : blocked = true
        · rw [if_pos hb] at h
          rw [← Option.some.inj h, hmu, hs1]
        · rw [if_neg hb] at h
          rw [← Option.some.inj h, statusOf_gateAndAttempt_ne hm, hmu, hs1]

/-- After a completed pass rooted at `n`, every node reachable from `n`
has a `nodestatus` entry. -/
theorem checknrunAux_covers {cfg : Config} {env : Env} {G : String → List String}
    {dfF : Nat} :
    ∀ fuel s n s', checknrunAux cfg env G dfF fuel s n = some s' →
      ∀ m, Reaches G n m → (statusOf s' m).isSome := by
  intro fuel
  induction fuel with
  | zero => intro s n s' h; simp [checknrunAux] at h
  | succ f ih =>
    intro s n s' h m hre
    simp only [checknrunAux] at h
    cases hdfs : dfsPost G dfF n with
    | none => rw [hdfs] at h; exact absurd h (by simp)
    | some post =>
      rw [hdfs] at h
      simp only at h
      cases hdl : depsLoop (checknrunAux cfg env G dfF f) post n s false with
      | none => rw [hdl] at h; exact absurd h (by simp)
      | some r =>
        obtain ⟨s1, blocked⟩ := r
        rw [hdl] at h
        simp only at h
        by_cases hm : m = n
        · subst hm
          have hsome := statusOf_markUntested_isSome s1 m
          by_cases hb : blocked = true
          · rw [if_pos hb] at h
            rw [← Option.some.inj h]
            exact hsome
          · rw [if_neg hb] at h
            rw [← Option.some.inj h]
            exact statusOf_isSome_gate m hsome
        · have hmem : m ∈ post := (dfsPost_mem_iff hdfs m).mpr hre
          have hloop : ∀ l n0 t b r0,
              depsLoop (checknrunAux cfg env G dfF f) l n0 t b = some r0 →
              ∀ q, q ∈ l → q ≠ n0 → (statusOf r0.1 q).isSome := by
            intro l
            induction l with
            | nil => intro n0 t b r0 h0 q hq; simp at hq
            | cons d rest ihl =>
              intro n0 t b r0 h0 q hq hqn
              simp only [depsLoop] at h0
              have hmono : ∀ t1 r1 b1, depsLoop (checknrunAux cfg env G dfF f) rest n0 t1 b1 = some r1 →
                  (statusOf t1 q).isSome → (statusOf r1.1 q).isSome := by
                intro t1 r1 b1 hh hq1
                exact depsLoop_pres (P := fun t2 => (statusOf t2 q).isSome = true)
                  (fun a b2 c hha hpa => checknrunAux_isSome_mono hha q hpa)
                  _ _ _ _ _ hh hq1
              by_cases hd : d = n0
              · rw [if_pos hd] at h0
                rcases List.mem_cons.mp hq with rfl | hq'
                · exact absurd hd hqn
                · exact ihl _ _ _ _ h0 q hq' hqn
              · rw [if_neg hd] at h0
                by_cases htd : truthy (statusOf t d) = true
                · rw [if_pos htd] at h0
                  simp only at h0
                  rcases List.mem_cons.mp hq with rfl | hq'
                  · exact hmono _ _ _ h0 (truthy_isSome htd)
                  · exact ihl _ _ _ _ h0 q hq' hqn
                · rw [if_neg htd] at h0
                  cases hr : checknrunAux cfg env G dfF f t d with
                  | none => rw [hr] at h0; exact absurd h0 (by simp)
                  | some t1 =>
                    rw [hr] at h0
                    simp only at h0
                    rcases List.mem_cons.mp hq with rfl | hq'
                    · exact hmono _ _ _ h0 (ih _ _ _ hr q (Reaches.refl q))
                    · exact ihl _ _ _ _ h0 q hq' hqn
          have hs1 : (statusOf s1 m).isSome := hloop _ _ _ _ _ hdl m hmem hm
          have hmu : (statusOf (markUntested s1 n) m).isSome :=
            statusOf_isSome_markUntested n hs1
          by_cases hb : blocked = true
          · rw [if_pos hb] at h
            rw [← Option.some.inj h]
            exact hmu
          · rw [if_neg hb] at h
            rw [← Option.some.inj h]
            exact statusOf_isSome_gate n hmu

/-- A pass rooted at `n` creates `nodestatus` entries only for nodes
reachable from `n`. -/
theorem checknrunAux_keys_bound {cfg : Config} {env : Env} {G : String → List String}
    {dfF : Nat} :
    ∀ fuel s n s', checknrunAux cfg env G dfF fuel s n = some s' →
      ∀ m, (statusOf s' m).isSome → (statusOf s m).isSome ∨ Reaches G n m := by
  intro fuel
  induction fuel with
  | zero => intro s n s' h; simp [checknrunAux] at h
  | succ f ih =>
    intro s n s' h m hm
    simp only [checknrunAux] at h
    cases hdfs : dfsPost G dfF n with
    | none => rw [hdfs] at h; exact absurd h (by simp)
    | some post =>
      rw [hdfs] at h
      simp only at h
      cases hdl : depsLoop (checknrunAux cfg env G dfF f) post n s false with
      | none => rw [hdl] at h; exact absurd h (by simp)
      | some r =>
        obtain ⟨s1, blocked⟩ := r
        rw [hdl] at h
        simp only at h
        have hloop : ∀ l n0 t b r0,
            depsLoop (checknrunAux cfg env G dfF f) l n0 t b = some r0 →
            ∀ q, (statusOf r0.1 q).isSome →
              (statusOf t q).isSome ∨ ∃ d, d ∈ l ∧ Reaches G d q := by
          intro l
          induction l with
          | nil =>
            intro n0 t b r0 h0 q hq
            simp only [depsLoop, Option.some.injEq] at h0
            rw [← h0] at hq
            exact .inl hq
          | cons d rest ihl =>
            intro n0 t b r0 h0 q hq
            simp only [depsLoop] at h0
            by_cases hd : d = n0
            · rw [if_pos hd] at h0
              rcases ihl _ _ _ _ h0 q hq with hsome | ⟨e, he, hre⟩
              · exact .inl hsome
              · exact .inr ⟨e, List.mem_cons_of_mem _ he, hre⟩
            · rw [if_neg hd] at h0
              by_cases htd : truthy (statusOf t d) = true
              · rw [if_pos htd] at h0
                simp only at h0
                rcases ihl _ _ _ _ h0 q hq with hsome | ⟨e, he, hre⟩
                · exact .inl hsome
                · exact .inr ⟨e, List.mem_cons_of_mem _ he, hre⟩
              · rw [if_neg htd] at h0
                cases hr : checknrunAux cfg env G dfF f t d with
                | none => rw [hr] at h0; exact absurd h0 (by simp)
                | some t1 =>
                  rw [hr] at h0
                  simp only at h0
                  rcases ihl _ _ _ _ h0 q hq with hsome | ⟨e, he, hre⟩
                  · rcases ih _ _ _ hr q hsome with hsome' | hre'
                    · exact .inl hsome'
                    · exact .inr ⟨d, List.mem_cons_self _ _, hre'⟩
                  · exact .inr ⟨e, List.mem_cons_of_mem _ he, hre⟩
        have hback : (statusOf (markUntested s1 n) m).isSome →
            (statusOf s m).isSome ∨ Reaches G n m := by
          intro hmu
          rcases statusOf_isSome_markUntested_inv hmu with hs1 | rfl
          · rcases hloop _ _ _ _ _ hdl m hs1 with hsome | ⟨d, hdm, hre⟩
            · exact .inl hsome
            · exact .inr (Reaches.trans ((dfsPost_mem_iff hdfs d).mp hdm) hre)
          · exact .inr (Reaches.refl m)
        by_cases hb : blocked = true
        · rw [if_pos hb] at h
          rw [← Option.some.inj h] at hm
          exact hback hm
        · rw [if_neg hb] at h
          rw [← Option.some.inj h] at hm
          rcases statusOf_isSome_gate_inv hm with hmu | rfl
          · exact hback hmu
          · exact .inr (Reaches.refl m)

theorem truthy_markUntested (s : DJState) (n q : String) :
    truthy (statusOf (markUntested s n) q) = truthy (statusOf s q) := by
  by_cases hq : q = n
  · subst hq
    unfold markUntested
    by_cases hs : (statusOf s q).isSome
    · rw [if_pos hs]
    · rw [if_neg hs]
      have hnone : statusOf s q = none := by
        cases hqq : statusOf s q with
        | none => rfl
        | some st => exact absurd (by rw [hqq]; rfl) hs
      rw [hnone]
      show truthy (List.lookup q (upsert s.nodestatus q .untested)) = truthy none
      rw [lookup_upsert_self]
      rfl
  · rw [statusOf_markUntested_ne hq]

/-- The inner dependency loop never changes the exact status entry of a
currently-successful node. -/
theorem depsLoop_truthy_pres {cfg : Config} {env : Env} {G : String → List String}
    {dfF f : Nat} :
    ∀ l n0 t b r0, depsLoop (checknrunAux cfg env G dfF f) l n0 t b = some r0 →
      ∀ q, truthy (statusOf t q) = true → statusOf r0.1 q = statusOf t q := by
  intro l
  induction l with
  | nil =>
    intro n0 t b r0 h0 q hq
    simp only [depsLoop, Option.some.injEq] at h0
    rw [← h0]
  | cons d rest ihl =>
    intro n0 t b r0 h0 q hq
    simp only [depsLoop] at h0
    by_cases hd : d = n0
    · rw [if_pos hd] at h0
      exact ihl _ _ _ _ h0 q hq
    · rw [if_neg hd] at h0
      by_cases htd : truthy (statusOf t d) = true
      · rw [if_pos htd] at h0
        simp only at h0
        exact ihl _ _ _ _ h0 q hq
      · rw [if_neg htd] at h0
        cases hr : checknrunAux cfg env G dfF f t d with
        | none => rw [hr] at h0; exact absurd h0 (by simp)
        | some t1 =>
          rw [hr] at h0
          simp only at h0
          have hqd : q ≠ d := fun hqd => htd (hqd ▸ hq)
          have hkeep := checknrunAux_truthy_pres f t d t1 hr q hqd hq
          have hq1 : truthy (statusOf t1 q) = true := by rw [hkeep]; exact hq
          rw [ihl _ _ _ _ h0 q hq1, hkeep]

/-- If the dependency loop ends unblocked, the incoming flag was false
and every processed dependency is successful in the resulting state. -/
theorem depsLoop_blocked_false {cfg : Config} {env : Env} {G : String → List String}
    {dfF f : Nat} :
    ∀ l n0 t b r0, depsLoop (checknrunAux cfg env G dfF f) l n0 t b = some r0 →
      r0.2 = false →
      b = false ∧ ∀ d, d ∈ l → d ≠ n0 → truthy (statusOf r0.1 d) = true := by
  intro l
  induction l with
  | nil =>
    intro n0 t b r0 h0 hbf
    simp only [depsLoop, Option.some.injEq] at h0
    rw [← h0] at hbf
    exact ⟨hbf, by simp⟩
  | cons d rest ihl =>
    intro n0 t b r0 h0 hbf
    simp only [depsLoop] at h0
    by_cases hd : d = n0
    · rw [if_pos hd] at h0
      obtain ⟨hb, hall⟩ := ihl _ _ _ _ h0 hbf
      refine ⟨hb, ?_⟩
      intro e he hen
      rcases List.mem_cons.mp he with rfl | he'
      · exact absurd hd hen
      · exact hall e he' hen
    · rw [if_neg hd] at h0
      by_cases htd : truthy (statusOf t d) = true
      · rw [if_pos htd] at h0
        simp only at h0
        obtain ⟨hb, hall⟩ := ihl _ _ _ _ h0 hbf
        have hb0 : b = false := by
          cases hbb : b with
          | false => rfl
          | true => rw [hbb] at hb; simp at hb
        refine ⟨hb0, ?_⟩
        intro e he hen
        rcases List.mem_cons.mp he with rfl | he'
        · rw [depsLoop_truthy_pres _ _ _ _ _ h0 e htd]
          exact htd
        · exact hall e he' hen
      · rw [if_neg htd] at h0
        cases hr : checknrunAux cfg env G dfF f t d with
        | none => rw [hr] at h0; exact absurd h0 (by simp)
        | some t1 =>
          rw [hr] at h0
          simp only at h0
          obtain ⟨hb, hall⟩ := ihl _ _ _ _ h0 hbf
          have hb0 : b = false := by
            cases hbb : b with
            | false => rfl
            | true => rw [hbb] at hb; simp at hb
          have htd1 : truthy (statusOf t1 d) = true := by
            cases htt : truthy (statusOf t1 d) with
            | true => rfl
            | false =>
              rw [hb0, htt] at hb
              simp at hb
          refine ⟨hb0, ?_⟩
          intro e he hen
          rcases List.mem_cons.mp he with rfl | he'
          · rw [depsLoop_truthy_pres _ _ _ _ _ h0 e htd1]
            exact htd1
          · exact hall e he' hen

/-- A pass rooted at `n` changes status entries only for nodes
reachable from `n`. -/
theorem checknrunAux_status_frame {cfg : Config} {env : Env} {G : String → List String}
    {dfF : Nat} :
    ∀ fuel s n s', checknrunAux cfg env G dfF fuel s n = some s' →
      ∀ m, ¬ Reaches G n m → statusOf s' m = statusOf s m := by
  intro fuel
  induction fuel with
  | zero => intro s n s' h; simp [checknrunAux] at h
  | succ f ih =>
    intro s n s' h m hnr
    simp only [checknrunAux] at h
    cases hdfs : dfsPost G dfF n with
    | none => rw [hdfs] at h; exact absurd h (by simp)
    | some post =>
      rw [hdfs] at h
      simp only at h
      cases hdl : depsLoop (checknrunAux cfg env G dfF f) post n s false with
      | none => rw [hdl] at h; exact absurd h (by simp)
      | some r =>
        obtain ⟨s1, blocked⟩ := r
        rw [hdl] at h
        simp only at h
        have hloop : ∀ l n0 t b r0,
            (∀ d, d ∈ l → ¬ Reaches G d m) →
            depsLoop (checknrunAux cfg env G dfF f) l n0 t b = some r0 →
            statusOf r0.1 m = statusOf t m := by
          intro l
          induction l with
          | nil =>
            intro n0 t b r0 _ h0
            simp only [depsLoop, Option.some.injEq] at h0
            rw [← h0]
          | cons d rest ihl =>
            intro n0 t b r0 hnone h0
            simp only [depsLoop] at h0
            by_cases hd : d = n0
            · rw [if_pos hd] at h0
              exact ihl _ _ _ _ (fun e he => hnone e (List.mem_cons_of_mem _ he)) h0
            · rw [if_neg hd] at h0
              by_cases htd : truthy (statusOf t d) = true
              · rw [if_pos htd] at h0
                simp only at h0
                exact ihl _ _ _ _ (fun e he => hnone e (List.mem_cons_of_mem _ he)) h0
              · rw [if_neg htd] at h0
                cases hr : checknrunAux cfg env G dfF f t d with
                | none => rw [hr] at h0; exact absurd h0 (by simp)
                | some t1 =>
                  rw [hr] at h0
                  simp only at h0
                  have hkeep := ih t d t1 hr m (hnone d (List.mem_cons_self _ _))
                  rw [ihl _ _ _ _ (fun e he => hnone e (List.mem_cons_of_mem _ he)) h0, hkeep]
        have hnm : m ≠ n := fun hmn => hnr (by rw [hmn]; exact Reaches.refl n)
        have hdeps : ∀ d, d ∈ post → ¬ Reaches G d m := by
          intro d hdm hre
          exact hnr (Reaches.trans ((dfsPost_mem_iff hdfs d).mp hdm) hre)
        have hs1 : statusOf s1 m = statusOf s m := hloop _ _ _ _ _ hdeps hdl
        have hmu : statusOf (markUntested s1 n) m = statusOf s1 m :=
          statusOf_markUntested_ne hnm
        by_cases hb : blocked = true
        · rw [if_pos hb] at h
          rw [← Option.some.inj h, hmu, hs1]
        · rw [if_neg hb] at h
          rw [← Option.some.inj h, statusOf_gateAndAttempt_ne hnm, hmu, hs1]

/-! ## Key-set helpers and the lifecycle status update -/

theorem mem_of_lookup {α : Type} {l : List (String × α)} {k : String} {v : α}
    (h : List.lookup k l = some v) : (k, v) ∈ l := by
  induction l with
  | nil => simp [List.lookup] at h
  | cons p rest ih =>
    obtain ⟨a, b⟩ := p
    simp only [List.lookup] at h
    cases hka : (k == a) with
    | true =>
      rw [hka] at h
      simp only [Option.some.injEq] at h
      have : k = a := by simpa using hka
      subst this
      rw [← h]
      exact List.mem_cons_self _ _
    | false =>
      rw [hka] at h
      exact List.mem_cons_of_mem _ (ih h)

theorem lookup_eq_of_mem_nodup {α : Type} {l : List (String × α)} {k : String} {v : α}
    (hn : (l.map Prod.fst).Nodup) (hm : (k, v) ∈ l) : List.lookup k l = some v := by
  induction l with
  | nil => simp at hm
  | cons p rest ih =>
    obtain ⟨a, b⟩ := p
    simp only [List.map, List.nodup_cons] at hn
    rcases List.mem_cons.mp hm with heq | hm'
    · obtain ⟨rfl, rfl⟩ := Prod.mk.injEq .. ▸ heq
      simp [List.lookup]
    · have hka : k ≠ a := by
        intro hka
        subst hka
        exact hn.1 (List.mem_map.mpr ⟨(k, v), hm', rfl⟩)
      have : (k == a) = false := beq_eq_false_iff_ne.mpr hka
      simp only [List.lookup, this]
      exact ih hn.2 hm'

theorem mem_keys_upsert {α : Type} {l : List (String × α)} {k : String} {v : α}
    {q : String × α} (h : q ∈ upsert l k v) : q.1 = k ∨ q.1 ∈ l.map Prod.fst := by
  induction l with
  | nil =>
    simp only [upsert, List.mem_singleton] at h
    rw [h]
    exact .inl rfl
  | cons p rest ih =>
    obtain ⟨c, d⟩ := p
    by_cases hc : c = k
    · subst hc
      simp only [upsert, if_pos rfl] at h
      rcases List.mem_cons.mp h with rfl | hq2
      · exact .inl rfl
      · exact .inr (List.mem_cons_of_mem _ (List.mem_map.mpr ⟨q, hq2, rfl⟩))
    · simp only [upsert, hc, if_false] at h
      rcases List.mem_cons.mp h with rfl | hq2
      · exact .inr (by simp)
      · rcases ih hq2 with hk | hr
        · exact .inl hk
        · exact .inr (List.mem_cons_of_mem _ hr)

theorem upsert_keys_nodup {α : Type} (l : List (String × α)) (k : String) (v : α)
    (h : (l.map Prod.fst).Nodup) : ((upsert l k v).map Prod.fst).Nodup := by
  induction l with
  | nil => simp [upsert]
  | cons p rest ih =>
    obtain ⟨a, b⟩ := p
    simp only [List.map, List.nodup_cons] at h
    by_cases ha : a = k
    · subst ha
      simpa [upsert, List.nodup_cons] using h
    · simp only [upsert, ha, if_false, List.map, List.nodup_cons]
      refine ⟨?_, ih h.2⟩
      intro hmem
      rcases List.mem_map.mp hmem with ⟨q, hq, hqa⟩
      rcases mem_keys_upsert hq with hk | hr
      · rw [hqa] at hk
        exact ha hk
      · rw [hqa] at hr
        exact h.1 hr

theorem nodestatus_nonempty_of_lookup {s : DJState} {m : String}
    (h : (statusOf s m).isSome) : s.nodestatus.isEmpty = false := by
  unfold statusOf at h
  revert h
  cases s.nodestatus with
  | nil => intro h; simp [List.lookup] at h
  | cons p rest => intro h; rfl

/-- The status map after the lifecycle executor: exactly one update of
the attempted node, to `lifecycleStatus`. -/
theorem lifecycle_nodestatus (cfg : Config) (env : Env) (n : String) (k : Nat)
    (s : DJState) :
    (lifecycle cfg env n k s).nodestatus =
      upsert s.nodestatus n (lifecycleStatus cfg env n k) := by
  cases hc : (env n).construct k with
  | error e => simp only [lifecycle, lifecycleStatus, hc]; rfl
  | ok u =>
    cases hch : (env n).Check k CheckPhase.check with
    | ok v => simp only [lifecycle, lifecycleStatus, hc, hch]; rfl
    | error e =>
      cases hna : cfg.no_act with
      | true => simp only [lifecycle, lifecycleStatus, hc, hch, hna, if_true]; rfl
      | false =>
        cases hcr : (env n).Check k CheckPhase.recheck with
        | ok v =>
          simp only [lifecycle, lifecycleStatus, hc, hch, hna, Bool.false_eq_true,
            if_false, hcr]
          rfl
        | error e2 =>
          simp only [lifecycle, lifecycleStatus, hc, hch, hna, Bool.false_eq_true,
            if_false, hcr]
          rfl

theorem keysNodup_markUntested {s : DJState} (n : String)
    (h : (s.nodestatus.map Prod.fst).Nodup) :
    ((markUntested s n).nodestatus.map Prod.fst).Nodup := by
  unfold markUntested
  by_cases hs : (statusOf s n).isSome
  · rwa [if_pos hs]
  · rw [if_neg hs]
    exact upsert_keys_nodup _ _ _ h

theorem keysNodup_gate {cfg : Config} {env : Env} {s : DJState} (n : String)
    (h : (s.nodestatus.map Prod.fst).Nodup) :
    ((gateAndAttempt cfg env n s).nodestatus.map Prod.fst).Nodup := by
  rcases gateAndAttempt_spec cfg env n s with ⟨_, heq⟩ | ⟨_, _, heq⟩
  · rwa [heq]
  · rw [heq, lifecycle_nodestatus]
    have : (attemptMark n s).nodestatus = s.nodestatus := (attemptMark_frame n s).1
    rw [this]
    exact upsert_keys_nodup _ _ _ h

/-! ## Blocking correctness: attempted nodes have successful dependencies -/

/-- In the status snapshot `snap`, every transitive dependency of `n`
(other than `n` itself) is recorded successful. -/
def depsOkAt (G : String → List String) (n : String)
    (snap : List (String × NStatus)) : Prop :=
  ∀ m, Reaches G n m → m ≠ n → truthy (List.lookup m snap) = true

/-- Every recorded executor invocation happened while all of the node's
transitive dependencies were successful. -/
def SnapOK (G : String → List String) (s : DJState) : Prop :=
  ∀ ev, ev ∈ s.attemptLog → depsOkAt G ev.node ev.snap

/-- Every currently-successful node has all its transitive dependencies
successful. -/
def StatusInv (G : String → List String) (s : DJState) : Prop :=
  ∀ q, truthy (statusOf s q) = true → ∀ m, Reaches G q m → truthy (statusOf s m) = true

/-- The inner loop leaves a node's status untouched when no processed
dependency reaches it. -/
theorem depsLoop_status_frame {cfg : Config} {env : Env} {G : String → List String}
    {dfF f : Nat} :
    ∀ l n0 t b r0, depsLoop (checknrunAux cfg env G dfF f) l n0 t b = some r0 →
      ∀ m, (∀ d, d ∈ l → d ≠ n0 → ¬ Reaches G d m) →
      statusOf r0.1 m = statusOf t m := by
  intro l
  induction l with
  | nil =>
    intro n0 t b r0 h0 m _
    simp only [depsLoop, Option.some.injEq] at h0
    rw [← h0]
  | cons d rest ihl =>
    intro n0 t b r0 h0 m hnone
    simp only [depsLoop] at h0
    by_cases hd : d = n0
    · rw [if_pos hd] at h0
      exact ihl _ _ _ _ h0 m fun e he => hnone e (List.mem_cons_of_mem _ he)
    · rw [if_neg hd] at h0
      by_cases htd : truthy (statusOf t d) = true
      · rw [if_pos htd] at h0
        simp only at h0
        exact ihl _ _ _ _ h0 m fun e he => hnone e (List.mem_cons_of_mem _ he)
      · rw [if_neg htd] at h0
        cases hr : checknrunAux cfg env G dfF f t d with
        | none => rw [hr] at h0; exact absurd h0 (by simp)
        | some t1 =>
          rw [hr] at h0
          simp only at h0
          have hkeep := checknrunAux_status_frame f t d t1 hr m
            (hnone d (List.mem_cons_self _ _) hd)
          rw [ihl _ _ _ _ h0 m fun e he => hnone e (List.mem_cons_of_mem _ he), hkeep]

/-- Core invariant of a depth-first pass on an acyclic graph: if the
pass target is not currently successful, then both `StatusInv` (a
successful node has successful transitive dependencies) and `SnapOK`
(every executor invocation so far happened with successful transitive
dependencies) are preserved. -/
theorem checknrunAux_c3 {cfg : Config} {env : Env} {G : String → List String}
    {dfF : Nat} (hacyc : ∀ a b, Reaches G a b → Reaches G b a → a = b) :
    ∀ fuel s n s', checknrunAux cfg env G dfF fuel s n = some s' →
      truthy (statusOf s n) = false → StatusInv G s → SnapOK G s →
      StatusInv G s' ∧ SnapOK G s' := by
  intro fuel
  induction fuel with
  | zero => intro s n s' h; simp [checknrunAux] at h
  | succ f ih =>
    intro s n s' h hnt hSI hSO
    simp only [checknrunAux] at h
    cases hdfs : dfsPost G dfF n with
    | none => rw [hdfs] at h; exact absurd h (by simp)
    | some post =>
      rw [hdfs] at h
      simp only at h
      cases hdl : depsLoop (checknrunAux cfg env G dfF f) post n s false with
      | none => rw [hdl] at h; exact absurd h (by simp)
      | some r =>
        obtain ⟨s1, blocked⟩ := r
        rw [hdl] at h
        simp only at h
        -- the loop preserves both invariants
        have hloop : ∀ l n0 t b r0,
            depsLoop (checknrunAux cfg env G dfF f) l n0 t b = some r0 →
            StatusInv G t → SnapOK G t → StatusInv G r0.1 ∧ SnapOK G r0.1 := by
          intro l
          induction l with
          | nil =>
            intro n0 t b r0 h0 hSI0 hSO0
            simp only [depsLoop, Option.some.injEq] at h0
            rw [← h0]
            exact ⟨hSI0, hSO0⟩
          | cons d rest ihl =>
            intro n0 t b r0 h0 hSI0 hSO0
            simp only [depsLoop] at h0
            by_cases hd : d = n0
            · rw [if_pos hd] at h0
              exact ihl _ _ _ _ h0 hSI0 hSO0
            · rw [if_neg hd] at h0
              by_cases htd : truthy (statusOf t d) = true
              · rw [if_pos htd] at h0
                simp only at h0
                exact ihl _ _ _ _ h0 hSI0 hSO0
              · rw [if_neg htd] at h0
                cases hr : checknrunAux cfg env G dfF f t d with
                | none => rw [hr] at h0; exact absurd h0 (by simp)
                | some t1 =>
                  rw [hr] at h0
                  simp only at h0
                  have hfd : truthy (statusOf t d) = false := by
                    cases hx : truthy (statusOf t d) with
                    | false => rfl
                    | true => exact absurd hx htd
                  obtain ⟨hSI1, hSO1⟩ := ih t d t1 hr hfd hSI0 hSO0
                  exact ihl _ _ _ _ h0 hSI1 hSO1
        obtain ⟨hSI1, hSO1⟩ := hloop _ _ _ _ _ hdl hSI hSO
        -- the target's own status survives the loop (acyclicity)
        have hs1n : statusOf s1 n = statusOf s n := by
          have := depsLoop_status_frame _ _ _ _ _ hdl n ?_
          · exact this
          · intro d hdp hdn hre
            exact hdn (hacyc d n hre ((dfsPost_mem_iff hdfs d).mp hdp))
        have hnt1 : truthy (statusOf s1 n) = false := by rw [hs1n]; exact hnt
        have hnt2 : truthy (statusOf (markUntested s1 n) n) = false := by
          rw [truthy_markUntested]; exact hnt1
        have hSI2 : StatusInv G (markUntested s1 n) := by
          intro q hq m hre
          rw [truthy_markUntested]
          rw [truthy_markUntested] at hq
          exact hSI1 q hq m hre
        have hSO2 : SnapOK G (markUntested s1 n) := by
          intro ev hev
          apply hSO1
          have hal : (markUntested s1 n).attemptLog = s1.attemptLog :=
            (markUntested_frame n s1).2.2.2.2.2.2.1
          rw [← hal]
          exact hev
        by_cases hb : blocked = true
        · rw [if_pos hb] at h
          rw [← Option.some.inj h]
          exact ⟨hSI2, hSO2⟩
        · rw [if_neg hb] at h
          rw [← Option.some.inj h]
          -- unblocked: every reachable dependency is successful
          have hbf : blocked = false := by
            cases hbb : blocked with
            | false => rfl
            | true => exact absurd hbb hb
          obtain ⟨_, hdeps⟩ := depsLoop_blocked_false _ _ _ _ _ hdl (by rw [hbf])
          have hdeps2 : ∀ m, Reaches G n m → m ≠ n →
              truthy (statusOf (markUntested s1 n) m) = true := by
            intro m hre hmn
            rw [truthy_markUntested]
            exact hdeps m ((dfsPost_mem_iff hdfs m).mpr hre) hmn
          rcases gateAndAttempt_spec cfg env n (markUntested s1 n) with ⟨_, heq⟩ | ⟨_, _, heq⟩
          · rw [heq]
            exact ⟨hSI2, hSO2⟩
          · rw [heq]
            set s2 := markUntested s1 n with hs2
            set k3 := s2.attemptCount n with hk3
            set sA := attemptMark n s2 with hsA
            have hAst : ∀ m, statusOf sA m = statusOf s2 m := statusOf_attemptMark n s2
            have hAlog : sA.attemptLog = s2.attemptLog ++
                [⟨n, s2.attemptCount n, s2.run_phase, max s2.clock (getRetry s2 n).nexttry,
                  s2.nodestatus⟩] :=
              (attemptMark_frame n s2).2.2.2.2.2.2.2.1
            have hLlog : (lifecycle cfg env n k3 sA).attemptLog = sA.attemptLog :=
              (lifecycle_frame cfg env n k3 sA).2.2.2.2.1
            have hLst : ∀ m, m ≠ n →
                statusOf (lifecycle cfg env n k3 sA) m = statusOf s2 m := by
              intro m hm
              obtain ⟨_, _, _, _, _, _, _, _, hst, _, _⟩ := lifecycle_frame cfg env n k3 sA
              rw [hst m hm, hAst]
            constructor
            · -- StatusInv after the attempt
              intro q hq m hre
              by_cases hqn : q = n
              · subst hqn
                by_cases hmn : m = q
                · rw [hmn]; exact hq
                · rw [hLst m hmn]
                  exact hdeps2 m hre hmn
              · rw [hLst q hqn] at hq
                by_cases hmn : m = n
                · exfalso
                  have := hSI2 q hq n (hmn ▸ hre)
                  rw [hnt2] at this
                  exact Bool.false_ne_true this
                · rw [hLst m hmn]
                  exact hSI2 q hq m hre
            · -- SnapOK after the attempt
              intro ev hev
              rw [hLlog, hAlog] at hev
              rcases List.mem_append.mp hev with hold | hnew
              · exact hSO2 ev hold
              · rw [List.mem_singleton.mp hnew]
                intro m hre hmn
                show truthy (List.lookup m s2.nodestatus) = true
                exact hdeps2 m hre hmn

/-! ## Lifting the pass lemmas through the convergence loop -/

theorem statusOf_incPhase (s : DJState) (m : String) :
    statusOf (incPhase s) m = statusOf s m := rfl

/-- If the run target is successful and `StatusInv` holds with all
status keys reachable from the target, the run is an overall success. -/
theorem success_of_truthy_target {G : String → List String} {tgt : String} {s : DJState}
    (hSI : StatusInv G s) (hkeys : ∀ m, (statusOf s m).isSome → Reaches G tgt m)
    (hnd : (s.nodestatus.map Prod.fst).Nodup)
    (hcov : (statusOf s tgt).isSome)
    (ht : truthy (statusOf s tgt) = true) : success s = true := by
  unfold success
  rw [Bool.and_eq_true]
  constructor
  · rw [nodestatus_nonempty_of_lookup hcov]
    rfl
  · rw [List.all_eq_true]
    intro p hp
    have hl : List.lookup p.1 s.nodestatus = some p.2 :=
      lookup_eq_of_mem_nodup hnd (by rw [show (p.1, p.2) = p from rfl]; exact hp)
    have hsome : (statusOf s p.1).isSome = true := by
      show (List.lookup p.1 s.nodestatus).isSome = true
      rw [hl]
      rfl
    have := hSI tgt ht p.1 (hkeys _ hsome)
    show truthyS p.2 = true
    have hst : statusOf s p.1 = some p.2 := hl
    rw [hst] at this
    exact this

/-- The combined invariant carried by the convergence loop for a run
targeted at `tgt`. -/
def C3Inv (G : String → List String) (tgt : String) (s : DJState) : Prop :=
  StatusInv G s ∧ SnapOK G s ∧ (∀ m, (statusOf s m).isSome → Reaches G tgt m) ∧
    (s.nodestatus.map Prod.fst).Nodup

theorem checknrunLoop_c3 {cfg : Config} {env : Env} {G : String → List String}
    {dfF auxF : Nat} (hacyc : ∀ a b, Reaches G a b → Reaches G b a → a = b) :
    ∀ fuel s tgt s', checknrunLoop cfg env G dfF auxF fuel s tgt = some s' →
      truthy (statusOf s tgt) = false → C3Inv G tgt s → C3Inv G tgt s' := by
  intro fuel
  induction fuel with
  | zero => intro s tgt s' h; simp [checknrunLoop] at h
  | succ f ih =>
    intro s tgt s' h hnt hinv
    obtain ⟨hSI, hSO, hkeys, hnd⟩ := hinv
    simp only [checknrunLoop] at h
    cases ha : checknrunAux cfg env G dfF auxF s tgt with
    | none => rw [ha] at h; exact absurd h (by simp)
    | some s1 =>
      rw [ha] at h
      simp only at h
      obtain ⟨hSI1, hSO1⟩ := checknrunAux_c3 hacyc auxF s tgt s1 ha hnt hSI hSO
      have hkeys1 : ∀ m, (statusOf s1 m).isSome → Reaches G tgt m := by
        intro m hm
        rcases checknrunAux_keys_bound auxF s tgt s1 ha m hm with hs | hr
        · exact hkeys m hs
        · exact hr
      have hnd1 : (s1.nodestatus.map Prod.fst).Nodup :=
        checknrunAux_pres (P := fun t => (t.nodestatus.map Prod.fst).Nodup)
          (fun t q hq => keysNodup_markUntested q hq)
          (fun t q hq => keysNodup_gate q hq) auxF s tgt s1 ha hnd
      have hinv1 : C3Inv G tgt s1 := ⟨hSI1, hSO1, hkeys1, hnd1⟩
      by_cases hs : success s1 = true
      · rw [if_pos hs] at h
        rw [← Option.some.inj h]
        exact hinv1
      · rw [if_neg hs] at h
        have hinv2 : C3Inv G tgt (incPhase s1) := hinv1
        by_cases hr : (!retriableAny (incPhase s1)) = true
        · rw [if_pos hr] at h
          rw [← Option.some.inj h]
          exact hinv2
        · rw [if_neg hr] at h
          by_cases hna : cfg.no_act = true
          · rw [if_pos hna] at h
            rw [← Option.some.inj h]
            exact hinv2
          · rw [if_neg hna] at h
            have hnt2 : truthy (statusOf (incPhase s1) tgt) = false := by
              rw [statusOf_incPhase]
              cases hx : truthy (statusOf s1 tgt) with
              | false => rfl
              | true =>
                exfalso
                apply hs
                exact success_of_truthy_target hSI1 hkeys1 hnd1
                  (checknrunAux_covers auxF s tgt s1 ha tgt (Reaches.refl tgt)) hx
            exact ih _ _ _ h hnt2 hinv2

theorem checknrunLoop_covers {cfg : Config} {env : Env} {G : String → List String}
    {dfF auxF : Nat} :
    ∀ fuel s tgt s', checknrunLoop cfg env G dfF auxF fuel s tgt = some s' →
      ∀ m, Reaches G tgt m → (statusOf s' m).isSome := by
  intro fuel
  induction fuel with
  | zero => intro s tgt s' h; simp [checknrunLoop] at h
  | succ f ih =>
    intro s tgt s' h m hre
    simp only [checknrunLoop] at h
    cases ha : checknrunAux cfg env G dfF auxF s tgt with
    | none => rw [ha] at h; exact absurd h (by simp)
    | some s1 =>
      rw [ha] at h
      simp only at h
      have hcov : (statusOf s1 m).isSome := checknrunAux_covers auxF s tgt s1 ha m hre
      by_cases hs : success s1 = true
      · rw [if_pos hs] at h
        rw [← Option.some.inj h]
        exact hcov
      · rw [if_neg hs] at h
        by_cases hr : (!retriableAny (incPhase s1)) = true
        · rw [if_pos hr] at h
          rw [← Option.some.inj h]
          exact hcov
        · rw [if_neg hr] at h
          by_cases hna : cfg.no_act = true
          · rw [if_pos hna] at h
            rw [← Option.some.inj h]
            exact hcov
          · rw [if_neg hna] at h
            exact ih _ _ _ h m hre

theorem checknrunLoop_keys_bound {cfg : Config} {env : Env} {G : String → List String}
    {dfF auxF : Nat} :
    ∀ fuel s tgt s', checknrunLoop cfg env G dfF auxF fuel s tgt = some s' →
      ∀ m, (statusOf s' m).isSome → (statusOf s m).isSome ∨ Reaches G tgt m := by
  intro fuel
  induction fuel with
  | zero => intro s tgt s' h; simp [checknrunLoop] at h
  | succ f ih =>
    intro s tgt s' h m
    simp only [checknrunLoop] at h
    cases ha : checknrunAux cfg env G dfF auxF s tgt with
    | none => rw [ha] at h; exact absurd h (by simp)
    | some s1 =>
      rw [ha] at h
      simp only at h
      have hstep : (statusOf s1 m).isSome → (statusOf s m).isSome ∨ Reaches G tgt m :=
        checknrunAux_keys_bound auxF s tgt s1 ha m
      by_cases hs : success s1 = true
      · rw [if_pos hs] at h
        rw [← Option.some.inj h]
        exact hstep
      · rw [if_neg hs] at h
        by_cases hr : (!retriableAny (incPhase s1)) = true
        · rw [if_pos hr] at h
          rw [← Option.some.inj h]
          exact hstep
        · rw [if_neg hr] at h
          by_cases hna : cfg.no_act = true
          · rw [if_pos hna] at h
            rw [← Option.some.inj h]
            exact hstep
          · rw [if_neg hna] at h
            intro hm
            rcases ih _ _ _ h m hm with hsome | hre
            · exact hstep hsome
            · exact .inr hre

theorem checknrunLoop_keys_nodup {cfg : Config} {env : Env} {G : String → List String}
    {dfF auxF : Nat} {fuel : Nat} {s : DJState} {tgt : String} {s' : DJState}
    (h : checknrunLoop cfg env G dfF auxF fuel s tgt = some s')
    (hnd : (s.nodestatus.map Prod.fst).Nodup) :
    (s'.nodestatus.map Prod.fst).Nodup :=
  checknrunLoop_pres (P := fun t => (t.nodestatus.map Prod.fst).Nodup)
    (fun t q hq => keysNodup_markUntested q hq)
    (fun t q hq => keysNodup_gate q hq)
    (fun t hq => hq) fuel s tgt s' h hnd

/-! ## Correctness of `_init_deps` -/

/-- Postcondition of a successful `_init_deps` call on `n` starting
from `st`: the three tables grow by appending, the new `deps`/`retry`
entries have keys that were unregistered before and are registered
after (with no duplicate keys among the new entries), `n` is
registered, every newly registered node is reachable from `n`, and
every newly registered node is valid, has all its dependencies
registered, and has its dependency list and fresh retry record
recorded. -/
def InitPost (env : Env) (cfg : Config) (t0 : Int) (st : ConfSt) (n : String)
    (st' : ConfSt) : Prop :=
  (∃ new, st'.classmap = st.classmap ++ new)
  ∧ (∃ new, st'.deps = st.deps ++ new
      ∧ (∀ p, p ∈ new → p.1 ∉ st.classmap)
      ∧ (∀ p, p ∈ new → p.1 ∈ st'.classmap)
      ∧ (new.map Prod.fst).Nodup)
  ∧ (∃ new, st'.retry = st.retry ++ new
      ∧ (∀ p, p ∈ new → p.1 ∉ st.classmap)
      ∧ (∀ p, p ∈ new → p.1 ∈ st'.classmap)
      ∧ (new.map Prod.fst).Nodup)
  ∧ n ∈ st'.classmap
  ∧ (∀ m, m ∈ st'.classmap → m ∈ st.classmap ∨ Reaches (depsListD env) n m)
  ∧ (∀ m, m ∈ st'.classmap → m ∈ st.classmap ∨
      (¬ badJob env cfg m
        ∧ (∀ d, d ∈ depsListD env m → d ∈ st'.classmap)
        ∧ (m, depsListD env m) ∈ st'.deps
        ∧ (m, freshRec env cfg t0 m) ∈ st'.retry))

/-- Postcondition of the `for dep in deps` loop over targets `l`. -/
def InitPostL (env : Env) (cfg : Config) (t0 : Int) (st : ConfSt) (l : List String)
    (st' : ConfSt) : Prop :=
  (∃ new, st'.classmap = st.classmap ++ new)
  ∧ (∃ new, st'.deps = st.deps ++ new
      ∧ (∀ p, p ∈ new → p.1 ∉ st.classmap)
      ∧ (∀ p, p ∈ new → p.1 ∈ st'.classmap)
      ∧ (new.map Prod.fst).Nodup)
  ∧ (∃ new, st'.retry = st.retry ++ new
      ∧ (∀ p, p ∈ new → p.1 ∉ st.classmap)
      ∧ (∀ p, p ∈ new → p.1 ∈ st'.classmap)
      ∧ (new.map Prod.fst).Nodup)
  ∧ (∀ d, d ∈ l → d ∈ st'.classmap)
  ∧ (∀ m, m ∈ st'.classmap → m ∈ st.classmap ∨
      ∃ d, d ∈ l ∧ Reaches (depsListD env) d m)
  ∧ (∀ m, m ∈ st'.classmap → m ∈ st.classmap ∨
      (¬ badJob env cfg m
        ∧ (∀ d, d ∈ depsListD env m → d ∈ st'.classmap)
        ∧ (m, depsListD env m) ∈ st'.deps
        ∧ (m, freshRec env cfg t0 m) ∈ st'.retry))

theorem initPostL_nil (env : Env) (cfg : Config) (t0 : Int) (st : ConfSt) :
    InitPostL env cfg t0 st [] st :=
  ⟨⟨[], by simp⟩, ⟨[], by simp⟩, ⟨[], by simp⟩, by simp,
    fun m hm => .inl hm, fun m hm => .inl hm⟩

theorem table_append_trans {α : Type} {a b c : List (String × α)}
    {cm1 cm2 : List String}
    (h1 : ∃ new, b = a ++ new ∧ (∀ p, p ∈ new → p.1 ∉ cm1) ∧
      (∀ p, p ∈ new → p.1 ∈ cm2) ∧ (new.map Prod.fst).Nodup)
    {cm3 : List String}
    (h2 : ∃ new, c = b ++ new ∧ (∀ p, p ∈ new → p.1 ∉ cm2) ∧
      (∀ p, p ∈ new → p.1 ∈ cm3) ∧ (new.map Prod.fst).Nodup)
    (hcm12 : ∀ x, x ∈ cm1 → x ∈ cm2) (hcm23 : ∀ x, x ∈ cm2 → x ∈ cm3) :
    ∃ new, c = a ++ new ∧ (∀ p, p ∈ new → p.1 ∉ cm1) ∧
      (∀ p, p ∈ new → p.1 ∈ cm3) ∧ (new.map Prod.fst).Nodup := by
  obtain ⟨n1, hb, hf1, hin1, hnd1⟩ := h1
  obtain ⟨n2, hc, hf2, hin2, hnd2⟩ := h2
  refine ⟨n1 ++ n2, by rw [hc, hb, List.append_assoc], ?_, ?_, ?_⟩
  · intro p hp
    rcases List.mem_append.mp hp with hp1 | hp2
    · exact hf1 p hp1
    · intro hmem
      exact hf2 p hp2 (hcm12 _ hmem)
  · intro p hp
    rcases List.mem_append.mp hp with hp1 | hp2
    · exact hcm23 _ (hin1 p hp1)
    · exact hin2 p hp2
  · rw [List.map_append]
    rw [List.nodup_append]
    refine ⟨hnd1, hnd2, ?_⟩
    intro x hx1 hx2
    rcases List.mem_map.mp hx1 with ⟨p, hp, rfl⟩
    rcases List.mem_map.mp hx2 with ⟨q, hq, hqe⟩
    exact hf2 q hq (hqe ▸ hin1 p hp)

theorem initPostL_cons {env : Env} {cfg : Config} {t0 : Int} {st st1 st' : ConfSt}
    {d : String} {rest : List String}
    (h1 : InitPost env cfg t0 st d st1)
    (h2 : InitPostL env cfg t0 st1 rest st') :
    InitPostL env cfg t0 st (d :: rest) st' := by
  obtain ⟨⟨c1, hc1⟩, hd1, hr1, htgt1, hsnd1, hgood1⟩ := h1
  obtain ⟨⟨c2, hc2⟩, hd2, hr2, htgt2, hsnd2, hgood2⟩ := h2
  have hcm12 : ∀ x, x ∈ st.classmap → x ∈ st1.classmap := by
    intro x hx
    rw [hc1]
    exact List.mem_append_left _ hx
  have hcm23 : ∀ x, x ∈ st1.classmap → x ∈ st'.classmap := by
    intro x hx
    rw [hc2]
    exact List.mem_append_left _ hx
  refine ⟨⟨c1 ++ c2, by rw [hc2, hc1, List.append_assoc]⟩,
    table_append_trans hd1 hd2 hcm12 hcm23,
    table_append_trans hr1 hr2 hcm12 hcm23, ?_, ?_, ?_⟩
  · intro e he
    rcases List.mem_cons.mp he with rfl | he'
    · exact hcm23 _ htgt1
    · exact htgt2 e he'
  · intro m hm
    rcases hsnd2 m hm with hm1 | ⟨e, he, hre⟩
    · rcases hsnd1 m hm1 with hm0 | hre
      · exact .inl hm0
      · exact .inr ⟨d, List.mem_cons_self _ _, hre⟩
    · exact .inr ⟨e, List.mem_cons_of_mem _ he, hre⟩
  · intro m hm
    have hdsub : ∀ x ∈ st1.deps, x ∈ st'.deps := by
      obtain ⟨n2, hn2, _⟩ := hd2
      intro x hx
      rw [hn2]
      exact List.mem_append_left _ hx
    have hrsub : ∀ x ∈ st1.retry, x ∈ st'.retry := by
      obtain ⟨n2, hn2, _⟩ := hr2
      intro x hx
      rw [hn2]
      exact List.mem_append_left _ hx
    rcases hgood2 m hm with hm1 | hgood
    · rcases hgood1 m hm1 with hm0 | ⟨hbad, hcl, hdm, hrm⟩
      · exact .inl hm0
      · exact .inr ⟨hbad, fun e he => hcm23 _ (hcl e he), hdsub _ hdm, hrsub _ hrm⟩
    · exact .inr hgood

theorem initDeps_cases (env : Env) (cfg : Config) (t0 : Int) :
    ∀ fuel st n res, initDeps env cfg t0 fuel st n = some res →
      (∀ st', res = .ok st' → InitPost env cfg t0 st n st') ∧
      (∀ e, res = .error e →
        ∃ m, Reaches (depsListD env) n m ∧ badJob env cfg m) := by
  intro fuel
  induction fuel with
  | zero => intro st n res h; simp [initDeps] at h
  | succ f ih =>
    have ihL : ∀ l st0 res0, initDepsList (initDeps env cfg t0 f) l st0 = some res0 →
        (∀ st', res0 = .ok st' → InitPostL env cfg t0 st0 l st') ∧
        (∀ e, res0 = .error e →
          ∃ m, (∃ d, d ∈ l ∧ Reaches (depsListD env) d m) ∧ badJob env cfg m) := by
      intro l
      induction l with
      | nil =>
        intro st0 res0 h0
        simp only [initDepsList, Option.some.injEq] at h0
        constructor
        · intro st' hst'
          rw [← h0] at hst'
          cases hst'
          exact initPostL_nil env cfg t0 st0
        · intro e he
          rw [← h0] at he
          cases he
      | cons d rest ihl =>
        intro st0 res0 h0
        simp only [initDepsList] at h0
        cases hr : initDeps env cfg t0 f st0 d with
        | none => rw [hr] at h0; exact absurd h0 (by simp)
        | some r1 =>
          rw [hr] at h0
          cases r1 with
          | error e1 =>
            simp only [Option.some.injEq] at h0
            constructor
            · intro st' hst'
              rw [← h0] at hst'
              cases hst'
            · intro e he
              rw [← h0] at he
              cases he
              obtain ⟨m, hre, hbad⟩ := (ih st0 d _ hr).2 e1 rfl
              exact ⟨m, ⟨d, List.mem_cons_self _ _, hre⟩, hbad⟩
          | ok st1 =>
            simp only at h0
            obtain ⟨hok, herr⟩ := ihl st1 res0 h0
            constructor
            · intro st' hst'
              exact initPostL_cons ((ih st0 d _ hr).1 st1 rfl) (hok st' hst')
            · intro e he
              obtain ⟨m, ⟨d', hd', hre⟩, hbad⟩ := herr e he
              exact ⟨m, ⟨d', List.mem_cons_of_mem _ hd', hre⟩, hbad⟩
    intro st n res h
    simp only [initDeps] at h
    by_cases hmem : n ∈ st.classmap
    · rw [if_pos hmem] at h
      have hres := Option.some.inj h
      constructor
      · intro st' hst'
        rw [← hres] at hst'
        cases hst'
        exact ⟨⟨[], by simp⟩, ⟨[], by simp⟩, ⟨[], by simp⟩, hmem,
          fun m hm => .inl hm, fun m hm => .inl hm⟩
      · intro e he
        rw [← hres] at he
        cases he
    · rw [if_neg hmem] at h
      by_cases hdel : resolvedDelay env cfg n < 0
      · rw [if_pos hdel] at h
        have hres := Option.some.inj h
        constructor
        · intro st' hst'
          rw [← hres] at hst'
          cases hst'
        · intro e he
          exact ⟨n, Reaches.refl n, .inl hdel⟩
      · rw [if_neg hdel] at h
        by_cases htr : resolvedTries env cfg n < 1
        · rw [if_pos htr] at h
          have hres := Option.some.inj h
          constructor
          · intro st' hst'
            rw [← hres] at hst'
            cases hst'
          · intro e he
            exact ⟨n, Reaches.refl n, .inr (.inl htr)⟩
        · rw [if_neg htr] at h
          cases hdeps : (env n).DEPS with
          | none =>
            rw [hdeps] at h
            have hres := Option.some.inj h
            constructor
            · intro st' hst'
              rw [← hres] at hst'
              cases hst'
            · intro e he
              exact ⟨n, Reaches.refl n, .inr (.inr hdeps)⟩
          | some ds =>
            rw [hdeps] at h
            simp only at h
            have hds : depsListD env n = ds := by simp [depsListD, hdeps]
            cases hlist : initDepsList (initDeps env cfg t0 f) ds
                { classmap := st.classmap ++ [n]
                  retry := st.retry ++ [(n, freshRec env cfg t0 n)]
                  deps := st.deps } with
            | none => rw [hlist] at h; exact absurd h (by simp)
            | some r3 =>
              rw [hlist] at h
              cases r3 with
              | error e3 =>
                simp only [Option.some.injEq] at h
                constructor
                · intro st' hst'
                  rw [← h] at hst'
                  cases hst'
                · intro e he
                  rw [← h] at he
                  cases he
                  obtain ⟨m, ⟨d', hd', hre⟩, hbad⟩ := (ihL ds _ _ hlist).2 e3 rfl
                  exact ⟨m, Reaches.head (hds ▸ hd') hre, hbad⟩
              | ok st3 =>
                simp only [Option.some.injEq] at h
                constructor
                · intro st' hst'
                  rw [← h] at hst'
                  cases hst'
                  obtain ⟨⟨cL, hcL⟩, ⟨nd, hnd, hndf, hndi, hndn⟩,
                    ⟨nr, hnr, hnrf, hnri, hnrn⟩, htgtL, hsndL, hgoodL⟩ :=
                    (ihL ds _ _ hlist).1 st3 rfl
                  have hcm2sub : ∀ x, x ∈ st.classmap ++ [n] → x ∈ st3.classmap := by
                    intro x hx
                    rw [hcL]
                    exact List.mem_append_left _ hx
                  have hnotbad : ¬ badJob env cfg n := by
                    intro hb
                    rcases hb with hb | hb | hb
                    · exact hdel hb
                    · exact htr hb
                    · rw [hdeps] at hb; cases hb
                  refine ⟨?_, ?_, ?_, ?_, ?_, ?_⟩
                  · exact ⟨[n] ++ cL, by rw [hcL, List.append_assoc]⟩
                  · refine ⟨nd ++ [(n, ds)], ?_, ?_, ?_, ?_⟩
                    · show st3.deps ++ [(n, ds)] = st.deps ++ (nd ++ [(n, ds)])
                      rw [hnd, List.append_assoc]
                    · intro p hp
                      rcases List.mem_append.mp hp with hp1 | hp2
                      · intro hmm
                        exact hndf p hp1 (List.mem_append_left _ hmm)
                      · rw [List.mem_singleton.mp hp2]
                        exact hmem
                    · intro p hp
                      rcases List.mem_append.mp hp with hp1 | hp2
                      · exact hndi p hp1
                      · rw [List.mem_singleton.mp hp2]
                        exact hcm2sub n (List.mem_append_right _ (by simp))
                    · rw [List.map_append, List.nodup_append]
                      refine ⟨hndn, by simp, ?_⟩
                      intro x hx1 hx2
                      rcases List.mem_map.mp hx1 with ⟨p, hp, rfl⟩
                      simp only [List.map_cons, List.map_nil, List.mem_singleton] at hx2
                      exact hndf p hp (hx2 ▸ List.mem_append_right _ (by simp))
                  · refine ⟨[(n, freshRec env cfg t0 n)] ++ nr, ?_, ?_, ?_, ?_⟩
                    · show st3.retry = st.retry ++ ([(n, freshRec env cfg t0 n)] ++ nr)
                      rw [hnr]
                      show (st.retry ++ [(n, freshRec env cfg t0 n)]) ++ nr = _
                      rw [List.append_assoc]
                    · intro p hp
                      rcases List.mem_append.mp hp with hp1 | hp2
                      · rw [List.mem_singleton.mp hp1]
                        exact hmem
                      · intro hmm
                        exact hnrf p hp2 (List.mem_append_left _ hmm)
                    · intro p hp
                      rcases List.mem_append.mp hp with hp1 | hp2
                      · rw [List.mem_singleton.mp hp1]
                        exact hcm2sub n (List.mem_append_right _ (by simp))
                      · exact hnri p hp2
                    · rw [List.map_append, List.nodup_append]
                      refine ⟨by simp, hnrn, ?_⟩
                      intro x hx1 hx2
                      simp only [List.map_cons, List.map_nil, List.mem_singleton] at hx1
                      rcases List.mem_map.mp hx2 with ⟨p, hp, hpe⟩
                      exact hnrf p hp (hpe ▸ hx1 ▸ List.mem_append_right _ (by simp))
                  · exact hcm2sub n (List.mem_append_right _ (by simp))
                  · intro m hm
                    rcases hsndL m hm with hm2 | ⟨d', hd', hre⟩
                    · rcases List.mem_append.mp hm2 with hm0 | hm0
                      · exact .inl hm0
                      · rw [List.mem_singleton.mp hm0]
                        exact .inr (Reaches.refl n)
                    · exact .inr (Reaches.head (hds ▸ hd') hre)
                  · intro m hm
                    rcases hgoodL m hm with hm2 | ⟨hbad, hcl, hdm, hrm⟩
                    · rcases List.mem_append.mp hm2 with hm0 | hm0
                      · exact .inl hm0
                      · rw [List.mem_singleton.mp hm0]
                        refine .inr ⟨hnotbad, ?_, ?_, ?_⟩
                        · intro d' hd'
                          exact htgtL d' (hds ▸ hd')
                        · rw [hds]
                          exact List.mem_append_right _ (by simp)
                        · rw [hnr]
                          exact List.mem_append_left _
                            (List.mem_append_right _ (by simp))
                    · refine .inr ⟨hbad, hcl, List.mem_append_left _ hdm, hrm⟩
                · intro e he
                  rw [← h] at he
                  cases he

/-! ## Cycle detection semantics and the configuration postcondition -/

theorem lookup_eq_none_of_keys {α : Type} {l : List (String × α)} {k : String}
    (h : ∀ p, p ∈ l → p.1 ≠ k) : List.lookup k l = none := by
  induction l with
  | nil => rfl
  | cons p rest ih =>
    obtain ⟨a, b⟩ := p
    have hne : (k == a) = false := beq_eq_false_iff_ne.mpr
      fun he => h (a, b) (List.mem_cons_self _ _) he.symm
    simp only [List.lookup, hne]
    exact ih fun q hq => h q (List.mem_cons_of_mem _ hq)

theorem cycleFromAny_spec {succ : String → List String} {dfF : Nat} {n : String} :
    ∀ l res, cycleFromAny succ dfF n l = some res →
      ((∃ d, res = some d) ↔ ∃ d, d ∈ l ∧ Reaches succ d n)
    ∧ (∀ d, res = some d → d ∈ l ∧ Reaches succ d n) := by
  intro l
  induction l with
  | nil =>
    intro res h
    simp only [cycleFromAny, Option.some.injEq] at h
    rw [← h]
    simp
  | cons d rest ih =>
    intro res h
    simp only [cycleFromAny] at h
    cases hd : dfsPost succ dfF d with
    | none => rw [hd] at h; exact absurd h (by simp)
    | some post =>
      rw [hd] at h
      simp only at h
      by_cases hmem : n ∈ post
      · rw [if_pos hmem] at h
        rw [← Option.some.inj h]
        constructor
        · simp only [Option.some.injEq, exists_eq', true_iff]
          exact ⟨d, List.mem_cons_self _ _, (dfsPost_mem_iff hd n).mp hmem⟩
        · intro e he
          rw [← Option.some.inj he]
          exact ⟨List.mem_cons_self _ _, (dfsPost_mem_iff hd n).mp hmem⟩
      · rw [if_neg hmem] at h
        obtain ⟨hiff, hpay⟩ := ih res h
        constructor
        · rw [hiff]
          constructor
          · rintro ⟨e, he, hre⟩
            exact ⟨e, List.mem_cons_of_mem _ he, hre⟩
          · rintro ⟨e, he, hre⟩
            rcases List.mem_cons.mp he with rfl | he2
            · exact absurd ((dfsPost_mem_iff hd n).mpr hre) hmem
            · exact ⟨e, he2, hre⟩
        · intro e he
          obtain ⟨hmem2, hre⟩ := hpay e he
          exact ⟨List.mem_cons_of_mem _ hmem2, hre⟩

theorem findCycleB_spec {succ : String → List String} {dfF : Nat} :
    ∀ ns res, findCycleB succ dfF ns = some res →
      ((∃ p, res = some p) ↔ ∃ n, n ∈ ns ∧ ∃ d, d ∈ succ n ∧ Reaches succ d n)
    ∧ (∀ n d, res = some (n, d) → n ∈ ns ∧ d ∈ succ n ∧ Reaches succ d n) := by
  intro ns
  induction ns with
  | nil =>
    intro res h
    simp only [findCycleB, Option.some.injEq] at h
    rw [← h]
    simp
  | cons n rest ih =>
    intro res h
    simp only [findCycleB] at h
    cases hc : cycleFromAny succ dfF n (succ n) with
    | none => rw [hc] at h; exact absurd h (by simp)
    | some r1 =>
      rw [hc] at h
      cases r1 with
      | some d =>
        simp only [Option.some.injEq] at h
        rw [← h]
        obtain ⟨hd, hre⟩ := (cycleFromAny_spec _ _ hc).2 d rfl
        constructor
        · simp only [Option.some.injEq, exists_eq', true_iff]
          exact ⟨n, List.mem_cons_self _ _, d, hd, hre⟩
        · intro m e he
          obtain ⟨rfl, rfl⟩ := Prod.mk.injEq .. ▸ Option.some.inj he
          exact ⟨List.mem_cons_self _ _, hd, hre⟩
      | none =>
        simp only at h
        obtain ⟨hiff, hpay⟩ := ih res h
        have hnon : ¬ ∃ d, d ∈ succ n ∧ Reaches succ d n := by
          intro hex
          obtain ⟨e, he⟩ := ((cycleFromAny_spec _ _ hc).1).mpr hex
          cases he
        constructor
        · rw [hiff]
          constructor
          · rintro ⟨m, hm, e, he, hre⟩
            exact ⟨m, List.mem_cons_of_mem _ hm, e, he, hre⟩
          · rintro ⟨m, hm, e, he, hre⟩
            rcases List.mem_cons.mp hm with rfl | hm2
            · exact absurd ⟨e, he, hre⟩ hnon
            · exact ⟨m, hm2, e, he, hre⟩
        · intro m e he
          obtain ⟨hm, hd, hre⟩ := hpay m e he
          exact ⟨List.mem_cons_of_mem _ hm, hd, hre⟩

/-- The inner `add_edge` loop succeeds exactly when no new dependency
repeats an already-added one and the list itself has no duplicate. -/
theorem addEdges_none {n : String} :
    ∀ seen l, addEdges n seen l = none ↔ ((∀ d, d ∈ l → d ∉ seen) ∧ l.Nodup) := by
  intro seen l
  induction l generalizing seen with
  | nil => simp [addEdges]
  | cons d rest ih =>
    simp only [addEdges]
    by_cases hd : d ∈ seen
    · rw [if_pos hd]
      apply iff_of_false (by simp)
      rintro ⟨hall, -⟩
      exact absurd hd (hall d (List.mem_cons_self _ _))
    · rw [if_neg hd]
      rw [ih (seen ++ [d])]
      constructor
      · rintro ⟨hall, hnd⟩
        refine ⟨?_, List.nodup_cons.mpr ⟨?_, hnd⟩⟩
        · intro e he
          rcases List.mem_cons.mp he with rfl | he2
          · exact hd
          · intro hmem
            exact hall e he2 (List.mem_append_left _ hmem)
        · intro hmem
          exact hall d hmem (List.mem_append_right _ (List.mem_singleton.mpr rfl))
      · rintro ⟨hall, hnd⟩
        obtain ⟨hdr, hnd2⟩ := List.nodup_cons.mp hnd
        refine ⟨?_, hnd2⟩
        intro e he hmem
        rcases List.mem_append.mp hmem with hm1 | hm2
        · exact hall e (List.mem_cons_of_mem _ he) hm1
        · rw [List.mem_singleton.mp hm2] at he
          exact hdr he

/-- A failing inner `add_edge` loop reports the duplicated dependency:
the error names the node and a dependency it declares at least twice
(relative to the already-added `seen` prefix). -/
theorem addEdges_some {n : String} :
    ∀ seen l e, addEdges n seen l = some e →
      ∃ d, e = .dupEdge n d ∧ d ∈ l ∧ (d ∈ seen ∨ 2 ≤ l.count d) := by
  intro seen l
  induction l generalizing seen with
  | nil => intro e h; simp [addEdges] at h
  | cons d rest ih =>
    intro e h
    simp only [addEdges] at h
    by_cases hd : d ∈ seen
    · rw [if_pos hd] at h
      exact ⟨d, (Option.some.inj h).symm, List.mem_cons_self _ _, .inl hd⟩
    · rw [if_neg hd] at h
      obtain ⟨x, hx, hmem, hrep⟩ := ih (seen ++ [d]) e h
      refine ⟨x, hx, List.mem_cons_of_mem _ hmem, ?_⟩
      rcases hrep with hs | hc
      · rcases List.mem_append.mp hs with hs1 | hs2
        · exact .inl hs1
        · right
          rw [List.mem_singleton.mp hs2] at hmem ⊢
          rw [List.count_cons_self]
          have : 1 ≤ List.count d rest := List.count_pos_iff_mem.mpr hmem
          omega
      · right
        rw [List.count_cons]
        omega

/-- The edge-adding pass of `_init_graph` succeeds exactly when no
registered node declares a duplicate dependency. -/
theorem addAllEdges_none {st : ConfSt} :
    ∀ l, addAllEdges st l = none ↔ ∀ n, n ∈ l → (succOf st n).Nodup := by
  intro l
  induction l with
  | nil => simp [addAllEdges]
  | cons n rest ih =>
    simp only [addAllEdges]
    cases ha : addEdges n [] (succOf st n) with
    | some e =>
      apply iff_of_false (by simp)
      intro hall
      obtain ⟨d, -, hmem, hrep⟩ := addEdges_some _ _ _ ha
      rcases hrep with hs | hc
      · exact absurd hs (List.not_mem_nil d)
      · have hnd := hall n (List.mem_cons_self _ _)
        have hle := List.nodup_iff_count_le_one.mp hnd d
        omega
    | none =>
      rw [ih]
      have hnd : (succOf st n).Nodup := ((addEdges_none [] _).mp ha).2
      constructor
      · intro hall m hm
        rcases List.mem_cons.mp hm with rfl | hm2
        · exact hnd
        · exact hall m hm2
      · intro hall m hm
        exact hall m (List.mem_cons_of_mem _ hm)

/-- A failing edge-adding pass reports a registered node and a
dependency it declares at least twice. -/
theorem addAllEdges_some {st : ConfSt} :
    ∀ l e, addAllEdges st l = some e →
      ∃ n d, e = .dupEdge n d ∧ n ∈ l ∧ 2 ≤ (succOf st n).count d := by
  intro l
  induction l with
  | nil => intro e h; simp [addAllEdges] at h
  | cons n rest ih =>
    intro e h
    simp only [addAllEdges] at h
    cases ha : addEdges n [] (succOf st n) with
    | some e1 =>
      rw [ha] at h
      obtain ⟨d, hx, hmem, hrep⟩ := addEdges_some _ _ _ ha
      rcases hrep with hs | hc
      · exact absurd hs (List.not_mem_nil d)
      · exact ⟨n, d, (Option.some.inj h).symm.trans hx, List.mem_cons_self _ _, hc⟩
    | none =>
      rw [ha] at h
      obtain ⟨m, d, hx, hmem, hc⟩ := ih e h
      exact ⟨m, d, hx, List.mem_cons_of_mem _ hmem, hc⟩

/-- Everything later results need from a successful `_init_deps` run
from the configured root. -/
def ConfGood (env : Env) (cfg : Config) (t0 : Int) (st : ConfSt) : Prop :=
  (∀ m, m ∈ st.classmap ↔ Reaches (depsListD env) cfg.root m)
  ∧ (∀ m, m ∈ st.classmap → ¬ badJob env cfg m)
  ∧ (∀ m, m ∈ st.classmap → List.lookup m st.deps = some (depsListD env m))
  ∧ (∀ m, m ∈ st.classmap → List.lookup m st.retry = some (freshRec env cfg t0 m))
  ∧ (∀ m, m ∉ st.classmap → List.lookup m st.deps = none)
  ∧ (∀ m, m ∉ st.classmap → List.lookup m st.retry = none)
  ∧ (∀ m, m ∈ st.classmap → ∀ d, d ∈ depsListD env m → d ∈ st.classmap)

theorem initDeps_good {env : Env} {cfg : Config} {t0 : Int} {fuel : Nat} {st' : ConfSt}
    (h : initDeps env cfg t0 fuel { classmap := [], retry := [], deps := [] }
      cfg.root = some (.ok st')) :
    ConfGood env cfg t0 st' := by
  obtain ⟨⟨cC, hcC⟩, ⟨nd, hnd, hndf, hndi, hndn⟩, ⟨nr, hnr, hnrf, hnri, hnrn⟩,
      htgt, hsnd, hgood⟩ := (initDeps_cases env cfg t0 fuel _ _ _ h).1 st' rfl
  have hdeq : st'.deps = nd := by simpa using hnd
  have hreq : st'.retry = nr := by simpa using hnr
  have hgood' : ∀ m, m ∈ st'.classmap →
      ¬ badJob env cfg m
      ∧ (∀ d, d ∈ depsListD env m → d ∈ st'.classmap)
      ∧ (m, depsListD env m) ∈ st'.deps
      ∧ (m, freshRec env cfg t0 m) ∈ st'.retry := by
    intro m hm
    rcases hgood m hm with hm0 | hg
    · simp at hm0
    · exact hg
  have hiff : ∀ m, m ∈ st'.classmap ↔ Reaches (depsListD env) cfg.root m := by
    intro m
    constructor
    · intro hm
      rcases hsnd m hm with hm0 | hre
      · simp at hm0
      · exact hre
    · intro hre
      exact Reaches_closed_mem (fun a b ha hb => (hgood' a ha).2.1 b hb) hre htgt
  refine ⟨hiff, fun m hm => (hgood' m hm).1, ?_, ?_, ?_, ?_,
    fun m hm => (hgood' m hm).2.1⟩
  · intro m hm
    rw [hdeq]
    exact lookup_eq_of_mem_nodup hndn (hdeq ▸ (hgood' m hm).2.2.1)
  · intro m hm
    rw [hreq]
    exact lookup_eq_of_mem_nodup hnrn (hreq ▸ (hgood' m hm).2.2.2)
  · intro m hm
    rw [hdeq]
    exact lookup_eq_none_of_keys fun p hp he => hm (he ▸ hndi p hp)
  · intro m hm
    rw [hreq]
    exact lookup_eq_none_of_keys fun p hp he => hm (he ▸ hnri p hp)

theorem succOf_reg {env : Env} {cfg : Config} {t0 : Int} {st : ConfSt}
    (hg : ConfGood env cfg t0 st) {m : String} (hm : m ∈ st.classmap) :
    succOf st m = depsListD env m := by
  unfold succOf
  rw [hg.2.2.1 m hm]
  rfl

theorem succOf_unreg {env : Env} {cfg : Config} {t0 : Int} {st : ConfSt}
    (hg : ConfGood env cfg t0 st) {m : String} (hm : m ∉ st.classmap) :
    succOf st m = [] := by
  unfold succOf
  rw [hg.2.2.2.2.1 m hm]
  rfl

theorem Reaches_mono {succ1 succ2 : String → List String}
    (hsub : ∀ a d, d ∈ succ1 a → d ∈ succ2 a) :
    ∀ {a b}, Reaches succ1 a b → Reaches succ2 a b := by
  intro a b h
  induction h with
  | refl => exact Reaches.refl _
  | head hd _ ih => exact Reaches.head (hsub _ _ hd) ih

/-- On the built graph, reachability agrees with the declared
dependency relation from any registered node. -/
theorem reaches_transfer {env : Env} {cfg : Config} {t0 : Int} {st : ConfSt}
    (hg : ConfGood env cfg t0 st) :
    ∀ {a b}, Reaches (depsListD env) a b → a ∈ st.classmap →
      Reaches (succOf st) a b ∧ b ∈ st.classmap := by
  intro a b hre
  induction hre with
  | refl => exact fun ha => ⟨Reaches.refl _, ha⟩
  | head hd hrest ih =>
    intro ha
    have hdcm := hg.2.2.2.2.2.2 _ ha _ hd
    obtain ⟨hr2, hb⟩ := ih hdcm
    refine ⟨Reaches.head ?_ hr2, hb⟩
    rw [succOf_reg hg ha]
    exact hd

theorem reaches_back {env : Env} {cfg : Config} {t0 : Int} {st : ConfSt}
    (hg : ConfGood env cfg t0 st) :
    ∀ {a b}, Reaches (succOf st) a b → Reaches (depsListD env) a b := by
  apply Reaches_mono
  intro a d hd
  by_cases ha : a ∈ st.classmap
  · rwa [succOf_reg hg ha] at hd
  · rw [succOf_unreg hg ha] at hd
    cases hd

/-- A graph that passes cycle detection has an antisymmetric
reachability relation. -/
theorem confGood_antisym {env : Env} {cfg : Config} {t0 : Int} {st : ConfSt}
    (hg : ConfGood env cfg t0 st)
    (hnc : ¬ ∃ n, n ∈ st.classmap ∧ ∃ d, d ∈ succOf st n ∧ Reaches (succOf st) d n) :
    ∀ a b, Reaches (succOf st) a b → Reaches (succOf st) b a → a = b := by
  intro a b hab hba
  cases hab with
  | refl => rfl
  | head hd hrest =>
    exfalso
    apply hnc
    refine ⟨a, ?_, _, hd, Reaches.trans hrest hba⟩
    by_contra hacm
    rw [succOf_unreg hg hacm] at hd
    cases hd

theorem configure_ok_elim {env : Env} {cfg : Config} {dfF fuel : Nat} {t0 : Int}
    {st : ConfSt} (h : configure env cfg dfF fuel t0 = some (.ok st)) :
    initDeps env cfg t0 fuel { classmap := [], retry := [], deps := [] } cfg.root =
        some (.ok st)
    ∧ addAllEdges st st.classmap = none
    ∧ findCycleB (succOf st) dfF st.classmap = some none := by
  unfold configure at h
  cases hi : initDeps env cfg t0 fuel { classmap := [], retry := [], deps := [] }
      cfg.root with
  | none => rw [hi] at h; exact absurd h (by simp)
  | some r =>
    rw [hi] at h
    cases r with
    | error e => simp at h
    | ok st0 =>
      simp only at h
      unfold initGraph at h
      cases hae : addAllEdges st0 st0.classmap with
      | some e1 => rw [hae] at h; simp at h
      | none =>
        rw [hae] at h
        simp only at h
        cases hfc : findCycleB (succOf st0) dfF st0.classmap with
        | none => rw [hfc] at h; exact absurd h (by simp)
        | some r1 =>
          rw [hfc] at h
          cases r1 with
          | some p =>
            obtain ⟨pn, pd⟩ := p
            simp at h
          | none =>
            simp only [Option.some.injEq, Except.ok.injEq] at h
            subst h
            exact ⟨rfl, hae, hfc⟩

theorem configure_good {env : Env} {cfg : Config} {dfF fuel : Nat} {t0 : Int}
    {st : ConfSt} (h : configure env cfg dfF fuel t0 = some (.ok st)) :
    ConfGood env cfg t0 st ∧
      (∀ a b, Reaches (succOf st) a b → Reaches (succOf st) b a → a = b) := by
  obtain ⟨hi, hae, hfc⟩ := configure_ok_elim h
  have hg := initDeps_good hi
  refine ⟨hg, confGood_antisym hg ?_⟩
  intro hex
  obtain ⟨p, hp⟩ := (findCycleB_spec _ _ hfc).1.mpr hex
  cases hp

/-- The transitively closed declared dependency relation, restricted to
jobs reachable from `root`, contains a cycle. -/
def hasCycleFrom (env : Env) (root : String) : Prop :=
  ∃ n, Reaches (depsListD env) root n ∧
    ∃ d, d ∈ depsListD env n ∧ Reaches (depsListD env) d n

/-- The errors `_init_deps` itself can raise (the three validation
errors; the graph errors arise only later, in `_init_graph`). -/
def isDepsErr : CfgErr → Prop
  | .negDelay _ => True
  | .badTries _ => True
  | .nonIterable _ => True
  | .dupEdge _ _ => False
  | .cycle _ _ => False

theorem initDeps_err_shape (env : Env) (cfg : Config) (t0 : Int) :
    ∀ fuel st n e, initDeps env cfg t0 fuel st n = some (.error e) → isDepsErr e := by
  intro fuel
  induction fuel with
  | zero => intro st n e h; simp [initDeps] at h
  | succ f ih =>
    have ihL : ∀ l st0 e,
        initDepsList (initDeps env cfg t0 f) l st0 = some (.error e) →
        isDepsErr e := by
      intro l
      induction l with
      | nil => intro st0 e h; simp [initDepsList] at h
      | cons d rest ihl =>
        intro st0 e h
        simp only [initDepsList] at h
        cases hr : initDeps env cfg t0 f st0 d with
        | none => rw [hr] at h; exact absurd h (by simp)
        | some r1 =>
          rw [hr] at h
          cases r1 with
          | error e1 =>
            simp only [Option.some.injEq, Except.error.injEq] at h
            subst h
            exact ih _ _ _ hr
          | ok st1 =>
            simp only at h
            exact ihl _ _ h
    intro st n e h
    simp only [initDeps] at h
    by_cases hmem : n ∈ st.classmap
    · rw [if_pos hmem] at h
      simp at h
    · rw [if_neg hmem] at h
      by_cases hdel : resolvedDelay env cfg n < 0
      · rw [if_pos hdel] at h
        simp only [Option.some.injEq, Except.error.injEq] at h
        subst h
        trivial
      · rw [if_neg hdel] at h
        by_cases htr : resolvedTries env cfg n < 1
        · rw [if_pos htr] at h
          simp only [Option.some.injEq, Except.error.injEq] at h
          subst h
          trivial
        · rw [if_neg htr] at h
          cases hds : (env n).DEPS with
          | none =>
            rw [hds] at h
            simp only [Option.some.injEq, Except.error.injEq] at h
            subst h
            trivial
          | some ds =>
            rw [hds] at h
            simp only at h
            cases hl : initDepsList (initDeps env cfg t0 f) ds
                { classmap := st.classmap ++ [n]
                  retry := st.retry ++ [(n, freshRec env cfg t0 n)]
                  deps := st.deps } with
            | none => rw [hl] at h; exact absurd h (by simp)
            | some r2 =>
              rw [hl] at h
              cases r2 with
              | error e2 =>
                simp only [Option.some.injEq, Except.error.injEq] at h
                subst h
                exact ihL _ _ _ hl
              | ok st3 => simp at h

/-- Some job reachable from `root` declares the same dependency twice —
the input on which `_init_graph` re-adds an existing edge. -/
def hasDupDep (env : Env) (root : String) : Prop :=
  ∃ n, Reaches (depsListD env) root n ∧ ¬ (depsListD env n).Nodup

/-- `cyc` lists the nodes of a genuine cycle of `succ`: it is nonempty,
consecutive listed nodes are successor steps, and the first listed node
is a successor of the last. -/
def IsCycleList (succ : String → List String) (cyc : List String) : Prop :=
  cyc ≠ [] ∧ List.Chain' (fun a b => b ∈ succ a) cyc
  ∧ ∀ x ∈ cyc.getLast?, ∀ y ∈ cyc.head?, y ∈ succ x

/-- Any reachability fact is witnessed by an explicit successor chain
ending at the reached node. -/
theorem reaches_chain {succ : String → List String} {a b : String}
    (h : Reaches succ a b) :
    ∃ p : List String, List.Chain' (fun x y => y ∈ succ x) (a :: p)
      ∧ (a :: p).getLast? = some b := by
  induction h with
  | refl n => exact ⟨[], List.chain'_singleton n, rfl⟩
  | head hd hre ih =>
    obtain ⟨p, hchain, hlast⟩ := ih
    refine ⟨_ :: p, List.chain'_cons.mpr ⟨hd, hchain⟩, ?_⟩
    rw [List.getLast?_cons_cons]
    exact hlast

/-- A node with a declared dependency reaching back to it lies on a
genuine cycle, listable starting from the node itself. -/
theorem cycle_list_exists {succ : String → List String} {n d : String}
    (hd : d ∈ succ n) (hre : Reaches succ d n) :
    ∃ cyc, IsCycleList succ cyc ∧ cyc.head? = some n := by
  obtain ⟨p, hchain, hlast⟩ := reaches_chain hre
  have hne : d :: p ≠ [] := List.cons_ne_nil _ _
  have hgl : (d :: p).getLast hne = n := by
    have hx := List.getLast?_eq_getLast (d :: p) hne
    rw [hlast] at hx
    exact (Option.some.inj hx).symm
  have hsplit : (d :: p).dropLast ++ [n] = d :: p := by
    rw [← hgl]
    exact List.dropLast_append_getLast hne
  refine ⟨n :: (d :: p).dropLast, ?_, rfl⟩
  cases hdl : (d :: p).dropLast with
  | nil =>
    rw [hdl] at hsplit
    simp only [List.nil_append] at hsplit
    obtain ⟨hnd, hpe⟩ := List.cons.inj hsplit
    subst hnd
    refine ⟨List.cons_ne_nil _ _, List.chain'_singleton _, ?_⟩
    intro x hx y hy
    have hxn : n = x := by simpa using hx
    have hyn : n = y := by simpa using hy
    subst hxn
    subst hyn
    exact hd
  | cons m ms =>
    have hmd : m = d := by
      rw [hdl] at hsplit
      exact (List.cons.inj hsplit).1
    subst hmd
    rw [hdl] at hsplit
    have hch2 : List.Chain' (fun x y => y ∈ succ x) ((m :: ms) ++ [n]) := by
      rw [hsplit]
      exact hchain
    obtain ⟨hc1, hc2, hlink⟩ := List.chain'_append.mp hch2
    refine ⟨List.cons_ne_nil _ _, List.chain'_cons.mpr ⟨hd, hc1⟩, ?_⟩
    intro x hx y hy
    have hyn : n = y := by simpa using hy
    subst hyn
    rw [List.getLast?_cons_cons] at hx
    exact hlink x hx n rfl

/-- C4 (amended): configuration fails — before any run — exactly when
some job reachable from the root has resolved `TRIES` below one, a
negative resolved `RETRY_DELAY`, or a non-iterable dependency list, or
some reachable job declares the same dependency twice (the graph
library's `add_edge` raises on the duplicate edge), or the transitively
closed dependency relation contains a cycle; otherwise configuration
succeeds, producing the graph and metadata reused by every run.  A
duplicate-edge error names the offending node and its twice-declared
dependency; a cycle error identifies the offending cycle: it names a
node and the declared dependency through which the cycle closes, and a
genuine dependency cycle listable from that node exists. -/
theorem claim_C4_amended {env : Env} {cfg : Config} {dfF fuel : Nat} {t0 : Int}
    {res : Except CfgErr ConfSt}
    (h : configure env cfg dfF fuel t0 = some res) :
    ((∃ e, res = .error e) ↔
      ((∃ n, Reaches (depsListD env) cfg.root n ∧ badJob env cfg n) ∨
        hasDupDep env cfg.root ∨ hasCycleFrom env cfg.root))
  ∧ (∀ n d, res = .error (.dupEdge n d) →
      Reaches (depsListD env) cfg.root n ∧ 2 ≤ (depsListD env n).count d)
  ∧ (∀ n d, res = .error (.cycle n d) →
      Reaches (depsListD env) cfg.root n ∧ d ∈ depsListD env n
      ∧ Reaches (depsListD env) d n
      ∧ ∃ cyc, IsCycleList (depsListD env) cyc ∧ cyc.head? = some n) := by
  unfold configure at h
  cases hi : initDeps env cfg t0 fuel { classmap := [], retry := [], deps := [] }
      cfg.root with
  | none => rw [hi] at h; exact absurd h (by simp)
  | some r =>
    rw [hi] at h
    cases r with
    | error e =>
      simp only [Option.some.injEq] at h
      subst h
      have hshape := initDeps_err_shape env cfg t0 fuel _ _ e hi
      refine ⟨iff_of_true ⟨e, rfl⟩
        (.inl ((initDeps_cases env cfg t0 fuel _ _ _ hi).2 e rfl)), ?_, ?_⟩
      · intro n2 d2 he2
        rw [Except.error.inj he2] at hshape
        simp [isDepsErr] at hshape
      · intro n2 d2 he2
        rw [Except.error.inj he2] at hshape
        simp [isDepsErr] at hshape
    | ok st =>
      simp only at h
      have hg := initDeps_good hi
      unfold initGraph at h
      cases hae : addAllEdges st st.classmap with
      | some e1 =>
        rw [hae] at h
        simp only [Option.some.injEq] at h
        subst h
        obtain ⟨n, d, he1, hn, hcount⟩ := addAllEdges_some _ _ hae
        have hreach : Reaches (depsListD env) cfg.root n := (hg.1 n).mp hn
        have hsucc : succOf st n = depsListD env n := succOf_reg hg hn
        rw [hsucc] at hcount
        refine ⟨iff_of_true ⟨e1, rfl⟩ (.inr (.inl ⟨n, hreach, ?_⟩)), ?_, ?_⟩
        · intro hnd
          have hle := List.nodup_iff_count_le_one.mp hnd d
          omega
        · intro n2 d2 he2
          rw [he1] at he2
          cases Except.error.inj he2
          exact ⟨hreach, hcount⟩
        · intro n2 d2 he2
          rw [he1] at he2
          cases Except.error.inj he2
      | none =>
        rw [hae] at h
        simp only at h
        cases hfc : findCycleB (succOf st) dfF st.classmap with
        | none => rw [hfc] at h; exact absurd h (by simp)
        | some r1 =>
          rw [hfc] at h
          cases r1 with
          | some cp =>
            obtain ⟨cn, cd⟩ := cp
            simp only [Option.some.injEq] at h
            subst h
            obtain ⟨hncm, hdsu, hresu⟩ := (findCycleB_spec _ _ hfc).2 cn cd rfl
            have hreach : Reaches (depsListD env) cfg.root cn := (hg.1 cn).mp hncm
            have hdd : cd ∈ depsListD env cn := by
              rwa [succOf_reg hg hncm] at hdsu
            have hrd : Reaches (depsListD env) cd cn := reaches_back hg hresu
            refine ⟨iff_of_true ⟨_, rfl⟩
              (.inr (.inr ⟨cn, hreach, cd, hdd, hrd⟩)), ?_, ?_⟩
            · intro n2 d2 he2
              cases Except.error.inj he2
            · intro n2 d2 he2
              cases Except.error.inj he2
              exact ⟨hreach, hdd, hrd, cycle_list_exists hdd hrd⟩
          | none =>
            simp only [Option.some.injEq] at h
            subst h
            refine ⟨iff_of_false (by rintro ⟨e, he⟩; cases he) ?_, ?_, ?_⟩
            · rintro (⟨n, hre, hbad⟩ | ⟨n, hre, hndup⟩ | ⟨n, hre, d, hd, hrd⟩)
              · exact hg.2.1 n ((hg.1 n).mpr hre) hbad
              · have hn : n ∈ st.classmap := (hg.1 n).mpr hre
                have hnd := (addAllEdges_none _).mp hae n hn
                rw [succOf_reg hg hn] at hnd
                exact hndup hnd
              · have hncm : n ∈ st.classmap := (hg.1 n).mpr hre
                have hdcm : d ∈ st.classmap := hg.2.2.2.2.2.2 n hncm d hd
                have hsucc : d ∈ succOf st n := by
                  rw [succOf_reg hg hncm]
                  exact hd
                have hrs : Reaches (succOf st) d n := (reaches_transfer hg hrd hdcm).1
                obtain ⟨cp, hcp⟩ :=
                  (findCycleB_spec _ _ hfc).1.mpr ⟨n, hncm, d, hsucc, hrs⟩
                cases hcp
            · intro n2 d2 he2
              simp at he2
            · intro n2 d2 he2
              simp at he2

/-! ## Claim C1: the three-phase protocol -/

/-- C1: for an attempted node (instance constructed, not no-act mode),
the protocol sets status `succeeded` iff the first `Check` passes;
`eventually-succeeded` iff the first `Check` fails and the re-`Check`
passes; `failed` iff both fail; the re-`Check` is performed exactly
when the first `Check` fails — and the whole outcome, including whether
the re-`Check` happens, is independent of the `Run` method's outcome
(conjunct five: any environment differing only in `Run` yields the
identical state). -/
theorem claim_C1 {cfg : Config} {env : Env} {n : String} {k : Nat} {s : DJState}
    (hna : cfg.no_act = false) (hcons : ∃ u, (env n).construct k = .ok u) :
    (statusOf (lifecycle cfg env n k s) n = some .succeeded ↔
        ((env n).Check k .check).isOk = true)
  ∧ (statusOf (lifecycle cfg env n k s) n = some .eventuallySucceeded ↔
        (((env n).Check k .check).isOk = false ∧ ((env n).Check k .recheck).isOk = true))
  ∧ (statusOf (lifecycle cfg env n k s) n = some .failed ↔
        (((env n).Check k .check).isOk = false ∧ ((env n).Check k .recheck).isOk = false))
  ∧ ((lifecycle cfg env n k s).checkLog = s.checkLog ++ [(n, k, CheckPhase.check)] ++
        (if ((env n).Check k .check).isOk then [] else [(n, k, CheckPhase.recheck)]))
  ∧ (∀ env2 : Env, (env2 n).construct = (env n).construct →
        (env2 n).Check = (env n).Check →
        lifecycle cfg env2 n k s = lifecycle cfg env n k s) := by
  obtain ⟨u, hcons⟩ := hcons
  have hstat := lifecycle_status_self cfg env n k s
  have henv2 : ∀ env2 : Env, (env2 n).construct = (env n).construct →
      (env2 n).Check = (env n).Check →
      lifecycle cfg env2 n k s = lifecycle cfg env n k s := by
    intro env2 hc2 hk2
    unfold lifecycle
    rw [hc2, hk2]
  cases hch : (env n).Check k CheckPhase.check with
  | ok v =>
    have hls : lifecycleStatus cfg env n k = .succeeded := by
      simp [lifecycleStatus, hcons, hch]
    rw [hstat, hls]
    refine ⟨by simp [hch, Except.isOk, Except.toBool], by simp [hch, Except.isOk, Except.toBool], ?_, ?_, henv2⟩
    · simp [hch, Except.isOk, Except.toBool]
    · simp only [lifecycle, hcons, hch, Except.isOk, Except.toBool, if_true]
      simp [nodeSucceeded, logCheck]
  | error e =>
    have hok : ((env n).Check k CheckPhase.check).isOk = false := by
      simp [hch, Except.isOk, Except.toBool]
    cases hcr : (env n).Check k CheckPhase.recheck with
    | ok v =>
      have hls : lifecycleStatus cfg env n k = .eventuallySucceeded := by
        simp [lifecycleStatus, hcons, hch, hna, hcr]
      rw [hstat, hls]
      refine ⟨by simp [Except.isOk, Except.toBool], by simp [hok, hcr, Except.isOk, Except.toBool], by simp [hcr, Except.isOk, Except.toBool], ?_, henv2⟩
      · simp only [lifecycle, hcons, hch, hna, Bool.false_eq_true, if_false, hcr, hok]
        simp [nodeEventuallySucceeded, logCheck, Except.isOk, Except.toBool]
    | error e2 =>
      have hls : lifecycleStatus cfg env n k = .failed := by
        simp [lifecycleStatus, hcons, hch, hna, hcr]
      rw [hstat, hls]
      refine ⟨by simp [Except.isOk, Except.toBool], by simp [hok, hcr, Except.isOk, Except.toBool], by simp [hok, hcr, Except.isOk, Except.toBool], ?_, henv2⟩
      · simp only [lifecycle, hcons, hch, hna, Bool.false_eq_true, if_false, hcr, hok]
        simp [nodeFailed, logCheck, Except.isOk, Except.toBool]

/-! ## Claims C6 and C10: the cleanup pass and the instance list -/

/-- An instance whose `Cleanup` call (if any) does not raise. -/
def cleanupOkObj (env : Env) (o : String × Nat) : Prop :=
  (env o.1).hasCleanup = true → ∃ u, (env o.1).Cleanup o.2 = .ok u

theorem cleanupPass_all_ok (env : Env) :
    ∀ l, (∀ o, o ∈ l → cleanupOkObj env o) →
      cleanupPass env l = (l.filter fun o => (env o.1).hasCleanup, none) := by
  intro l
  induction l with
  | nil => intro _; rfl
  | cons o rest ih =>
    intro hall
    simp only [cleanupPass]
    by_cases hc : (env o.1).hasCleanup = true
    · rw [if_pos hc]
      obtain ⟨u, hu⟩ := hall o (List.mem_cons_self _ _) hc
      rw [hu]
      rw [ih fun q hq => hall q (List.mem_cons_of_mem _ hq)]
      simp [List.filter, hc]
    · rw [if_neg hc]
      rw [ih fun q hq => hall q (List.mem_cons_of_mem _ hq)]
      have hcf : (env o.1).hasCleanup = false := by
        cases hx : (env o.1).hasCleanup with
        | false => rfl
        | true => exact absurd hx hc
      simp [List.filter, hcf]

theorem cleanupPass_first_fail (env : Env) :
    ∀ pre x suf e, (∀ o, o ∈ pre → cleanupOkObj env o) →
      (env x.1).hasCleanup = true → (env x.1).Cleanup x.2 = .error e →
      cleanupPass env (pre ++ x :: suf) =
        ((pre.filter fun o => (env o.1).hasCleanup) ++ [x], some e) := by
  intro pre
  induction pre with
  | nil =>
    intro x suf e _ hx he
    simp only [List.nil_append, cleanupPass, if_pos hx, he, List.filter]
  | cons o rest ih =>
    intro x suf e hall hx he
    simp only [List.cons_append, cleanupPass, List.append_eq]
    by_cases hc : (env o.1).hasCleanup = true
    · rw [if_pos hc]
      obtain ⟨u, hu⟩ := hall o (List.mem_cons_self _ _) hc
      rw [hu]
      rw [ih x suf e (fun q hq => hall q (List.mem_cons_of_mem _ hq)) hx he]
      simp [List.filter, hc]
    · rw [if_neg hc]
      rw [ih x suf e (fun q hq => hall q (List.mem_cons_of_mem _ hq)) hx he]
      have hcf : (env o.1).hasCleanup = false := by
        cases hxx : (env o.1).hasCleanup with
        | false => rfl
        | true => exact absurd hxx hc
      simp [List.filter, hcf]

/-- Decomposition of the run entry point: the convergence loop produces
the final state, and the returned cleanup data is exactly the cleanup
pass over the reversed instance list (or empty if cleanup disabled). -/
theorem checknrun_elim {cfg : Config} {env : Env} {G : String → List String}
    {dfF auxF loopF : Nat} {s : DJState} {node : Option String}
    {r : DJState × List (String × Nat) × Option Err}
    (h : checknrun cfg env G dfF auxF loopF s node = some r) :
    checknrunLoop cfg env G dfF auxF loopF (runInit s) (node.getD cfg.root) = some r.1
    ∧ (cfg.cleanup = true → (r.2.1, r.2.2) = cleanupPass env r.1.objsrun.reverse)
    ∧ (cfg.cleanup = false → r.2.1 = [] ∧ r.2.2 = none) := by
  unfold checknrun at h
  cases hl : checknrunLoop cfg env G dfF auxF loopF (runInit s) (node.getD cfg.root) with
  | none => rw [hl] at h; exact absurd h (by simp)
  | some s1 =>
    rw [hl] at h
    simp only at h
    by_cases hc : cfg.cleanup = true
    · rw [if_pos hc] at h
      cases hcp : cleanupPass env s1.objsrun.reverse with
      | mk log e =>
        rw [hcp] at h
        simp only at h
        rw [← Option.some.inj h]
        refine ⟨rfl, fun _ => ?_, fun hcf => ?_⟩
        · rw [hcp]
        · rw [hc] at hcf
          cases hcf
    · rw [if_neg hc] at h
      rw [← Option.some.inj h]
      exact ⟨rfl, fun hct => absurd hct hc, fun _ => ⟨rfl, rfl⟩⟩

/-- C6: with cleanup enabled, the run entry point's cleanup pass walks
the constructed instances in exact reverse creation order.  If every
`Cleanup` succeeds, `Cleanup` is invoked exactly on the instances whose
class defines a callable `Cleanup`, in that order, and no exception is
propagated.  If a `Cleanup` raises, the pass stops at that instance:
the invocation list is the successful prefix plus the failing instance,
its exception is re-raised, and no instance created earlier (later in
the reversed list) has `Cleanup` invoked. -/
theorem claim_C6 {cfg : Config} {env : Env} {G : String → List String}
    {dfF auxF loopF : Nat} {s : DJState} {node : Option String}
    {r : DJState × List (String × Nat) × Option Err}
    (hcl : cfg.cleanup = true)
    (h : checknrun cfg env G dfF auxF loopF s node = some r) :
    ((∀ o, o ∈ r.1.objsrun.reverse → cleanupOkObj env o) →
      r.2.1 = (r.1.objsrun.reverse.filter fun o => (env o.1).hasCleanup) ∧ r.2.2 = none)
  ∧ (∀ pre x suf e, r.1.objsrun.reverse = pre ++ x :: suf →
      (∀ o, o ∈ pre → cleanupOkObj env o) →
      (env x.1).hasCleanup = true → (env x.1).Cleanup x.2 = .error e →
      r.2.1 = (pre.filter fun o => (env o.1).hasCleanup) ++ [x] ∧ r.2.2 = some e) := by
  have hcp := (checknrun_elim h).2.1 hcl
  constructor
  · intro hall
    rw [cleanupPass_all_ok env _ hall] at hcp
    exact ⟨congrArg Prod.fst hcp, congrArg Prod.snd hcp⟩
  · intro pre x suf e hsplit hpre hx he
    rw [hsplit, cleanupPass_first_fail env pre x suf e hpre hx he] at hcp
    exact ⟨congrArg Prod.fst hcp, congrArg Prod.snd hcp⟩

/-- The run entry point only appends to `_objsrun`. -/
theorem checknrun_objsrun_extends {cfg : Config} {env : Env} {G : String → List String}
    {dfF auxF loopF : Nat} {s : DJState} {node : Option String}
    {r : DJState × List (String × Nat) × Option Err}
    (h : checknrun cfg env G dfF auxF loopF s node = some r) :
    ∃ new, r.1.objsrun = s.objsrun ++ new := by
  refine checknrun_pres (P := fun t => ∃ new, t.objsrun = s.objsrun ++ new)
    ?_ ?_ ?_ ?_ s node r h ⟨[], by simp⟩
  · intro t ht
    exact ht
  · intro t q ht
    obtain ⟨new, hn⟩ := ht
    rw [(markUntested_frame q t).2.2.2.2.2.2.2.1]
    exact ⟨new, hn⟩
  · intro t q ht
    obtain ⟨new, hn⟩ := ht
    rcases gateAndAttempt_spec cfg env q t with ⟨_, heq⟩ | ⟨_, _, heq⟩
    · rw [heq]; exact ⟨new, hn⟩
    · rw [heq]
      obtain ⟨_, _, _, _, _, ⟨l2, hl2⟩, _, _, _, _, _⟩ :=
        lifecycle_frame cfg env q (t.attemptCount q) (attemptMark q t)
      rw [hl2, (attemptMark_frame q t).2.2.2.2.1, hn, List.append_assoc]
      exact ⟨new ++ l2, rfl⟩
  · intro t ht
    exact ht

/-- C10: the instantiated-jobs list is never cleared: it extends across
each run of the same configured engine; consequently, when cleanup is
enabled and the second run's cleanups all succeed, the second call to
the run entry point invokes `Cleanup` again on every instance that was
constructed during the first run (and whose class defines one), as part
of the reverse-order pass over the combined list. -/
theorem claim_C10 {cfg : Config} {env : Env} {G : String → List String}
    {dfF auxF loopF : Nat} {s0 : DJState} {node1 node2 : Option String}
    {r1 r2 : DJState × List (String × Nat) × Option Err}
    (h1 : checknrun cfg env G dfF auxF loopF s0 node1 = some r1)
    (h2 : checknrun cfg env G dfF auxF loopF r1.1 node2 = some r2) :
    (∃ new, r1.1.objsrun = s0.objsrun ++ new)
  ∧ (∃ new, r2.1.objsrun = r1.1.objsrun ++ new)
  ∧ (cfg.cleanup = true →
      (∀ o, o ∈ r2.1.objsrun.reverse → cleanupOkObj env o) →
      ∀ o, o ∈ r1.1.objsrun → (env o.1).hasCleanup = true → o ∈ r2.2.1) := by
  refine ⟨checknrun_objsrun_extends h1, checknrun_objsrun_extends h2, ?_⟩
  intro hcl hall o ho hc
  have hcp := (checknrun_elim h2).2.1 hcl
  rw [cleanupPass_all_ok env _ hall] at hcp
  have hlog : r2.2.1 = r2.1.objsrun.reverse.filter fun q => (env q.1).hasCleanup :=
    congrArg Prod.fst hcp
  rw [hlog]
  refine List.mem_filter.mpr ⟨?_, hc⟩
  rw [List.mem_reverse]
  obtain ⟨new, hn⟩ := checknrun_objsrun_extends h2
  rw [hn]
  exact List.mem_append_left _ ho

/-! ## Claim C5: no-act mode -/

theorem statusOf_lifecycle (cfg : Config) (env : Env) (n : String) (k : Nat)
    (s : DJState) (q : String) :
    statusOf (lifecycle cfg env n k s) q =
      if q = n then some (lifecycleStatus cfg env n k) else statusOf s q := by
  by_cases hq : q = n
  · subst hq
    rw [if_pos rfl, lifecycle_status_self]
  · rw [if_neg hq]
    obtain ⟨_, _, _, _, _, _, _, _, hst, _, _⟩ := lifecycle_frame cfg env n k s
    exact hst q hq

theorem lifecycle_runLog_noact {cfg : Config} {env : Env} {n : String} {k : Nat}
    {s : DJState} (hna : cfg.no_act = true) :
    (lifecycle cfg env n k s).runLog = s.runLog := by
  cases hc : (env n).construct k with
  | error e => simp [lifecycle, hc, nodeFailed]
  | ok u =>
    cases hch : (env n).Check k CheckPhase.check with
    | ok v => simp [lifecycle, hc, hch, nodeSucceeded, logCheck]
    | error e => simp [lifecycle, hc, hch, hna, nodeFailed, logCheck]

theorem lifecycle_checkLog_noact {cfg : Config} {env : Env} {n : String} {k : Nat}
    {s : DJState} (hna : cfg.no_act = true) :
    (lifecycle cfg env n k s).checkLog = s.checkLog ∨
    (lifecycle cfg env n k s).checkLog = s.checkLog ++ [(n, k, CheckPhase.check)] := by
  cases hc : (env n).construct k with
  | error e => exact .inl (by simp [lifecycle, hc, nodeFailed])
  | ok u =>
    cases hch : (env n).Check k CheckPhase.check with
    | ok v => exact .inr (by simp [lifecycle, hc, hch, nodeSucceeded, logCheck])
    | error e => exact .inr (by simp [lifecycle, hc, hch, hna, nodeFailed, logCheck])

theorem lifecycleStatus_noact_ne_ev {cfg : Config} {env : Env} {n : String} {k : Nat}
    (hna : cfg.no_act = true) :
    lifecycleStatus cfg env n k ≠ NStatus.eventuallySucceeded := by
  unfold lifecycleStatus
  cases (env n).construct k with
  | error e => intro hx; cases hx
  | ok u =>
    cases (env n).Check k CheckPhase.check with
    | ok v => intro hx; cases hx
    | error e =>
      rw [if_pos hna]
      intro hx
      cases hx

theorem lifecycle_succeeded_check {cfg : Config} {env : Env} {n : String} {k : Nat}
    {s : DJState} (hna : cfg.no_act = true)
    (hsu : lifecycleStatus cfg env n k = NStatus.succeeded) :
    ((env n).Check k CheckPhase.check).isOk = true ∧
    (n, k, CheckPhase.check) ∈ (lifecycle cfg env n k s).checkLog := by
  cases hc : (env n).construct k with
  | error e =>
    rw [show lifecycleStatus cfg env n k = .failed by simp [lifecycleStatus, hc]] at hsu
    cases hsu
  | ok u =>
    cases hch : (env n).Check k CheckPhase.check with
    | ok v =>
      constructor
      · rfl
      · simp [lifecycle, hc, hch, nodeSucceeded, logCheck]
    | error e =>
      rw [show lifecycleStatus cfg env n k = .failed by
        simp [lifecycleStatus, hc, hch, hna]] at hsu
      cases hsu

/-- The invariant of a no-act run: `Run` was never invoked, every
`Check` invocation was a first check, no node is eventually-succeeded,
and a succeeded node had a passing first `Check` call. -/
def NoActInv (env : Env) (s : DJState) : Prop :=
  s.runLog = []
  ∧ (∀ ent, ent ∈ s.checkLog → ent.2.2 = CheckPhase.check)
  ∧ (∀ n, statusOf s n ≠ some NStatus.eventuallySucceeded)
  ∧ (∀ n, statusOf s n = some NStatus.succeeded →
      ∃ k, (n, k, CheckPhase.check) ∈ s.checkLog ∧
        ((env n).Check k CheckPhase.check).isOk = true)

theorem noActInv_markUntested {env : Env} {s : DJState} (n : String)
    (hI : NoActInv env s) : NoActInv env (markUntested s n) := by
  obtain ⟨hrl, hph, hnev, hsucc⟩ := hI
  obtain ⟨_, _, _, _, _, _, _, _, hrl2, hcl2⟩ := markUntested_frame n s
  have hstat : ∀ q, statusOf (markUntested s n) q = statusOf s q ∨
      statusOf (markUntested s n) q = some NStatus.untested := by
    intro q
    by_cases hq : q = n
    · subst hq
      unfold markUntested
      by_cases hs : (statusOf s q).isSome
      · rw [if_pos hs]; exact .inl rfl
      · rw [if_neg hs]
        exact .inr (lookup_upsert_self _ _ _)
    · exact .inl (statusOf_markUntested_ne hq)
  refine ⟨by rw [hrl2]; exact hrl, by rw [hcl2]; exact hph, ?_, ?_⟩
  · intro q
    rcases hstat q with hx | hx
    · rw [hx]; exact hnev q
    · rw [hx]; intro hy; cases hy
  · intro q hq
    rcases hstat q with hx | hx
    · rw [hx] at hq
      obtain ⟨k, hk1, hk2⟩ := hsucc q hq
      exact ⟨k, by rw [hcl2]; exact hk1, hk2⟩
    · rw [hx] at hq
      cases hq

theorem noActInv_gate {cfg : Config} {env : Env} {s : DJState} (n : String)
    (hna : cfg.no_act = true) (hI : NoActInv env s) :
    NoActInv env (gateAndAttempt cfg env n s) := by
  rcases gateAndAttempt_spec cfg env n s with ⟨_, heq⟩ | ⟨_, _, heq⟩
  · rwa [heq]
  · rw [heq]
    obtain ⟨hrl, hph, hnev, hsucc⟩ := hI
    obtain ⟨hst, _, _, _, _, hrlA, hclA, _, _, _, _⟩ := attemptMark_frame n s
    set sA := attemptMark n s with hsA
    set k := s.attemptCount n with hk
    have hstA : ∀ q, statusOf sA q = statusOf s q := statusOf_attemptMark n s
    refine ⟨?_, ?_, ?_, ?_⟩
    · rw [lifecycle_runLog_noact hna, hrlA]
      exact hrl
    · intro ent hent
      rcases lifecycle_checkLog_noact (n := n) (k := k) (s := sA) hna with hcl | hcl
      · rw [hcl, hclA] at hent
        exact hph ent hent
      · rw [hcl, hclA] at hent
        rcases List.mem_append.mp hent with h1 | h2
        · exact hph ent h1
        · rw [List.mem_singleton.mp h2]
    · intro q
      rw [statusOf_lifecycle]
      by_cases hq : q = n
      · rw [if_pos hq]
        intro hx
        exact lifecycleStatus_noact_ne_ev hna (Option.some.inj hx)
      · rw [if_neg hq, hstA]
        exact hnev q
    · intro q hq
      rw [statusOf_lifecycle] at hq
      by_cases hq2 : q = n
      · rw [if_pos hq2] at hq
        subst hq2
        obtain ⟨hok, hmem⟩ := lifecycle_succeeded_check (s := sA) hna (Option.some.inj hq)
        exact ⟨k, hmem, hok⟩
      · rw [if_neg hq2, hstA] at hq
        obtain ⟨k2, hk1, hk2⟩ := hsucc q hq
        obtain ⟨_, _, _, _, _, _, _, ⟨lc, hlc⟩, _, _, _⟩ :=
          lifecycle_frame cfg env n k sA
        refine ⟨k2, ?_, hk2⟩
        rw [hlc, hclA]
        exact List.mem_append_left _ hk1

/-- In no-act mode, the convergence loop never iterates: any positive
fuel gives the single-pass result. -/
theorem checknrunLoop_noact {cfg : Config} {env : Env} {G : String → List String}
    {dfF auxF : Nat} (hna : cfg.no_act = true) :
    ∀ fuel s n, checknrunLoop cfg env G dfF auxF (fuel + 1) s n =
      checknrunLoop cfg env G dfF auxF 1 s n := by
  intro fuel s n
  simp only [checknrunLoop]
  cases checknrunAux cfg env G dfF auxF s n with
  | none => rfl
  | some s1 =>
    simp only
    by_cases hs : success s1 = true
    · rw [if_pos hs, if_pos hs]
    · rw [if_neg hs, if_neg hs]
      by_cases hr : (!retriableAny (incPhase s1)) = true
      · rw [if_pos hr, if_pos hr]
      · rw [if_neg hr, if_neg hr, if_pos hna, if_pos hna]

/-- C5: in no-act mode, on a fresh engine state, the run entry point
never invokes `Run`, never performs a re-`Check`, leaves no node
eventually-succeeded, marks a node succeeded only when an actual first
`Check` call of that node passed, and the convergence loop performs
exactly one pass (any positive loop fuel gives the fuel-one result). -/
theorem claim_C5 {cfg : Config} {env : Env} {G : String → List String}
    {dfF auxF loopF : Nat} {s : DJState} {node : Option String}
    {r : DJState × List (String × Nat) × Option Err}
    (hna : cfg.no_act = true) (hrl : s.runLog = []) (hcl : s.checkLog = [])
    (h : checknrun cfg env G dfF auxF loopF s node = some r) :
    r.1.runLog = []
  ∧ (∀ ent, ent ∈ r.1.checkLog → ent.2.2 = CheckPhase.check)
  ∧ (∀ n, statusOf r.1 n ≠ some NStatus.eventuallySucceeded)
  ∧ (∀ n, statusOf r.1 n = some NStatus.succeeded →
      ∃ k, (n, k, CheckPhase.check) ∈ r.1.checkLog ∧
        ((env n).Check k CheckPhase.check).isOk = true)
  ∧ (∀ fuel s2 n2, checknrunLoop cfg env G dfF auxF (fuel + 1) s2 n2 =
      checknrunLoop cfg env G dfF auxF 1 s2 n2) := by
  have hloop := (checknrun_elim h).1
  have hinit : NoActInv env (runInit s) := by
    refine ⟨hrl, ?_, ?_, ?_⟩
    · rw [show (runInit s).checkLog = s.checkLog from rfl, hcl]
      intro ent hent
      cases hent
    · intro n
      show List.lookup n ([] : List (String × NStatus)) ≠ _
      simp [List.lookup]
    · intro n hn
      exact absurd hn (by simp [statusOf, runInit, List.lookup])
  have hfin : NoActInv env r.1 :=
    checknrunLoop_pres (fun t q hq => noActInv_markUntested q hq)
      (fun t q hq => noActInv_gate q hna hq) (fun t hq => hq)
      loopF _ _ _ hloop hinit
  obtain ⟨h1, h2, h3, h4⟩ := hfin
  exact ⟨h1, h2, h3, h4, fun fuel s2 n2 => checknrunLoop_noact hna fuel s2 n2⟩

/-! ## Claim C2: retry bookkeeping -/

/-- The executor invocations of one node, in order. -/
def attemptsOf (n : String) (log : List AttemptEv) : List AttemptEv :=
  log.filter fun ev => ev.node == n

/-- The outer-loop phases at which one node was attempted, in order. -/
def phasesOf (n : String) (log : List AttemptEv) : List Int :=
  (attemptsOf n log).map AttemptEv.phase

theorem attemptsOf_snoc_self {n : String} (l : List AttemptEv) {ev : AttemptEv}
    (h : ev.node = n) : attemptsOf n (l ++ [ev]) = attemptsOf n l ++ [ev] := by
  simp [attemptsOf, List.filter_append, List.filter, h]

theorem attemptsOf_snoc_other {n : String} (l : List AttemptEv) {ev : AttemptEv}
    (h : ev.node ≠ n) : attemptsOf n (l ++ [ev]) = attemptsOf n l := by
  have : (ev.node == n) = false := beq_eq_false_iff_ne.mpr h
  simp [attemptsOf, List.filter_append, List.filter, this]

theorem getLast?_mem_list {α : Type} {l : List α} {a : α}
    (h : l.getLast? = some a) : a ∈ l := by
  obtain ⟨hne, heq⟩ := List.mem_getLast?_eq_getLast (Option.mem_def.mpr h)
  rw [heq]
  exact List.getLast_mem hne

/-- The retry-tracker invariant, relative to the records `R0` the engine
started with: the delay never changes; tries always equal the initial
tries minus the number of recorded attempts and never go negative; the
attempt phases are strictly increasing and bounded by the recorded last
phase; and the record equals its initial value until the first attempt,
after which next-eligible is the last attempt's (post-sleep) time plus
the retry delay and last phase is the last attempt's phase. -/
def RetryInv (R0 : String → RetryRec) (s : DJState) : Prop :=
  ∀ n,
    (getRetry s n).retry_delay = (R0 n).retry_delay
    ∧ (getRetry s n).tries = (R0 n).tries - ((attemptsOf n s.attemptLog).length : Int)
    ∧ 0 ≤ (getRetry s n).tries
    ∧ (∀ p, p ∈ phasesOf n s.attemptLog → p ≤ (getRetry s n).lastphase)
    ∧ List.Chain' (· < ·) (phasesOf n s.attemptLog)
    ∧ ((attemptsOf n s.attemptLog = [] ∧ getRetry s n = R0 n) ∨
       (∃ ev, (attemptsOf n s.attemptLog).getLast? = some ev
          ∧ (getRetry s n).nexttry = ev.clock + (R0 n).retry_delay
          ∧ (getRetry s n).lastphase = ev.phase))

theorem retryInv_of_eq {R0 : String → RetryRec} {s s' : DJState}
    (hr : s'.retry = s.retry) (hl : s'.attemptLog = s.attemptLog)
    (hI : RetryInv R0 s) : RetryInv R0 s' := by
  intro n
  have hg : getRetry s' n = getRetry s n := by unfold getRetry; rw [hr]
  rw [hg, hl]
  exact hI n

theorem retryInv_gate {cfg : Config} {env : Env} {R0 : String → RetryRec}
    (x : String) (s : DJState) (hI : RetryInv R0 s) :
    RetryInv R0 (gateAndAttempt cfg env x s) := by
  rcases gateAndAttempt_spec cfg env x s with ⟨_, heq⟩ | ⟨hph, htr, heq⟩
  · rwa [heq]
  · rw [heq]
    apply retryInv_of_eq
      (lifecycle_frame cfg env x (s.attemptCount x) (attemptMark x s)).2.1
      (lifecycle_frame cfg env x (s.attemptCount x) (attemptMark x s)).2.2.2.2.1
    obtain ⟨_, _, _, _, _, _, _, hAlog, _, hRx, hRo⟩ := attemptMark_frame x s
    intro n
    obtain ⟨hdel, htries, hpos, hub, hchain, hlast⟩ := hI n
    by_cases hn : n = x
    · subst hn
      have hlog : attemptsOf n (attemptMark n s).attemptLog =
          attemptsOf n s.attemptLog ++
            [⟨n, s.attemptCount n, s.run_phase, max s.clock (getRetry s n).nexttry,
              s.nodestatus⟩] := by
        rw [hAlog]
        exact attemptsOf_snoc_self _ rfl
      have hphases : phasesOf n (attemptMark n s).attemptLog =
          phasesOf n s.attemptLog ++ [s.run_phase] := by
        unfold phasesOf
        rw [hlog, List.map_append]
        rfl
      refine ⟨?_, ?_, ?_, ?_, ?_, ?_⟩
      · rw [hRx]
        exact hdel
      · rw [hRx, hlog]
        simp only [List.length_append, List.length_singleton]
        rw [show (getRetry s n).tries - 1 =
            (getRetry s n).tries - 1 from rfl]
        omega
      · rw [hRx]
        simp only
        omega
      · intro p hp
        rw [hphases] at hp
        rw [hRx]
        simp only
        rcases List.mem_append.mp hp with hp1 | hp2
        · exact le_of_lt (lt_of_le_of_lt (hub p hp1) hph)
        · rw [List.mem_singleton.mp hp2]
      · rw [hphases]
        rw [List.chain'_append]
        refine ⟨hchain, List.chain'_singleton _, ?_⟩
        intro a ha b hb
        simp only [List.head?_cons, Option.mem_def, Option.some.injEq] at hb
        subst hb
        have hmem : a ∈ phasesOf n s.attemptLog := by
          cases hgl : (phasesOf n s.attemptLog).getLast? with
          | none => rw [hgl] at ha; cases ha
          | some a0 =>
            rw [hgl] at ha
            cases ha
            exact getLast?_mem_list hgl
        exact lt_of_le_of_lt (hub a hmem) hph
      · refine .inr ⟨⟨n, s.attemptCount n, s.run_phase,
            max s.clock (getRetry s n).nexttry, s.nodestatus⟩, ?_, ?_, ?_⟩
        · rw [hlog]
          exact List.getLast?_concat _
        · rw [hRx]
          simp only
          rw [hdel]
        · rw [hRx]
    · have hne : (⟨x, s.attemptCount x, s.run_phase,
          max s.clock (getRetry s x).nexttry, s.nodestatus⟩ : AttemptEv).node ≠ n :=
        fun hx => hn hx.symm
      have hlog : attemptsOf n (attemptMark x s).attemptLog =
          attemptsOf n s.attemptLog := by
        rw [hAlog]
        exact attemptsOf_snoc_other _ hne
      have hg : getRetry (attemptMark x s) n = getRetry s n := hRo n hn
      unfold phasesOf
      rw [hg, hlog]
      exact ⟨hdel, htries, hpos, hub, hchain, hlast⟩

/-- C2: starting from a configured engine, during a run no node is
attempted more often than its initial tries; tries left always equal
initial tries minus attempts made; a registered node's initial tries
are its resolved max-tries; the phases of a node's attempts are
strictly increasing, so no node is attempted twice in one phase; and
after the last attempt the record carries that attempt's phase and its
post-sleep time plus the retry delay as the next-eligible time (the
record is untouched if the node was never attempted). -/
theorem claim_C2 {env : Env} {cfg : Config} {dfF fuel : Nat} {t0 : Int} {st : ConfSt}
    {auxF loopF : Nat} {node : Option String}
    {r : DJState × List (String × Nat) × Option Err}
    (hconf : configure env cfg dfF fuel t0 = some (.ok st))
    (h : checknrun cfg env (succOf st) dfF auxF loopF (initialState st t0) node = some r) :
    ∀ n,
      ((attemptsOf n r.1.attemptLog).length : Int) ≤ (getRetry (initialState st t0) n).tries
    ∧ (n ∈ st.classmap →
        (getRetry (initialState st t0) n).tries = resolvedTries env cfg n)
    ∧ List.Pairwise (· < ·) (phasesOf n r.1.attemptLog)
    ∧ (getRetry r.1 n).tries =
        (getRetry (initialState st t0) n).tries -
          ((attemptsOf n r.1.attemptLog).length : Int)
    ∧ ((attemptsOf n r.1.attemptLog = [] ∧
          getRetry r.1 n = getRetry (initialState st t0) n) ∨
       (∃ ev, (attemptsOf n r.1.attemptLog).getLast? = some ev
          ∧ (getRetry r.1 n).nexttry =
              ev.clock + (getRetry (initialState st t0) n).retry_delay
          ∧ (getRetry r.1 n).lastphase = ev.phase)) := by
  obtain ⟨hg, _⟩ := configure_good hconf
  have hR0 : ∀ n, n ∈ st.classmap →
      getRetry (initialState st t0) n = freshRec env cfg t0 n := by
    intro n hn
    unfold getRetry
    rw [show (initialState st t0).retry = st.retry from rfl, hg.2.2.2.1 n hn]
    rfl
  have hinit : RetryInv (getRetry (initialState st t0)) (initialState st t0) := by
    intro n
    refine ⟨rfl, by simp [attemptsOf, initialState], ?_, ?_, ?_, ?_⟩
    · by_cases hn : n ∈ st.classmap
      · rw [hR0 n hn]
        have := hg.2.1 n hn
        unfold badJob at this
        push_neg at this
        have h1 := this.2.1
        show (0 : Int) ≤ resolvedTries env cfg n
        omega
      · unfold getRetry
        rw [show (initialState st t0).retry = st.retry from rfl, hg.2.2.2.2.2.1 n hn]
        simp
    · intro p hp
      simp [phasesOf, attemptsOf, initialState] at hp
    · simp [phasesOf, attemptsOf, initialState]
    · exact .inl ⟨by simp [attemptsOf, initialState], rfl⟩
  have hfin : RetryInv (getRetry (initialState st t0)) r.1 := by
    refine checknrun_pres ?_ ?_ ?_ ?_ _ node r h hinit
    · intro t ht
      exact retryInv_of_eq rfl rfl ht
    · intro t q ht
      exact retryInv_of_eq (markUntested_frame q t).2.2.2.1
        (markUntested_frame q t).2.2.2.2.2.2.1 ht
    · intro t q ht
      exact retryInv_gate q t ht
    · intro t ht
      exact retryInv_of_eq rfl rfl ht
  intro n
  obtain ⟨hdel, htries, hpos, hub, hchain, hlast⟩ := hfin n
  refine ⟨by omega, ?_, ?_, htries, ?_⟩
  · intro hn
    rw [hR0 n hn]
    rfl
  · exact List.chain'_iff_pairwise.mp hchain
  · exact hlast

/-! ## Claim C3: dependency blocking -/

/-- C3: starting from a configured engine (whose graph passed cycle
detection) in a state whose recorded attempts all had successful
dependencies, after any completed run (a) the ghost attempt log shows
the executor was never invoked on a node while some transitive
dependency other than the node itself had a status other than
succeeded/eventually-succeeded at invocation time, and (b) the final
status map satisfies the blocking invariant: every node recorded as
succeeded or eventually-succeeded has every transitive dependency
recorded successful — so a node with a non-successful transitive
dependency can never end the run with status succeeded. -/
theorem claim_C3 {env : Env} {cfg : Config} {dfF fuel auxF loopF : Nat} {t0 : Int}
    {st : ConfSt} {s : DJState} {node : Option String}
    {r : DJState × List (String × Nat) × Option Err}
    (hconf : configure env cfg dfF fuel t0 = some (.ok st))
    (hlog : SnapOK (succOf st) s)
    (h : checknrun cfg env (succOf st) dfF auxF loopF s node = some r) :
    SnapOK (succOf st) r.1 ∧ StatusInv (succOf st) r.1 := by
  have hacyc := (configure_good hconf).2
  have hloop := (checknrun_elim h).1
  have hnt : truthy (statusOf (runInit s) (node.getD cfg.root)) = false := rfl
  have hinv : C3Inv (succOf st) (node.getD cfg.root) (runInit s) := by
    refine ⟨?_, ?_, ?_, ?_⟩
    · intro q hq
      exact absurd hq (by simp [statusOf, runInit, truthy, List.lookup])
    · intro ev hev
      exact hlog ev hev
    · intro m hm
      exact absurd hm (by simp [statusOf, runInit, List.lookup])
    · simp [runInit]
  obtain ⟨hSI, hSO, _, _⟩ := checknrunLoop_c3 hacyc loopF (runInit s)
    (node.getD cfg.root) r.1 hloop hnt hinv
  exact ⟨hSO, hSI⟩

/-! ## Claim C7: the overall result predicates -/

/-- C7: after a completed run targeted at `node` (defaulting to the
configured root), `success` holds iff every node reachable from the
target has status succeeded or eventually-succeeded, `failure` holds
iff `success` does not, and `partial_success` holds iff at least one
node has status succeeded or eventually-succeeded. -/
theorem claim_C7 {cfg : Config} {env : Env} {G : String → List String}
    {dfF auxF loopF : Nat} {s : DJState} {node : Option String}
    {r : DJState × List (String × Nat) × Option Err}
    (h : checknrun cfg env G dfF auxF loopF s node = some r) :
    (success r.1 = true ↔
      ∀ m, Reaches G (node.getD cfg.root) m → truthy (statusOf r.1 m) = true)
  ∧ (failure r.1 = true ↔ ¬ success r.1 = true)
  ∧ (partial_success r.1 = true ↔ ∃ m, truthy (statusOf r.1 m) = true) := by
  have hloop := (checknrun_elim h).1
  have hcov : ∀ m, Reaches G (node.getD cfg.root) m → (statusOf r.1 m).isSome :=
    checknrunLoop_covers loopF (runInit s) (node.getD cfg.root) r.1 hloop
  have hbound : ∀ m, (statusOf r.1 m).isSome → Reaches G (node.getD cfg.root) m := by
    intro m hm
    rcases checknrunLoop_keys_bound loopF (runInit s) (node.getD cfg.root) r.1
        hloop m hm with hs | hr
    · exact absurd hs (by simp [statusOf, runInit, List.lookup])
    · exact hr
  have hnd : (r.1.nodestatus.map Prod.fst).Nodup :=
    checknrunLoop_keys_nodup hloop (by simp [runInit])
  refine ⟨⟨?_, ?_⟩, ?_, ⟨?_, ?_⟩⟩
  · intro hsucc m hre
    obtain ⟨v, hv⟩ := Option.isSome_iff_exists.mp (hcov m hre)
    have hmem : (m, v) ∈ r.1.nodestatus := mem_of_lookup hv
    rw [success, Bool.and_eq_true, List.all_eq_true] at hsucc
    have hall := hsucc.2
    have := hall (m, v) hmem
    show truthy (statusOf r.1 m) = true
    rw [show statusOf r.1 m = some v from hv]
    exact this
  · intro hall
    unfold success
    rw [Bool.and_eq_true]
    constructor
    · rw [nodestatus_nonempty_of_lookup
        (hcov (node.getD cfg.root) (Reaches.refl _))]
      rfl
    · rw [List.all_eq_true]
      intro p hp
      have hl : List.lookup p.1 r.1.nodestatus = some p.2 :=
        lookup_eq_of_mem_nodup hnd (by rw [show (p.1, p.2) = p from rfl]; exact hp)
      have hsome : (statusOf r.1 p.1).isSome = true := by
        show (List.lookup p.1 r.1.nodestatus).isSome = true
        rw [hl]
        rfl
      have := hall p.1 (hbound p.1 hsome)
      show truthyS p.2 = true
      have hst : statusOf r.1 p.1 = some p.2 := hl
      rw [hst] at this
      exact this
  · show (!success r.1) = true ↔ ¬ success r.1 = true
    simp
  · intro hps
    rw [partial_success, Bool.and_eq_true, List.any_eq_true] at hps
    obtain ⟨p, hp, ht⟩ := hps.2
    refine ⟨p.1, ?_⟩
    have hl : List.lookup p.1 r.1.nodestatus = some p.2 :=
      lookup_eq_of_mem_nodup hnd (by rw [show (p.1, p.2) = p from rfl]; exact hp)
    show truthy (statusOf r.1 p.1) = true
    rw [show statusOf r.1 p.1 = some p.2 from hl]
    exact ht
  · rintro ⟨m, hm⟩
    have hsome := truthy_isSome hm
    obtain ⟨v, hv⟩ := Option.isSome_iff_exists.mp hsome
    unfold partial_success
    rw [Bool.and_eq_true]
    constructor
    · rw [nodestatus_nonempty_of_lookup hsome]
      rfl
    · rw [List.any_eq_true]
      refine ⟨(m, v), mem_of_lookup hv, ?_⟩
      show truthyS v = true
      rw [show statusOf r.1 m = some v from hv] at hm
      exact hm

/-! ## Claims C8 and C9: what run initialization does and does not reset -/

/-- A job whose `Check` always fails, with `TRIES = 1`. -/
def exJobFail : JobSpec :=
  { DEPS := some []
    TRIES := some 1
    RETRY_DELAY := some 0
    construct := fun _ => .ok ()
    Check := fun _ _ => .error 1
    Run := fun _ => .error 2
    hasCleanup := false
    Cleanup := fun _ => .ok () }

/-- An environment registering only the always-failing job. -/
def exEnvF : Env := fun _ => exJobFail

/-- A plain configuration rooted at `R`. -/
def exCfg : Config :=
  { root := "R"
    no_act := false
    cleanup := false
    default_tries := 1
    default_retry_delay := 0 }

/-- The configuration state `configure` builds for a single dependency-free
root job with `TRIES = 1` and `RETRY_DELAY = 0` at time 0. -/
def exSt : ConfSt :=
  { classmap := ["R"]
    retry := [("R", { tries := 1, retry_delay := 0, nexttry := 0, lastphase := -1 })]
    deps := [("R", [])] }

/-- A job whose first `Check` passes with value 42. -/
def exJobOk : JobSpec :=
  { DEPS := some []
    TRIES := some 1
    RETRY_DELAY := some 0
    construct := fun _ => .ok ()
    Check := fun _ _ => .ok 42
    Run := fun _ => .ok 0
    hasCleanup := false
    Cleanup := fun _ => .ok () }

/-- An environment registering only the immediately-succeeding job. -/
def exEnvOk : Env := fun _ => exJobOk

/-- C8 counterexample: a freshly configured engine holds the fresh retry
record for its root job (resolved max-tries 1, last phase −1), but after
one completed run of the always-failing job the state at the start of
the next top-level run still carries the consumed record — tries 0 and
last-attempted-phase 0 instead of the fresh values — so the retry
record is not re-initialized at the start of every run. -/
theorem claim_C8_counterexample :
    ∃ st r,
      configure exEnvF exCfg 4 4 0 = some (.ok st)
    ∧ List.lookup "R" st.retry = some (freshRec exEnvF exCfg 0 "R")
    ∧ checknrun exCfg exEnvF (succOf st) 4 4 4 (initialState st 0) none = some r
    ∧ resolvedTries exEnvF exCfg "R" = 1
    ∧ getRetry (runInit r.1) "R" =
        { tries := 0, retry_delay := 0, nexttry := 0, lastphase := 0 } :=
  ⟨exSt, _, rfl, rfl, rfl, rfl, rfl⟩

/-- C8 (amended): the retry records are created once, when the graph is
built — after `configure` every registered node's record holds
tries = resolved max-tries, retry delay = resolved delay, next-eligible
= configuration time, and last-attempted-phase = −1, and the freshly
configured engine state carries exactly these records — but the start
of a top-level run does not recreate them: run initialization resets
only the status map and leaves `_retry` exactly as the previous run
left it, so tries consumed in one run stay consumed in the next. -/
theorem claim_C8_amended {env : Env} {cfg : Config} {dfF fuel : Nat} {t0 : Int}
    {st : ConfSt} (hconf : configure env cfg dfF fuel t0 = some (.ok st)) :
    (∀ n, n ∈ st.classmap →
      List.lookup n st.retry = some
        { tries := resolvedTries env cfg n
          retry_delay := resolvedDelay env cfg n
          nexttry := t0
          lastphase := -1 })
  ∧ (initialState st t0).retry = st.retry
  ∧ (∀ s : DJState, (runInit s).retry = s.retry ∧ (runInit s).nodestatus = []) := by
  refine ⟨?_, rfl, fun s => ⟨rfl, rfl⟩⟩
  intro n hn
  exact (configure_good hconf).1.2.2.2.1 n hn

/-- C8 (amended) witness at the single-job configuration. -/
theorem claim_C8_amended_witness :
    configure exEnvF exCfg 4 4 0 = some (.ok exSt)
  ∧ ((∀ n, n ∈ exSt.classmap →
        List.lookup n exSt.retry = some
          { tries := resolvedTries exEnvF exCfg n
            retry_delay := resolvedDelay exEnvF exCfg n
            nexttry := 0
            lastphase := -1 })
    ∧ (initialState exSt 0).retry = exSt.retry
    ∧ (∀ s : DJState, (runInit s).retry = s.retry ∧ (runInit s).nodestatus = [])) :=
  ⟨rfl, @claim_C8_amended exEnvF exCfg 4 4 0 exSt rfl⟩

/-- `lifecycle` never removes a captured result: at most it overwrites
the attempted node's entry. -/
theorem lifecycle_resultOf_isSome (cfg : Config) (env : Env) (n : String) (k : Nat)
    (s : DJState) (m : String) (h : (resultOf s m).isSome) :
    (resultOf (lifecycle cfg env n k s) m).isSome := by
  cases hc : (env n).construct k with
  | error e => simp only [lifecycle, hc]; exact h
  | ok u =>
    cases hch : (env n).Check k CheckPhase.check with
    | ok v =>
      simp only [lifecycle, hc, hch]
      exact lookup_isSome_upsert _ _ _ _ h
    | error e =>
      cases hna : cfg.no_act with
      | true => simp only [lifecycle, hc, hch, hna, if_true]; exact h
      | false =>
        cases hcr : (env n).Check k CheckPhase.recheck with
        | ok v =>
          simp only [lifecycle, hc, hch, hna, Bool.false_eq_true, if_false, hcr]
          exact lookup_isSome_upsert _ _ _ _ h
        | error e2 =>
          simp only [lifecycle, hc, hch, hna, Bool.false_eq_true, if_false, hcr]
          exact h

/-- `lifecycle` never removes a captured exception. -/
theorem lifecycle_excOf_isSome (cfg : Config) (env : Env) (n : String) (k : Nat)
    (s : DJState) (m : String) (h : (excOf s m).isSome) :
    (excOf (lifecycle cfg env n k s) m).isSome := by
  cases hc : (env n).construct k with
  | error e => simp only [lifecycle, hc]; exact lookup_isSome_upsert _ _ _ _ h
  | ok u =>
    cases hch : (env n).Check k CheckPhase.check with
    | ok v =>
      simp only [lifecycle, hc, hch]
      exact h
    | error e =>
      cases hna : cfg.no_act with
      | true =>
        simp only [lifecycle, hc, hch, hna, if_true]
        exact lookup_isSome_upsert _ _ _ _ h
      | false =>
        cases hcr : (env n).Check k CheckPhase.recheck with
        | ok v =>
          simp only [lifecycle, hc, hch, hna, Bool.false_eq_true, if_false, hcr]
          exact h
        | error e2 =>
          simp only [lifecycle, hc, hch, hna, Bool.false_eq_true, if_false, hcr]
          exact lookup_isSome_upsert _ _ _ _ h

/-- C9 (amended): run initialization resets only the status map — every
previously recorded status becomes unobservable, but the captured
results and captured exceptions of earlier runs are left untouched, and
any entry present when a run starts is still present (possibly
overwritten) when it completes. -/
theorem claim_C9_amended {cfg : Config} {env : Env} {G : String → List String}
    {dfF auxF loopF : Nat} {s : DJState} {node : Option String}
    {r : DJState × List (String × Nat) × Option Err}
    (h : checknrun cfg env G dfF auxF loopF s node = some r) :
    ((runInit s).nodestatus = [] ∧ (∀ m, statusOf (runInit s) m = none))
  ∧ (runInit s).noderesults = s.noderesults
  ∧ (runInit s).nodeexceptions = s.nodeexceptions
  ∧ (∀ m, (resultOf s m).isSome → (resultOf r.1 m).isSome)
  ∧ (∀ m, (excOf s m).isSome → (excOf r.1 m).isSome) := by
  refine ⟨⟨rfl, fun m => rfl⟩, rfl, rfl, fun m => ?_, fun m => ?_⟩
  · intro hm
    refine checknrun_pres (P := fun t => (resultOf t m).isSome) ?_ ?_ ?_ ?_
      s node r h hm
    · intro t ht
      exact ht
    · intro t q ht
      show (List.lookup m (markUntested t q).noderesults).isSome = true
      rw [(markUntested_frame q t).1]
      exact ht
    · intro t q ht
      rcases gateAndAttempt_spec cfg env q t with ⟨_, heq⟩ | ⟨_, _, heq⟩
      · rwa [heq]
      · rw [heq]
        apply lifecycle_resultOf_isSome
        show (List.lookup m (attemptMark q t).noderesults).isSome = true
        rw [(attemptMark_frame q t).2.1]
        exact ht
    · intro t ht
      exact ht
  · intro hm
    refine checknrun_pres (P := fun t => (excOf t m).isSome) ?_ ?_ ?_ ?_
      s node r h hm
    · intro t ht
      exact ht
    · intro t q ht
      show (List.lookup m (markUntested t q).nodeexceptions).isSome = true
      rw [(markUntested_frame q t).2.1]
      exact ht
    · intro t q ht
      rcases gateAndAttempt_spec cfg env q t with ⟨_, heq⟩ | ⟨_, _, heq⟩
      · rwa [heq]
      · rw [heq]
        apply lifecycle_excOf_isSome
        show (List.lookup m (attemptMark q t).nodeexceptions).isSome = true
        rw [(attemptMark_frame q t).2.2.1]
        exact ht
    · intro t ht
      exact ht

/-- C9 (amended) witness at a concrete run of the succeeding job. -/
theorem claim_C9_amended_witness :
    ∃ r, checknrun exCfg exEnvOk (succOf exSt) 4 4 4 (initialState exSt 0) none = some r
    ∧ (((runInit (initialState exSt 0)).nodestatus = []
        ∧ (∀ m, statusOf (runInit (initialState exSt 0)) m = none))
      ∧ (runInit (initialState exSt 0)).noderesults = (initialState exSt 0).noderesults
      ∧ (runInit (initialState exSt 0)).nodeexceptions
          = (initialState exSt 0).nodeexceptions
      ∧ (∀ m, (resultOf (initialState exSt 0) m).isSome → (resultOf r.1 m).isSome)
      ∧ (∀ m, (excOf (initialState exSt 0) m).isSome → (excOf r.1 m).isSome)) :=
  ⟨_, rfl, @claim_C9_amended exCfg exEnvOk (succOf exSt) 4 4 4
    (initialState exSt 0) none _ rfl⟩

/-- C9 counterexample: after a run in which the root job's `Check`
passed with value 42, the state at the start of the next top-level run
has an empty status map but still carries the captured result —
`noderesults` is `[("R", 42)]`, observable through the query surface —
so the result and exception maps are not reset to empty at run start. -/
theorem claim_C9_counterexample :
    ∃ st r,
      configure exEnvOk exCfg 4 4 0 = some (.ok st)
    ∧ checknrun exCfg exEnvOk (succOf st) 4 4 4 (initialState st 0) none = some r
    ∧ resultOf r.1 "R" = some 42
    ∧ (runInit r.1).nodestatus = []
    ∧ (runInit r.1).noderesults = [("R", 42)]
    ∧ resultOf (runInit r.1) "R" = some 42 :=
  ⟨exSt, _, rfl, rfl, rfl, rfl, rfl, rfl⟩

/-! ## Concrete witnesses for the remaining claims -/

/-- The plain configuration with no-act mode enabled. -/
def exCfgNA : Config :=
  { root := "R"
    no_act := true
    cleanup := false
    default_tries := 1
    default_retry_delay := 0 }

/-- The plain configuration with cleanup enabled. -/
def exCfgCl : Config :=
  { root := "R"
    no_act := false
    cleanup := true
    default_tries := 1
    default_retry_delay := 0 }

/-- The immediately-succeeding job with a callable `Cleanup`. -/
def exJobClean : JobSpec :=
  { exJobOk with hasCleanup := true }

/-- An environment registering only the cleanable succeeding job. -/
def exEnvClean : Env := fun _ => exJobClean

/-- C1 witness at the immediately-succeeding job. -/
theorem claim_C1_witness :
    exCfg.no_act = false
  ∧ (exEnvOk "R").construct 0 = .ok ()
  ∧ (statusOf (lifecycle exCfg exEnvOk "R" 0 (initialState exSt 0)) "R"
        = some NStatus.succeeded
      ↔ ((exEnvOk "R").Check 0 CheckPhase.check).isOk = true) :=
  ⟨rfl, rfl, (@claim_C1 exCfg exEnvOk "R" 0 (initialState exSt 0) rfl ⟨(), rfl⟩).1⟩

/-- C2 witness at a completed run of the always-failing job. -/
theorem claim_C2_witness :
    ∃ r,
      configure exEnvF exCfg 4 4 0 = some (.ok exSt)
    ∧ checknrun exCfg exEnvF (succOf exSt) 4 4 4 (initialState exSt 0) none = some r
    ∧ ((attemptsOf "R" r.1.attemptLog).length : Int)
        ≤ (getRetry (initialState exSt 0) "R").tries :=
  ⟨_, rfl, rfl, (@claim_C2 exEnvF exCfg 4 4 0 exSt 4 4 none _ rfl rfl "R").1⟩

/-- C3 witness at a completed run of the always-failing job. -/
theorem claim_C3_witness :
    ∃ r,
      configure exEnvF exCfg 4 4 0 = some (.ok exSt)
    ∧ checknrun exCfg exEnvF (succOf exSt) 4 4 4 (initialState exSt 0) none = some r
    ∧ SnapOK (succOf exSt) r.1 ∧ StatusInv (succOf exSt) r.1 :=
  ⟨_, rfl, rfl, @claim_C3 exEnvF exCfg 4 4 4 4 0 exSt (initialState exSt 0) none _
      rfl (fun ev hev => absurd hev (List.not_mem_nil ev)) rfl⟩

/-- A root job declaring the same dependency twice. -/
def exJobDup : JobSpec :=
  { DEPS := some ["A", "A"]
    TRIES := some 1
    RETRY_DELAY := some 0
    construct := fun _ => .ok ()
    Check := fun _ _ => .ok 0
    Run := fun _ => .ok 0
    hasCleanup := false
    Cleanup := fun _ => .ok () }

/-- A dependency-free, immediately-succeeding job. -/
def exJobLeaf : JobSpec :=
  { DEPS := some []
    TRIES := some 1
    RETRY_DELAY := some 0
    construct := fun _ => .ok ()
    Check := fun _ _ => .ok 0
    Run := fun _ => .ok 0
    hasCleanup := false
    Cleanup := fun _ => .ok () }

/-- An environment whose root `R` declares the (valid, acyclic)
dependency `A` twice. -/
def exEnvDup : Env := fun n => if n = "R" then exJobDup else exJobLeaf

/-- C4 counterexample: a root job declaring the same valid dependency
twice.  Configuration fails — the graph library's `add_edge` raises on
the duplicate edge — although every reachable job has valid `TRIES`,
`RETRY_DELAY` and an iterable dependency list and the dependency
relation is acyclic: configuration failure is not equivalent to the
four originally enumerated conditions. -/
theorem claim_C4_counterexample :
    configure exEnvDup exCfg 4 4 0 = some (.error (.dupEdge "R" "A"))
  ∧ ¬ ((∃ n, Reaches (depsListD exEnvDup) exCfg.root n ∧ badJob exEnvDup exCfg n) ∨
        hasCycleFrom exEnvDup exCfg.root) := by
  have hpostR : dfsPost (depsListD exEnvDup) 4 "R" = some ["A", "R"] := rfl
  have hpostA : dfsPost (depsListD exEnvDup) 4 "A" = some ["A"] := rfl
  refine ⟨rfl, ?_⟩
  rintro (⟨n, hre, hbad⟩ | ⟨n, hre, d, hd, hrd⟩)
  · have hmem := (dfsPost_mem_iff hpostR n).mpr hre
    simp only [List.mem_cons, List.not_mem_nil, or_false] at hmem
    rcases hmem with rfl | rfl
    · revert hbad
      unfold badJob
      decide
    · revert hbad
      unfold badJob
      decide
  · have hmem := (dfsPost_mem_iff hpostR n).mpr hre
    simp only [List.mem_cons, List.not_mem_nil, or_false] at hmem
    rcases hmem with rfl | rfl
    · have hnil : depsListD exEnvDup "A" = [] := rfl
      rw [hnil] at hd
      exact absurd hd (List.not_mem_nil d)
    · have hRA : depsListD exEnvDup "R" = ["A", "A"] := rfl
      rw [hRA] at hd
      simp only [List.mem_cons, List.not_mem_nil, or_false, or_self] at hd
      subst hd
      have hback := (dfsPost_mem_iff hpostA "R").mpr hrd
      simp at hback

/-- C4 (amended) witness: the failure-condition equivalence at the
successfully configuring single-job environment, and the cycle-naming
clause at the duplicate-declaration environment. -/
theorem claim_C4_amended_witness :
    configure exEnvF exCfg 4 4 0 = some (.ok exSt)
  ∧ ((∃ e, (Except.ok exSt : Except CfgErr ConfSt) = .error e) ↔
      ((∃ n, Reaches (depsListD exEnvF) exCfg.root n ∧ badJob exEnvF exCfg n) ∨
        hasDupDep exEnvF exCfg.root ∨ hasCycleFrom exEnvF exCfg.root)) :=
  ⟨rfl, (@claim_C4_amended exEnvF exCfg 4 4 0 (.ok exSt) rfl).1⟩

/-- C5 witness at a no-act run of the always-failing job. -/
theorem claim_C5_witness :
    exCfgNA.no_act = true
  ∧ (initialState exSt 0).runLog = []
  ∧ (initialState exSt 0).checkLog = []
  ∧ ∃ r, checknrun exCfgNA exEnvF (succOf exSt) 4 4 4 (initialState exSt 0) none = some r
      ∧ r.1.runLog = [] :=
  ⟨rfl, rfl, rfl, _, rfl, (@claim_C5 exCfgNA exEnvF (succOf exSt) 4 4 4
      (initialState exSt 0) none _ rfl rfl rfl rfl).1⟩

/-- C6 witness at a cleanup-enabled run of the cleanable job. -/
theorem claim_C6_witness :
    exCfgCl.cleanup = true
  ∧ ∃ r, checknrun exCfgCl exEnvClean (succOf exSt) 4 4 4 (initialState exSt 0) none
        = some r
      ∧ ((∀ o, o ∈ r.1.objsrun.reverse → cleanupOkObj exEnvClean o) →
          r.2.1 = (r.1.objsrun.reverse.filter fun o => (exEnvClean o.1).hasCleanup)
          ∧ r.2.2 = none) :=
  ⟨rfl, _, rfl, (@claim_C6 exCfgCl exEnvClean (succOf exSt) 4 4 4 (initialState exSt 0)
      none _ rfl rfl).1⟩

/-- C7 witness at a completed run of the succeeding job. -/
theorem claim_C7_witness :
    ∃ r, checknrun exCfg exEnvOk (succOf exSt) 4 4 4 (initialState exSt 0) none = some r
    ∧ (success r.1 = true ↔
        ∀ m, Reaches (succOf exSt) ((none : Option String).getD exCfg.root) m →
          truthy (statusOf r.1 m) = true) :=
  ⟨_, rfl, (@claim_C7 exCfg exEnvOk (succOf exSt) 4 4 4 (initialState exSt 0)
      none _ rfl).1⟩

/-- C10 witness at two consecutive cleanup-enabled runs. -/
theorem claim_C10_witness :
    ∃ r1 r2,
      checknrun exCfgCl exEnvClean (succOf exSt) 4 4 4 (initialState exSt 0) none
        = some r1
    ∧ checknrun exCfgCl exEnvClean (succOf exSt) 4 4 4 r1.1 none = some r2
    ∧ (∃ new, r2.1.objsrun = r1.1.objsrun ++ new) :=
  ⟨_, _, rfl, rfl, (@claim_C10 exCfgCl exEnvClean (succOf exSt) 4 4 4
      (initialState exSt 0) none none _ _ rfl rfl).2.1⟩
